import Mathlib

/-!
pDEX v3 trade estimation: AMM swap arithmetic, the matching engine and the path finder.

A shallow embedding of `pdex_v3/v2utils/swap.go`, `pdex_v3/v2utils/reserve.go`,
`pdex_v3/order_book.go`, `pdex_v3/utils.go` and `pdex_v3/pdex_v3.go`, followed by theorems
about the embedded functions.

Conventions of the embedding:

* `uint64` values are natural numbers; wherever the Go code narrows an
  arbitrary-precision value or adds two `uint64`s the bound `2 ^ 64` is explicit.
* `*big.Int` values are integers.  `big.Int.Div` is Euclidean division and panics on a
  zero divisor, `big.Int.Sqrt` is the floor square root and panics on a negative
  argument.
* A Go function returning `(T, error)` is a function into `Result T`; an error return
  carries no value (the Go code returns the zero value next to every error).  A
  run-time panic is the outcome `Result.crash`.
* Methods with a pointer receiver that update the pool return the updated pool next
  to their outcome.
* A Go map is the list of its entries, with distinct keys, in the order in which a
  `range` loop enumerates them.
-/

namespace V2utils

/-- The bound of the `uint64` range. -/
def uint64Bound : Nat := 2 ^ 64

/-- The predicate `big.Int.IsUint64`. -/
def IsUint64 (z : Int) : Bool := decide (0 ≤ z) && decide (z < (uint64Bound : Int))

/-- The conversion `big.Int.Uint64`: the low 64 bits of the absolute value. -/
def toUint64 (z : Int) : Nat := z.natAbs % uint64Bound

/-- The error values built by `fmt.Errorf` in the package, one per call site. -/
inductive TradeError where
  | insufficientInput
  | insufficientLiquidity
  | outOfRange
  | noLiquidity
  | sameDirection
  | invalidSigns
  | notEnoughToken0
  | token0OutOfRange
  | notEnoughToken1
  | token1OutOfRange
  | lengthMismatch
  | feeExceedsInput
  | sumOverflowSwap
  | sumOverflowMatch
  | minAmountNotReached (minAmount output : Nat)
  | invalidDirection (d : Nat)
  | matchFailure
  deriving DecidableEq, Repr

/-- The run-time panics the modelled code can raise. -/
inductive Panic where
  | divisionByZero
  | sqrtOfNegative
  | nilDereference
  deriving DecidableEq, Repr

/-- Outcome of a call: a returned value, a returned error, a run-time panic, or (for the
loops whose number of iterations the code does not bound) exhaustion of the iteration
budget given to the model. -/
inductive Result (α : Type) where
  | ok (a : α)
  | err (e : TradeError)
  | crash (p : Panic)
  | outOfFuel
  deriving DecidableEq, Repr

/-- Sequencing of outcomes: everything but `ok` is propagated. -/
def Result.bind {α β : Type} (r : Result α) (f : α → Result β) : Result β :=
  match r with
  | .ok a => f a
  | .err e => .err e
  | .crash p => .crash p
  | .outOfFuel => .outOfFuel

/-- The two trade directions (`iota` constants). -/
def TradeDirectionSell0 : Nat := 0

/-- The second trade direction. -/
def TradeDirectionSell1 : Nat := 1

/-- The fields of `jsonresult.Pdexv3PoolPair` read or written by the engine. -/
structure Pdexv3PoolPair where
  Token0ID : String
  Token1ID : String
  Token0RealAmount : Nat
  Token1RealAmount : Nat
  Token0VirtualAmount : Int
  Token1VirtualAmount : Int
  Amplifier : Nat
  deriving DecidableEq, Repr

/-- The function `calculateBuyAmount` of `swap.go`. -/
def calculateBuyAmount (amountIn reserveIn reserveOut : Nat)
    (virtualReserveIn virtualReserveOut : Int) : Result Nat :=
  if amountIn ≤ 0 then .err .insufficientInput
  else if reserveIn ≤ 0 ∨ reserveOut ≤ 0 then .err .insufficientLiquidity
  else
    let amount : Int := amountIn
    let num := amount * virtualReserveOut
    let den := amount + virtualReserveIn
    if den = 0 then .crash .divisionByZero
    else
      let result := num / den
      if !IsUint64 result then .err .outOfRange
      else .ok (toUint64 result)

/-- The function `calculateAmountToSell` of `swap.go`. -/
def calculateAmountToSell (amountOut reserveIn reserveOut : Nat)
    (virtualReserveIn virtualReserveOut : Int) : Result Nat :=
  if amountOut ≤ 0 then .err .insufficientInput
  else if reserveIn ≤ 0 ∨ reserveOut ≤ 0 then .err .insufficientLiquidity
  else
    let num := virtualReserveIn * (amountOut : Int)
    let den := virtualReserveOut - (amountOut : Int)
    if den = 0 then .crash .divisionByZero
    else
      let result := num / den + 1
      if !IsUint64 result then .err .outOfRange
      else .ok (toUint64 result)

/-- The method `TradingPair.BuyAmount`. -/
def BuyAmount (tp : Pdexv3PoolPair) (sellAmount tradeDirection : Nat) : Result Nat :=
  if tradeDirection = TradeDirectionSell0 then
    calculateBuyAmount sellAmount tp.Token0RealAmount tp.Token1RealAmount
      tp.Token0VirtualAmount tp.Token1VirtualAmount
  else
    calculateBuyAmount sellAmount tp.Token1RealAmount tp.Token0RealAmount
      tp.Token1VirtualAmount tp.Token0VirtualAmount

/-- The method `TradingPair.AmountToSell`. -/
def AmountToSell (tp : Pdexv3PoolPair) (buyAmount tradeDirection : Nat) : Result Nat :=
  if tradeDirection = TradeDirectionSell0 then
    calculateAmountToSell buyAmount tp.Token0RealAmount tp.Token1RealAmount
      tp.Token0VirtualAmount tp.Token1VirtualAmount
  else
    calculateAmountToSell buyAmount tp.Token1RealAmount tp.Token0RealAmount
      tp.Token1VirtualAmount tp.Token0VirtualAmount

/-- The function `HasInsufficientLiquidity`. -/
def HasInsufficientLiquidity (poolPair : Pdexv3PoolPair) : Bool :=
  decide (poolPair.Token0RealAmount ≤ 0) || decide (poolPair.Token1RealAmount ≤ 0)

/-- The reserve values `xV, yV` of the selling and buying side (the `switch` of
`SwapToReachOrderRate`): both stay `nil` for a direction that is neither constant. -/
def sellingBuyingReserves (tp : Pdexv3PoolPair) (tradeDirection : Nat) : Option (Int × Int) :=
  if tradeDirection = TradeDirectionSell0 then
    some (tp.Token0VirtualAmount, tp.Token1VirtualAmount)
  else if tradeDirection = TradeDirectionSell1 then
    some (tp.Token1VirtualAmount, tp.Token0VirtualAmount)
  else none

/-- The method `TradingPair.ApplyReserveChanges`: the pool after the call and the
returned error (`none` for `nil`).  The fields of token 0 are written before the
checks on token 1 are made. -/
def ApplyReserveChanges (tp : Pdexv3PoolPair) (change0 change1 : Int) :
    Pdexv3PoolPair × Option TradeError :=
  if change0.sign * change1.sign ≥ 0 ∧ ¬ (change0.sign = 0 ∧ change1.sign = 0) then
    (tp, some .invalidSigns)
  else
    let temp0 := (tp.Token0RealAmount : Int) + change0
    if temp0 < 0 then (tp, some .notEnoughToken0)
    else if !IsUint64 temp0 then (tp, some .token0OutOfRange)
    else
      let tp0 := { tp with
        Token0RealAmount := toUint64 temp0
        Token0VirtualAmount := tp.Token0VirtualAmount + change0 }
      let temp1 := (tp0.Token1RealAmount : Int) + change1
      if temp1 < 0 then (tp0, some .notEnoughToken1)
      else if !IsUint64 temp1 then (tp0, some .token1OutOfRange)
      else
        ({ tp0 with
            Token1RealAmount := toUint64 temp1
            Token1VirtualAmount := tp0.Token1VirtualAmount + change1 }, none)

/-- Modelled from the spec: the type `jsonresult.Pdexv3Order` wrapped by `MatchingOrder`
(its declaration is not part of the sources): an identifier, a direction, the rate as a
ratio of two unsigned integers, and the remaining balances. -/
structure Pdexv3Order where
  Id : String
  TradeDirection : Nat
  Token0Rate : Nat
  Token1Rate : Nat
  Token0Balance : Nat
  Token1Balance : Nat
  deriving DecidableEq, Repr

/-- Modelled from the spec: the methods `MatchingOrder.CanMatch` and `MatchingOrder.Match`
(the external order-matching primitive; their file is not part of the sources).
`CanMatch` returns a flag and an error; `Match` consumes the balance of the order and
returns `(amountBought, amountRemainingToSell, delta0, delta1)` or an error, next to the
order after the call. -/
structure MatchingPrimitive where
  CanMatch : Pdexv3Order → Nat → Bool × Option TradeError
  Match : Pdexv3Order → Nat → Nat → Pdexv3Order × Result (Nat × Nat × Int × Int)

/-- The value `targetDeltaX` computed by `SwapToReachOrderRate` for an order of the
other direction (lines 86-98): `sqrt(xV * yV * xOrd / yOrd) - xV`. -/
def targetDeltaX (tp : Pdexv3PoolPair) (tradeDirection : Nat) (ord : Pdexv3Order) :
    Result Int :=
  let xOrd : Int := if tradeDirection = TradeDirectionSell0 then ord.Token0Rate
    else ord.Token1Rate
  let yOrd : Int := if tradeDirection = TradeDirectionSell0 then ord.Token1Rate
    else ord.Token0Rate
  match sellingBuyingReserves tp tradeDirection with
  | none => .crash .nilDereference
  | some (xV, yV) =>
    let L := xV * yV
    let t := L * xOrd
    if yOrd = 0 then .crash .divisionByZero
    else
      let t := t / yOrd
      if t < 0 then .crash .sqrtOfNegative
      else .ok ((Nat.sqrt t.toNat : Int) - xV)

/-- The end of `SwapToReachOrderRate` (lines 130-144): the signed reserve changes of a
swap of `finalSellAmount` for `buyAmount`, applied to the pool. -/
def applySwap (tp : Pdexv3PoolPair) (tradeDirection finalSellAmount sellAmountRemain
    buyAmount : Nat) : Pdexv3PoolPair × Result (Nat × Nat × Int × Int) :=
  let token0Change : Int :=
    if tradeDirection = TradeDirectionSell0 then finalSellAmount else -(buyAmount : Int)
  let token1Change : Int :=
    if tradeDirection = TradeDirectionSell0 then -(buyAmount : Int) else finalSellAmount
  match ApplyReserveChanges tp token0Change token1Change with
  | (tp1, some e) => (tp1, .err e)
  | (tp1, none) => (tp1, .ok (buyAmount, sellAmountRemain, token0Change, token1Change))

/-- The method `TradingPair.SwapToReachOrderRate`: the pool after the call and the
outcome `(buyAmount, sellAmountRemain, token0Change, token1Change)`. -/
def SwapToReachOrderRate (tp : Pdexv3PoolPair) (maxSellAmountAfterFee tradeDirection : Nat)
    (ord : Option Pdexv3Order) : Pdexv3PoolPair × Result (Nat × Nat × Int × Int) :=
  let maxDeltaX : Int := maxSellAmountAfterFee
  if HasInsufficientLiquidity tp then (tp, .err .noLiquidity)
  else
    match ord with
    | none =>
      match BuyAmount tp maxSellAmountAfterFee tradeDirection with
      | .ok buyAmount => applySwap tp tradeDirection maxSellAmountAfterFee 0 buyAmount
      | .err e => (tp, .err e)
      | .crash p => (tp, .crash p)
      | .outOfFuel => (tp, .outOfFuel)
    | some o =>
      if tradeDirection = o.TradeDirection then (tp, .err .sameDirection)
      else
        match targetDeltaX tp tradeDirection o with
        | .ok t =>
          if t ≥ maxDeltaX then
            match BuyAmount tp maxSellAmountAfterFee tradeDirection with
            | .ok buyAmount => applySwap tp tradeDirection maxSellAmountAfterFee 0 buyAmount
            | .err e => (tp, .err e)
            | .crash p => (tp, .crash p)
            | .outOfFuel => (tp, .outOfFuel)
          else if t ≤ 0 then (tp, .ok (0, maxSellAmountAfterFee, 0, 0))
          else
            let finalSellAmount := toUint64 t
            let sellAmountRemain := toUint64 (maxDeltaX - t)
            match BuyAmount tp finalSellAmount tradeDirection with
            | .ok buyAmount =>
              if buyAmount = 0 then (tp, .ok (0, maxSellAmountAfterFee, 0, 0))
              else applySwap tp tradeDirection finalSellAmount sellAmountRemain buyAmount
            | .err e => (tp, .err e)
            | .crash p => (tp, .crash p)
            | .outOfFuel => (tp, .outOfFuel)
        | .err e => (tp, .err e)
        | .crash p => (tp, .crash p)
        | .outOfFuel => (tp, .outOfFuel)

end V2utils

namespace Pdex_v3

open V2utils

/-- The type `OrderBook`. -/
structure OrderBook where
  orders : List Pdexv3Order
  deriving DecidableEq, Repr

/-- The backward scan of `NextOrder` for `TradeDirectionSell0`: positions `i - 1`
down to `0`. -/
def nextOrderSell0 (M : MatchingPrimitive) (orders : List Pdexv3Order) (tradeDirection : Nat) :
    Nat → Option (Nat × Pdexv3Order)
  | 0 => none
  | i + 1 =>
    match orders.get? i with
    | some o =>
      if (M.CanMatch o tradeDirection).1 && (M.CanMatch o tradeDirection).2.isNone then
        some (i, o)
      else nextOrderSell0 M orders tradeDirection i
    | none => nextOrderSell0 M orders tradeDirection i

/-- The forward scan of `NextOrder` for `TradeDirectionSell1`, from position `i` on. -/
def nextOrderSell1 (M : MatchingPrimitive) (tradeDirection : Nat) :
    List Pdexv3Order → Nat → Option (Nat × Pdexv3Order)
  | [], _ => none
  | o :: rest, i =>
    if (M.CanMatch o tradeDirection).1 && (M.CanMatch o tradeDirection).2.isNone then
      some (i, o)
    else nextOrderSell1 M tradeDirection rest (i + 1)

/-- The method `OrderBook.NextOrder`: the matching order (with its position in the book,
which stands for the pointer the Go code returns) and its `Id`, `(none, "")` when no
order is active, or an error for an invalid direction. -/
def OrderBook.NextOrder (M : MatchingPrimitive) (ob : OrderBook) (tradeDirection : Nat) :
    Result (Option (Nat × Pdexv3Order) × String) :=
  if tradeDirection = TradeDirectionSell0 then
    match nextOrderSell0 M ob.orders tradeDirection ob.orders.length with
    | some (i, o) => .ok (some (i, o), o.Id)
    | none => .ok (none, "")
  else if tradeDirection = TradeDirectionSell1 then
    match nextOrderSell1 M tradeDirection ob.orders 0 with
    | some (i, o) => .ok (some (i, o), o.Id)
    | none => .ok (none, "")
  else .err (.invalidDirection tradeDirection)

/-- The loop of `sort.Search` of the Go standard library (binary search on `[i, j)`):
`h` is the midpoint, `i` moves to `h + 1` when `f h` is false and `j` moves to `h`
otherwise.  Each iteration shrinks the interval, so `j - i` iterations are enough. -/
def sortSearchLoop (f : Nat → Bool) : Nat → Nat → Nat → Nat
  | 0, i, _ => i
  | fuel + 1, i, j =>
    if i < j then
      let h := (i + j) / 2
      if !f h then sortSearchLoop f fuel (h + 1) j else sortSearchLoop f fuel i h
    else i

/-- The function `sort.Search n f` of the Go standard library. -/
def sortSearch (n : Nat) (f : Nat → Bool) : Nat := sortSearchLoop f n 0 n

/-- The closure passed to `sort.Search` by `InsertOrder`, at `cur = ob.orders[i]`: whether
the new order `ord` goes before `cur`.  The rates are compared by cross-multiplication;
`strings.Compare` is the lexicographic order of the identifiers, taken on their lists of
characters.  The constant
`TradeDirectionSell0` of package `pdex_v3` is not declared in the sources and is taken to
be the one of `v2utils`. -/
def insertBefore (ord cur : Pdexv3Order) : Bool :=
  let ordRate := cur.Token0Rate * ord.Token1Rate
  let myRate := cur.Token1Rate * ord.Token0Rate
  if ordRate = myRate then
    if ord.TradeDirection ≠ cur.TradeDirection then
      decide (ord.TradeDirection = TradeDirectionSell0)
    else if ord.TradeDirection = TradeDirectionSell0 then
      decide (ord.Id.toList < cur.Id.toList)
    else decide (cur.Id.toList < ord.Id.toList)
  else decide (ordRate < myRate)

/-- The closure `insertAt` of `InsertOrder`. -/
def insertAt (lst : List Pdexv3Order) (i : Nat) (newItem : Pdexv3Order) : List Pdexv3Order :=
  if i = lst.length then lst ++ [newItem]
  else (lst.take (i + 1) ++ lst.drop i).set i newItem

/-- The method `OrderBook.InsertOrder`. -/
def OrderBook.InsertOrder (ob : OrderBook) (ord : Pdexv3Order) : OrderBook :=
  let index := sortSearch ob.orders.length fun i =>
    match ob.orders.get? i with
    | some cur => insertBefore ord cur
    | none => false
  ⟨insertAt ob.orders index ord⟩

end Pdex_v3

namespace V2utils

open Pdex_v3

/-- The inner `for` loop of `EstimateReceivingAmount` for one hop (lines 211-241), run
for at most `fuel` iterations: the value of `totalBuyAmount` when the loop is left, or
the error returned from inside it. -/
def hopLoop (M : MatchingPrimitive) (tradeDirection : Nat) :
    Nat → Pdexv3PoolPair → OrderBook → Nat → Nat → Result Nat
  | 0, _, _, _, _ => .outOfFuel
  | fuel + 1, tp, ob, sellAmountRemain, totalBuyAmount =>
    match ob.NextOrder M tradeDirection with
    | .ok (order, _) =>
      match SwapToReachOrderRate tp sellAmountRemain tradeDirection (order.map Prod.snd) with
      | (tp1, .ok (buyAmount, temp, _, _)) =>
        if (totalBuyAmount + buyAmount) % uint64Bound < totalBuyAmount then
          .err .sumOverflowSwap
        else
          let total1 := (totalBuyAmount + buyAmount) % uint64Bound
          if temp = 0 then .ok total1
          else
            match order with
            | none => hopLoop M tradeDirection fuel tp1 ob temp total1
            | some (i, o) =>
              match M.Match o temp tradeDirection with
              | (o1, .ok (buyAmount2, temp2, _, _)) =>
                if (total1 + buyAmount2) % uint64Bound < total1 then .err .sumOverflowMatch
                else
                  let total2 := (total1 + buyAmount2) % uint64Bound
                  if temp2 = 0 then .ok total2
                  else hopLoop M tradeDirection fuel tp1 ⟨ob.orders.set i o1⟩ temp2 total2
              | (_, .err e) => .err e
              | (_, .crash p) => .crash p
              | (_, .outOfFuel) => .outOfFuel
      | (_, .err e) => .err e
      | (_, .crash p) => .crash p
      | (_, .outOfFuel) => .outOfFuel
    | _ => .ok totalBuyAmount

/-- The outer loop of `EstimateReceivingAmount` (lines 208-245) over the hops: the value
of `totalBuyAmount` after the last hop. -/
def estimateHops (M : MatchingPrimitive) (fuel : Nat) :
    List (Pdexv3PoolPair × Nat × OrderBook) → Nat → Nat → Result Nat
  | [], _, totalBuyAmount => .ok totalBuyAmount
  | (tp, d, ob) :: rest, sellAmountRemain, _ =>
    (hopLoop M d fuel tp ob sellAmountRemain 0).bind fun total =>
      estimateHops M fuel rest total total

/-- The function `EstimateReceivingAmount`.  The pools of the path are distinct objects
(`TradePathFromState` clones one per hop), so each hop works on its own pool and book;
`fuel` bounds the iterations of the inner loop of each hop. -/
def EstimateReceivingAmount (M : MatchingPrimitive) (fuel : Nat) (amountIn fee : Nat)
    (reserves : List Pdexv3PoolPair) (tradeDirections : List Nat) (minAmount : Nat)
    (orderBooks : List OrderBook) : Result Nat :=
  if tradeDirections.length ≠ reserves.length ∨ orderBooks.length ≠ reserves.length then
    .err .lengthMismatch
  else if amountIn < fee then .err .feeExceedsInput
  else
    match estimateHops M fuel (reserves.zip (tradeDirections.zip orderBooks))
        (amountIn - fee) 0 with
    | .ok totalBuyAmount =>
      if totalBuyAmount < minAmount then
        .err (.minAmountNotReached minAmount totalBuyAmount)
      else .ok totalBuyAmount
    | r => r

/-! ## Statements of the specification -/

/-- The outcome the specification gives for `BuyAmount` on a pool with liquidity:
`floor(sellAmount * vOut / (sellAmount + vIn))`, the floor of the rational quotient,
when it fits in 64 bits. -/
def specBuyAmount (sellAmount : Nat) (vIn vOut : Int) : Result Nat :=
  let q : Int := ⌊((sellAmount : ℚ) * (vOut : ℚ)) / ((sellAmount : ℚ) + (vIn : ℚ))⌋
  if 0 ≤ q ∧ q < 2 ^ 64 then .ok q.toNat else .err .outOfRange

/-- The ceiling `ceil(vIn * buyAmount / (vOut - buyAmount))` of the rational quotient. -/
def specCeilToSell (buyAmount : Nat) (vIn vOut : Int) : Int :=
  ⌈((vIn : ℚ) * (buyAmount : ℚ)) / ((vOut : ℚ) - (buyAmount : ℚ))⌉

/-- The floor `floor(vIn * buyAmount / (vOut - buyAmount))` of the rational quotient. -/
def specFloorToSell (buyAmount : Nat) (vIn vOut : Int) : Int :=
  ⌊((vIn : ℚ) * (buyAmount : ℚ)) / ((vOut : ℚ) - (buyAmount : ℚ))⌋

/-- The outcome of `AmountToSell` on a pool with liquidity: the floor of the rational
quotient plus one, when it fits in 64 bits. -/
def specAmountToSell (buyAmount : Nat) (vIn vOut : Int) : Result Nat :=
  let r : Int := specFloorToSell buyAmount vIn vOut + 1
  if 0 ≤ r ∧ r < 2 ^ 64 then .ok r.toNat else .err .outOfRange

/-- The invariant of the data model: each virtual reserve is at least the real one. -/
@[reducible] def VirtualAtLeastReal (tp : Pdexv3PoolPair) : Prop :=
  (tp.Token0RealAmount : Int) ≤ tp.Token0VirtualAmount ∧
    (tp.Token1RealAmount : Int) ≤ tp.Token1VirtualAmount

/-- The target of the specification for an order with rate `xOrd : yOrd`:
`floor(sqrt(floor(xV * yV * xOrd / yOrd))) - xV`, the inner quotient taken over the
rationals. -/
def specTargetDeltaX (xV yV : Int) (xOrd yOrd : Nat) : Int :=
  (Nat.sqrt ⌊((xV : ℚ) * (yV : ℚ) * (xOrd : ℚ)) / (yOrd : ℚ)⌋.toNat : Int) - xV

/-- The composition of the specification for a path without orders: each hop is a
`BuyAmount` on its own pool in its own direction, fed with the output of the hop before. -/
def chainBuyAmount : List (Pdexv3PoolPair × Nat) → Nat → Result Nat
  | [], x => .ok x
  | (tp, d) :: rest, x => (BuyAmount tp x d).bind (chainBuyAmount rest)

/-- A matching primitive under which no order can be matched. -/
def noMatching : MatchingPrimitive :=
  ⟨fun _ _ => (false, none), fun o _ _ => (o, .err .matchFailure)⟩

/-- A sample pool: real and virtual reserves 1,000,000 / 1,000,000. -/
def samplePool : Pdexv3PoolPair := ⟨"t0", "t1", 1000000, 1000000, 1000000, 1000000, 1⟩

/-- A resting order selling token1 at the rate 4 : 1 (token0 : token1). -/
def sampleOrder : Pdexv3Order := ⟨"o1", 1, 4, 1, 0, 1000000⟩

/-- The sample pool after selling 1,000,000 of token0 for 500,000 of token1. -/
def samplePoolAfter : Pdexv3PoolPair := ⟨"t0", "t1", 2000000, 500000, 2000000, 500000, 1⟩

/-- A minimal pool: real and virtual reserves 1 / 1. -/
def unitPool : Pdexv3PoolPair := ⟨"t0", "t1", 1, 1, 1, 1, 1⟩

/-- A small pool: real and virtual reserves 10 / 10. -/
def smallPool : Pdexv3PoolPair := ⟨"t0", "t1", 10, 10, 10, 10, 1⟩

/-- An amplified pool: real reserves 10 / 10, virtual reserves 1000 / 1000. -/
def amplifiedPool : Pdexv3PoolPair := ⟨"t0", "t1", 10, 10, 1000, 1000, 100⟩

/-- The amplified pool with the reserves of token0 shifted by 500 and those of token1
untouched. -/
def amplifiedPoolHalf : Pdexv3PoolPair := ⟨"t0", "t1", 510, 10, 1500, 1000, 100⟩

/-- A resting order selling token1 at the rate 1 : 1. -/
def parityOrder : Pdexv3Order := ⟨"o2", 1, 1, 1, 0, 1000000⟩

/-- A pool with real reserves 1 / 1 and virtual reserves -3 / 5: selling 3 of token0
makes the denominator `sellAmount + vIn` zero. -/
def cancelPool : Pdexv3PoolPair := ⟨"t0", "t1", 1, 1, -3, 5, 1⟩

/-- A pool with real reserves 1 / 1 and virtual reserves -5 / -7: selling 3 of token0
makes the denominator `sellAmount + vIn` negative. -/
def negativePool : Pdexv3PoolPair := ⟨"t0", "t1", 1, 1, -5, -7, 1⟩

end V2utils

namespace Pdex_v3

open V2utils

/-! ## The path finder -/

/-- The type `Node` of `utils.go`. -/
structure Node where
  TokenIDStr : String
  TokenPoolValue : Int
  deriving DecidableEq, Repr

/-- The type `SimplePoolNodeData` of `utils.go`. -/
structure SimplePoolNodeData where
  Token0ID : String
  Token1ID : String
  Token0Liq : Int
  Token1Liq : Int
  deriving DecidableEq, Repr

/-- The fields of `jsonresult.Pdexv3PoolPairState` read by the engine: the pool and the
orders of its book. -/
structure Pdexv3PoolPairState where
  State : Pdexv3PoolPair
  Orderbook : List Pdexv3Order
  deriving DecidableEq, Repr

/-- The map `map[string]*jsonresult.Pdexv3PoolPairState`, as the list of its entries in
the order in which a `range` loop enumerates them (Go leaves that order unspecified); the
keys are distinct. -/
abbrev PoolPairStates := List (String × Pdexv3PoolPairState)

/-- The field `Graph` of `PriceCalculator`: the adjacency lists by token. -/
abbrev Graph := List (String × List Node)

/-- The assignment `graph[key] = nodes`. -/
def graphSet (key : String) (nodes : List Node) : Graph → Graph
  | [] => [(key, nodes)]
  | (k, v) :: rest => if k = key then (key, nodes) :: rest else (k, v) :: graphSet key nodes rest

/-- The loop of `addEdge` over the existing destinations: the first node with the
identifier of `dest` takes the larger of the two pool values; `none` when there is none. -/
def updateExisted (dest : Node) : List Node → Option (List Node)
  | [] => none
  | existedDest :: rest =>
    if existedDest.TokenIDStr = dest.TokenIDStr then
      some ((if existedDest.TokenPoolValue < dest.TokenPoolValue then
        { existedDest with TokenPoolValue := dest.TokenPoolValue } else existedDest) :: rest)
    else (updateExisted dest rest).map (existedDest :: ·)

/-- The function `addEdge`. -/
def addEdge (tokenIDStrSource tokenIDStrDest : String) (tokenLiqSource : Int) (graph : Graph) :
    Graph :=
  let dest : Node := ⟨tokenIDStrDest, tokenLiqSource⟩
  match graph.lookup tokenIDStrSource with
  | none => graphSet tokenIDStrSource [dest] graph
  | some nodes =>
    match updateExisted dest nodes with
    | some nodes1 => graphSet tokenIDStrSource nodes1 graph
    | none => graphSet tokenIDStrSource (nodes ++ [dest]) graph

/-- The method `buildGraph`: two edges per pool, then every adjacency list sorted by
descending pool value with `sort.SliceStable` (a stable sort, here by insertion). -/
def buildGraph (simplePools : List SimplePoolNodeData) : Graph :=
  let graph := simplePools.foldl (fun g pool =>
    addEdge pool.Token1ID pool.Token0ID pool.Token1Liq
      (addEdge pool.Token0ID pool.Token1ID pool.Token0Liq g)) []
  graph.map fun kv =>
    (kv.1, kv.2.insertionSort fun a b => a.TokenPoolValue ≥ b.TokenPoolValue)

/-- The conversion `int(x)` of a `uint` on a 64-bit platform. -/
def intOfUint (x : Nat) : Int :=
  if x % uint64Bound < 2 ^ 63 then ((x % uint64Bound : Nat) : Int)
  else ((x % uint64Bound : Nat) : Int) - 2 ^ 64

/-- The method `findPath`: the depth-first search, returning the paths found so far.
`visited` lists the tokens marked in the map `visited` (those of the current path);
`MaxPaths`, a constant that is not declared in the sources, is a parameter; `fuel` bounds
the depth of the recursion, which the code bounds by `maxPathLen`. -/
def findPath (MaxPaths : Nat) (graph : Graph) (maxPathLen : Int) (tokenIDStrDest : String) :
    Nat → String → List String → List String → List (List String) → List (List String)
  | 0, _, _, _, allPaths => allPaths
  | fuel + 1, tokenIDStrSource, visited, path, allPaths =>
    if allPaths.length = MaxPaths then allPaths
    else
      let path1 := path ++ [tokenIDStrSource]
      let visited1 := tokenIDStrSource :: visited
      if tokenIDStrSource = tokenIDStrDest then allPaths ++ [path1]
      else if (path1.length : Int) < maxPathLen then
        match graph.lookup tokenIDStrSource with
        | some nodes =>
          nodes.foldl (fun acc node =>
            if node.TokenIDStr ∈ visited1 then acc
            else findPath MaxPaths graph maxPathLen tokenIDStrDest fuel node.TokenIDStr
              visited1 path1 acc) allPaths
        | none => allPaths
      else allPaths

/-- The method `findPaths`. -/
def findPaths (MaxPaths : Nat) (maxPathLen : Nat) (simplePools : List SimplePoolNodeData)
    (tokenIDStrSource tokenIDStrDest : String) : List (List String) :=
  findPath MaxPaths (buildGraph simplePools) (intOfUint maxPathLen) tokenIDStrDest
    ((intOfUint maxPathLen).toNat + 1) tokenIDStrSource [] [] []

/-- The errors of `TradePathFromState`. -/
inductive PathError where
  | incompatibleSellingToken
  | nonexistentPair
  deriving DecidableEq, Repr

/-- The function `TradePathFromState`: the pools (cloned), order books and directions of
a path of pool identifiers, starting from the token sold. -/
def TradePathFromState (sellToken : String) (tradePath : List String)
    (pairs : PoolPairStates) :
    Except PathError (List Pdexv3PoolPair × List OrderBook × List Nat) :=
  let rec go : List String → String → List Pdexv3PoolPair → List OrderBook → List Nat →
      Except PathError (List Pdexv3PoolPair × List OrderBook × List Nat)
    | [], _, results, orderBookList, tradeDirections =>
      .ok (results, orderBookList, tradeDirections)
    | pairID :: rest, nextTokenToSell, results, orderBookList, tradeDirections =>
      match pairs.lookup pairID with
      | some pair =>
        if nextTokenToSell = pair.State.Token0ID then
          go rest pair.State.Token1ID (results ++ [pair.State])
            (orderBookList ++ [⟨pair.Orderbook⟩]) (tradeDirections ++ [TradeDirectionSell0])
        else if nextTokenToSell = pair.State.Token1ID then
          go rest pair.State.Token0ID (results ++ [pair.State])
            (orderBookList ++ [⟨pair.Orderbook⟩]) (tradeDirections ++ [TradeDirectionSell1])
        else .error .incompatibleSellingToken
      | none => .error .nonexistentPair
  go tradePath sellToken [] [] []

/-- The function `trade`: the estimate of a one-hop trade in a pool, `0` when the
estimation returns an error. -/
def trade (M : MatchingPrimitive) (fuel : Nat) (poolID : String)
    (poolPairStates : PoolPairStates) (tokenIDToBuyStr : String) (sellAmount : Nat) :
    Result Nat :=
  match poolPairStates.lookup poolID with
  | none => .crash .nilDereference
  | some poolState =>
    let pool := poolState.State
    let tokenIDToSell :=
      if tokenIDToBuyStr ≠ pool.Token0ID then pool.Token0ID else pool.Token1ID
    let path := match TradePathFromState tokenIDToSell [poolID] poolPairStates with
      | .ok r => r
      | .error _ => ([], [], [])
    match EstimateReceivingAmount M fuel sellAmount 0 path.1 path.2.2 0 path.2.1 with
    | .ok expectedReceived => .ok expectedReceived
    | .err _ => .ok 0
    | .crash p => .crash p
    | .outOfFuel => .outOfFuel

/-- The function `chooseBestPoolFromAPair`: the pool, its identifier and the amount of
the best one-hop trade among the pools joining the two tokens (`nil`, the empty
identifier and `0` when no pool buys a positive amount). -/
def chooseBestPoolFromAPair (M : MatchingPrimitive) (fuel : Nat)
    (poolPairStates : PoolPairStates) (tokenIDStrNodeSource tokenIDStrNodeDest : String)
    (sellAmt : Nat) : Result (Option Pdexv3PoolPair × String × Nat) :=
  poolPairStates.foldl (fun acc entry =>
    acc.bind fun chosen =>
      let pool := entry.2.State
      if (tokenIDStrNodeSource = pool.Token0ID ∧ tokenIDStrNodeDest = pool.Token1ID) ∨
          (tokenIDStrNodeSource = pool.Token1ID ∧ tokenIDStrNodeDest = pool.Token0ID) then
        (trade M fuel entry.1 poolPairStates tokenIDStrNodeDest sellAmt).bind fun receive =>
          if receive > chosen.2.2 then .ok (some pool, entry.1, receive) else .ok chosen
      else .ok chosen) (.ok (none, "", 0))

/-- One iteration of the loop of `chooseBestPoolFromAPair` (lines 18-34). -/
def chooseStep (M : MatchingPrimitive) (fuel : Nat) (poolPairStates : PoolPairStates)
    (tokenIDStrNodeSource tokenIDStrNodeDest : String) (sellAmt : Nat)
    (acc : Result (Option Pdexv3PoolPair × String × Nat))
    (entry : String × Pdexv3PoolPairState) : Result (Option Pdexv3PoolPair × String × Nat) :=
  acc.bind fun chosen =>
    let pool := entry.2.State
    if (tokenIDStrNodeSource = pool.Token0ID ∧ tokenIDStrNodeDest = pool.Token1ID) ∨
        (tokenIDStrNodeSource = pool.Token1ID ∧ tokenIDStrNodeDest = pool.Token0ID) then
      (trade M fuel entry.1 poolPairStates tokenIDStrNodeDest sellAmt).bind fun receive =>
        if receive > chosen.2.2 then .ok (some pool, entry.1, receive) else .ok chosen
    else .ok chosen

/-- The inner loop of `FindGoodTradePath` (lines 119-127): the walk along a token path,
hop by hop, with the pools and identifiers chosen and the amount carried forward. -/
def walkPath (M : MatchingPrimitive) (fuel : Nat) (poolPairStates : PoolPairStates) :
    List String → Nat → List (Option Pdexv3PoolPair) → List String →
      Result (List (Option Pdexv3PoolPair) × List String × Nat)
  | tokenIDStrNodeSource :: tokenIDStrNodeDest :: rest, sellAmt, poolsByPath, poolIDsByPath =>
    (chooseBestPoolFromAPair M fuel poolPairStates tokenIDStrNodeSource tokenIDStrNodeDest
      sellAmt).bind fun r =>
        walkPath M fuel poolPairStates (tokenIDStrNodeDest :: rest) r.2.2
          (poolsByPath ++ [r.1]) (poolIDsByPath ++ [r.2.1])
  | _, sellAmt, poolsByPath, poolIDsByPath => .ok (poolsByPath, poolIDsByPath, sellAmt)

/-- The update of the choice in the outer loop of `FindGoodTradePath` (lines 129-133): the
walk of a path replaces the choice when it has no hop or yields strictly more. -/
def keepBetter (chosen walked : List (Option Pdexv3PoolPair) × List String × Nat) :
    List (Option Pdexv3PoolPair) × List String × Nat :=
  if walked.1.length = 0 ∨ walked.2.2 > chosen.2.2 then walked else chosen

/-- The liquidity of a pool for the graph (lines 90-101); the division panics on a zero
amplifier.  `BaseAmplifier`, a constant that is not declared in the sources, is a
parameter. -/
def simplePoolOf (BaseAmplifier : Nat) (poolState : Pdexv3PoolPairState) :
    Result SimplePoolNodeData :=
  let pool := poolState.State
  if pool.Amplifier % uint64Bound = 0 then .crash .divisionByZero
  else .ok
    { Token0ID := pool.Token0ID
      Token1ID := pool.Token1ID
      Token0Liq := pool.Token0VirtualAmount * (BaseAmplifier : Int) /
        ((pool.Amplifier % uint64Bound : Nat) : Int)
      Token1Liq := pool.Token1VirtualAmount * (BaseAmplifier : Int) /
        ((pool.Amplifier % uint64Bound : Nat) : Int) }

/-- The simple pools of a snapshot, in the order of enumeration. -/
def simplePoolsOf (BaseAmplifier : Nat) : PoolPairStates → Result (List SimplePoolNodeData)
  | [] => .ok []
  | entry :: rest =>
    (simplePoolOf BaseAmplifier entry.2).bind fun sp =>
      (simplePoolsOf BaseAmplifier rest).bind fun sps => .ok (sp :: sps)

/-- One iteration of the outer loop of `FindGoodTradePath` (lines 113-134): the walk of
one candidate path, compared with the choice made so far. -/
def selectStep (M : MatchingPrimitive) (fuel : Nat) (poolPairStates : PoolPairStates)
    (originalSellAmount : Nat)
    (acc : Result (List (Option Pdexv3PoolPair) × List String × Nat)) (path : List String) :
    Result (List (Option Pdexv3PoolPair) × List String × Nat) :=
  acc.bind fun chosen =>
    (walkPath M fuel poolPairStates path originalSellAmount [] []).bind fun walked =>
      .ok (keepBetter chosen walked)

/-- The outer loop of `FindGoodTradePath` (lines 110-134) over the candidate paths. -/
def selectPath (M : MatchingPrimitive) (fuel : Nat) (poolPairStates : PoolPairStates)
    (originalSellAmount : Nat) (allPaths : List (List String)) :
    Result (List (Option Pdexv3PoolPair) × List String × Nat) :=
  allPaths.foldl (selectStep M fuel poolPairStates originalSellAmount) (.ok ([], [], 0))

/-- The function `FindGoodTradePath`: the chosen pools, their identifiers and the amount
received. -/
def FindGoodTradePath (M : MatchingPrimitive) (fuel MaxPaths BaseAmplifier : Nat)
    (maxPathLen : Nat) (poolPairStates : PoolPairStates)
    (tokenIDStrSource tokenIDStrDest : String) (originalSellAmount : Nat) :
    Result (List (Option Pdexv3PoolPair) × List String × Nat) :=
  (simplePoolsOf BaseAmplifier poolPairStates).bind fun simplePools =>
    let allPaths := findPaths MaxPaths ((maxPathLen + 1) % uint64Bound) simplePools
      tokenIDStrSource tokenIDStrDest
    if allPaths.length = 0 then .ok ([], [], 0)
    else selectPath M fuel poolPairStates originalSellAmount allPaths

/-! ## Statements of the specification on the order book -/

/-- The condition under which `NextOrder` returns an order: `CanMatch` gives `true` and
no error. -/
def canMatch (M : MatchingPrimitive) (o : Pdexv3Order) (d : Nat) : Bool :=
  (M.CanMatch o d).1 && (M.CanMatch o d).2.isNone

/-- The effective rate `Token1Rate / Token0Rate` of an order, as a rational number. -/
def effectiveRate (o : Pdexv3Order) : ℚ := (o.Token1Rate : ℚ) / (o.Token0Rate : ℚ)

/-- The effective rate `Token1Rate / Token0Rate` of `a` is at most that of `b`, compared
by cross-multiplication. -/
@[reducible] def rateLe (a b : Pdexv3Order) : Prop :=
  a.Token1Rate * b.Token0Rate ≤ b.Token1Rate * a.Token0Rate

/-- The effective rates of `a` and `b` are equal, compared by cross-multiplication. -/
@[reducible] def rateEq (a b : Pdexv3Order) : Prop :=
  a.Token1Rate * b.Token0Rate = b.Token1Rate * a.Token0Rate

/-- The order of two entries of a sorted book, `a` before `b`, in the words of the
specification: the rate of `a` is at most that of `b`; at equal rates a `Sell1` order does
not precede a `Sell0` order, two `Sell0` orders have ascending identifiers and two `Sell1`
orders descending ones. -/
@[reducible] def orderBefore (a b : Pdexv3Order) : Prop :=
  rateLe a b ∧ (rateEq a b →
    ¬ (a.TradeDirection = TradeDirectionSell1 ∧ b.TradeDirection = TradeDirectionSell0) ∧
    (a.TradeDirection = TradeDirectionSell0 → b.TradeDirection = TradeDirectionSell0 →
      a.Id.toList < b.Id.toList) ∧
    (a.TradeDirection = TradeDirectionSell1 → b.TradeDirection = TradeDirectionSell1 →
      b.Id.toList < a.Id.toList))

/-- A sorted book: every earlier entry is before every later one. -/
@[reducible] def SortedBook (l : List Pdexv3Order) : Prop := l.Pairwise orderBefore

/-- A book with ascending effective rates. -/
@[reducible] def RateSorted (l : List Pdexv3Order) : Prop := l.Pairwise rateLe

/-- An order with a direction in `{Sell0, Sell1}` and a non-zero `Token0Rate`. -/
@[reducible] def ValidOrder (o : Pdexv3Order) : Prop :=
  (o.TradeDirection = TradeDirectionSell0 ∨ o.TradeDirection = TradeDirectionSell1) ∧
    o.Token0Rate ≠ 0

/-- The book obtained from the empty book by inserting the orders of a list one after
the other. -/
def insertAll (os : List Pdexv3Order) : OrderBook := os.foldl OrderBook.InsertOrder ⟨[]⟩

/-- Repeated `NextOrder` calls in one direction, at most `n` of them: each returned order
is recorded and replaced in the book by its consumed state before the next call. -/
def drainOrders (M : MatchingPrimitive) (consume : Pdexv3Order → Pdexv3Order) (d : Nat) :
    Nat → OrderBook → List Pdexv3Order
  | 0, _ => []
  | n + 1, ob =>
    match ob.NextOrder M d with
    | .ok (some (i, o), _) =>
      o :: drainOrders M consume d n ⟨ob.orders.set i (consume o)⟩
    | _ => []

/-- A matching primitive under which an order matches a direction when it has a balance
of the token bought by that direction. -/
def balanceMatching : MatchingPrimitive :=
  ⟨fun o d => (decide (d ≠ o.TradeDirection) &&
      decide (0 < (if d = TradeDirectionSell0 then o.Token1Balance else o.Token0Balance)),
      none),
    fun o _ _ => (o, .err .matchFailure)⟩

/-- An order with its balances emptied. -/
def emptied (o : Pdexv3Order) : Pdexv3Order := { o with Token0Balance := 0, Token1Balance := 0 }

/-- Sample orders: `Sell0` at rate 1, `Sell0` at rate 2, and two `Sell1` at rate 1. -/
def orderA : Pdexv3Order := ⟨"a", 0, 1, 1, 5, 0⟩

/-- The sample `Sell0` order at rate 2. -/
def orderB : Pdexv3Order := ⟨"b", 0, 1, 2, 5, 0⟩

/-- The sample `Sell1` order `c` at rate 1. -/
def orderC : Pdexv3Order := ⟨"c", 1, 1, 1, 0, 5⟩

/-- The sample `Sell1` order `d` at rate 1. -/
def orderD : Pdexv3Order := ⟨"d", 1, 1, 1, 0, 5⟩

/-- The sample `Sell1` order `e` at rate 3. -/
def orderE : Pdexv3Order := ⟨"e", 1, 1, 3, 0, 5⟩

/-- An order `z` at rate 1 whose direction byte, 2, is neither `Sell0` nor `Sell1`. -/
def orderZ : Pdexv3Order := ⟨"z", 2, 1, 1, 5, 5⟩

/-- A `Sell0` order `n` whose two rates are zero. -/
def orderN : Pdexv3Order := ⟨"n", 0, 0, 0, 5, 0⟩

/-- A sample snapshot: a pool joining `X` and `Y` and a pool joining `Y` and `Z`. -/
def poolXY : Pdexv3PoolPair := ⟨"X", "Y", 1000000, 1000000, 1000000, 1000000, 10000⟩

/-- The sample pool joining `Y` and `Z`. -/
def poolYZ : Pdexv3PoolPair := ⟨"Y", "Z", 1000000, 2000000, 1000000, 2000000, 10000⟩

/-- The sample snapshot of the two pools, with empty order books. -/
def sampleStates : PoolPairStates := [("p1", ⟨poolXY, []⟩), ("p2", ⟨poolYZ, []⟩)]

/-! ## Statements of the specification on the path finder -/

/-- A pool joins the tokens `a` and `b`, in either order (the condition of lines 20-21 of
`pdex_v3.go`). -/
@[reducible] def Connects (pool : Pdexv3PoolPair) (a b : String) : Prop :=
  (a = pool.Token0ID ∧ b = pool.Token1ID) ∨ (a = pool.Token1ID ∧ b = pool.Token0ID)

/-- The direction of a hop that sells the token `a` in a pool: `Sell0` when `a` is
token 0 of the pool (the `switch` of `TradePathFromState`). -/
def hopDirection (pool : Pdexv3PoolPair) (a : String) : Nat :=
  if a = pool.Token0ID then TradeDirectionSell0 else TradeDirectionSell1

/-- Whether the graph has an edge from `a` to `b`: `b` is among the nodes of the
adjacency list of `a`. -/
def hasEdge (graph : Graph) (a b : String) : Bool :=
  match graph.lookup a with
  | some nodes => nodes.any fun n => decide (n.TokenIDStr = b)
  | none => false

/-- A route of the graph from `source` to `dest` with at most `maxLen` tokens (one token
when `maxLen` is less): it starts with `source`, ends with `dest`, has no token twice, and
every two consecutive tokens are joined by an edge. -/
@[reducible] def IsRoute (graph : Graph) (maxLen : Int) (source dest : String)
    (p : List String) : Prop :=
  p.head? = some source ∧ p.getLast? = some dest ∧ p.Nodup ∧
    p.Chain' (fun a b => hasEdge graph a b = true) ∧ (p.length : Int) ≤ max 1 maxLen

/-- Some pool of the list joins the tokens `a` and `b`, in either order. -/
@[reducible] def PoolEdge (simplePools : List SimplePoolNodeData) (a b : String) : Prop :=
  ∃ sp ∈ simplePools, (a = sp.Token0ID ∧ b = sp.Token1ID) ∨ (a = sp.Token1ID ∧ b = sp.Token0ID)

/-- A sample snapshot of two parallel pools joining `X` and `Y`, the second one deeper. -/
def parallelStates : PoolPairStates :=
  [("p1", ⟨poolXY, []⟩), ("p3", ⟨⟨"Y", "X", 3000000, 3000000, 3000000, 3000000, 10000⟩, []⟩)]

/-- A snapshot with the single pool `X-Y` of the sample, with an empty order book. -/
def singleState : PoolPairStates := [("p1", ⟨poolXY, []⟩)]

/-- A snapshot with a single amplified pool `X-Y`: real reserves 10 / 10, virtual reserves
1000 / 1000, and an empty order book. -/
def amplifiedState : PoolPairStates := [("p1", ⟨⟨"X", "Y", 10, 10, 1000, 1000, 100⟩, []⟩)]

/-- A snapshot of two pools joining `X` and `Y` with the same reserves. -/
def twinStates : PoolPairStates := [("p1", ⟨poolXY, []⟩), ("p3", ⟨poolXY, []⟩)]

/-- The snapshot of the two twin pools, enumerated in the other order. -/
def twinStatesSwapped : PoolPairStates := [("p3", ⟨poolXY, []⟩), ("p1", ⟨poolXY, []⟩)]

end Pdex_v3

namespace V2utils

open Pdex_v3

/-! ## Arithmetic of the embedding -/

theorem IsUint64_eq_true (z : Int) : IsUint64 z = true ↔ 0 ≤ z ∧ z < 2 ^ 64 := by
  simp [IsUint64, uint64Bound]

theorem toUint64_of_range (z : Int) (h0 : 0 ≤ z) (h1 : z < 2 ^ 64) :
    toUint64 z = z.toNat := by
  have h2 : z.natAbs = z.toNat := by omega
  have h3 : z.toNat < 2 ^ 64 := by omega
  unfold toUint64 uint64Bound
  rw [h2, Nat.mod_eq_of_lt h3]

theorem floor_ratDiv (a b : Int) (hb : 0 < b) : ⌊(a : ℚ) / (b : ℚ)⌋ = a / b := by
  obtain ⟨n, rfl⟩ := Int.eq_ofNat_of_zero_le hb.le
  exact_mod_cast Rat.floor_intCast_div_natCast a n

/-- With a positive denominator `calculateBuyAmount` is the Euclidean quotient, range
checked. -/
theorem calculateBuyAmount_pos (a rIn rOut : Nat) (vIn vOut : Int)
    (ha : 0 < a) (hIn : 0 < rIn) (hOut : 0 < rOut) (hden : 0 < (a : Int) + vIn) :
    calculateBuyAmount a rIn rOut vIn vOut =
      if 0 ≤ (a : Int) * vOut / ((a : Int) + vIn) ∧ (a : Int) * vOut / ((a : Int) + vIn) < 2 ^ 64
      then .ok ((a : Int) * vOut / ((a : Int) + vIn)).toNat else .err .outOfRange := by
  unfold calculateBuyAmount
  have h1 : ¬ a ≤ 0 := by omega
  have h2 : ¬ (rIn ≤ 0 ∨ rOut ≤ 0) := by omega
  have h3 : ¬ ((a : Int) + vIn = 0) := by omega
  simp only [h1, h2, h3, if_false]
  by_cases h : 0 ≤ (a : Int) * vOut / ((a : Int) + vIn) ∧ (a : Int) * vOut / ((a : Int) + vIn) < 2 ^ 64
  · have h4 := (IsUint64_eq_true _).2 h
    rw [if_pos h, h4, toUint64_of_range _ h.1 h.2]
    rfl
  · have h4 : IsUint64 ((a : Int) * vOut / ((a : Int) + vIn)) = false := by
      rw [← Bool.not_eq_true, IsUint64_eq_true]; exact h
    rw [if_neg h, h4]
    rfl

theorem specBuyAmount_eq (a : Nat) (vIn vOut : Int) (hden : 0 < (a : Int) + vIn) :
    specBuyAmount a vIn vOut =
      if 0 ≤ (a : Int) * vOut / ((a : Int) + vIn) ∧ (a : Int) * vOut / ((a : Int) + vIn) < 2 ^ 64
      then .ok ((a : Int) * vOut / ((a : Int) + vIn)).toNat else .err .outOfRange := by
  have h := floor_ratDiv ((a : Int) * vOut) ((a : Int) + vIn) hden
  push_cast at h
  simp only [specBuyAmount, h]

/-- With a positive denominator `calculateAmountToSell` is the Euclidean quotient plus
one, range checked. -/
theorem calculateAmountToSell_pos (b rIn rOut : Nat) (vIn vOut : Int)
    (hb : 0 < b) (hIn : 0 < rIn) (hOut : 0 < rOut) (hden : 0 < vOut - (b : Int)) :
    calculateAmountToSell b rIn rOut vIn vOut =
      if 0 ≤ vIn * (b : Int) / (vOut - (b : Int)) + 1 ∧
          vIn * (b : Int) / (vOut - (b : Int)) + 1 < 2 ^ 64
      then .ok (vIn * (b : Int) / (vOut - (b : Int)) + 1).toNat else .err .outOfRange := by
  unfold calculateAmountToSell
  have h1 : ¬ b ≤ 0 := by omega
  have h2 : ¬ (rIn ≤ 0 ∨ rOut ≤ 0) := by omega
  have h3 : ¬ (vOut - (b : Int) = 0) := by omega
  simp only [h1, h2, h3, if_false]
  by_cases h : 0 ≤ vIn * (b : Int) / (vOut - (b : Int)) + 1 ∧
      vIn * (b : Int) / (vOut - (b : Int)) + 1 < 2 ^ 64
  · have h4 := (IsUint64_eq_true _).2 h
    rw [if_pos h, h4, toUint64_of_range _ h.1 h.2]
    rfl
  · have h4 : IsUint64 (vIn * (b : Int) / (vOut - (b : Int)) + 1) = false := by
      rw [← Bool.not_eq_true, IsUint64_eq_true]; exact h
    rw [if_neg h, h4]
    rfl

theorem specAmountToSell_eq (b : Nat) (vIn vOut : Int) (hden : 0 < vOut - (b : Int)) :
    specAmountToSell b vIn vOut =
      if 0 ≤ vIn * (b : Int) / (vOut - (b : Int)) + 1 ∧
          vIn * (b : Int) / (vOut - (b : Int)) + 1 < 2 ^ 64
      then .ok (vIn * (b : Int) / (vOut - (b : Int)) + 1).toNat else .err .outOfRange := by
  have h := floor_ratDiv (vIn * (b : Int)) (vOut - (b : Int)) hden
  push_cast at h
  simp only [specAmountToSell, specFloorToSell, h]

/-- A successful `calculateBuyAmount` with a non-negative selling-side virtual reserve:
the inputs are positive and the result is the Euclidean quotient. -/
theorem calculateBuyAmount_ok (a rIn rOut : Nat) (vIn vOut : Int) (r : Nat)
    (hvIn : 0 ≤ vIn) (h : calculateBuyAmount a rIn rOut vIn vOut = .ok r) :
    0 < a ∧ 0 < rIn ∧ 0 < rOut ∧ (r : Int) = (a : Int) * vOut / ((a : Int) + vIn) := by
  by_cases ha : a ≤ 0
  · simp [calculateBuyAmount, ha] at h
  by_cases hr : rIn ≤ 0 ∨ rOut ≤ 0
  · have hr' : rIn = 0 ∨ rOut = 0 := by omega
    simp [calculateBuyAmount, ha, hr'] at h
  have ha' : 0 < a := by omega
  have hden : 0 < (a : Int) + vIn := by omega
  rw [calculateBuyAmount_pos a rIn rOut vIn vOut ha' (by omega) (by omega) hden] at h
  split at h
  · rename_i hq
    injection h with h
    refine ⟨ha', by omega, by omega, ?_⟩
    rw [← h, Int.toNat_of_nonneg hq.1]
  · cases h

/-- A successful `calculateAmountToSell` with a positive denominator returns the
Euclidean quotient plus one. -/
theorem calculateAmountToSell_ok (b rIn rOut : Nat) (vIn vOut : Int) (s : Nat)
    (hden : 0 < vOut - (b : Int)) (h : calculateAmountToSell b rIn rOut vIn vOut = .ok s) :
    (s : Int) = vIn * (b : Int) / (vOut - (b : Int)) + 1 := by
  by_cases hb : b ≤ 0
  · simp [calculateAmountToSell, hb] at h
  by_cases hr : rIn ≤ 0 ∨ rOut ≤ 0
  · have hr' : rIn = 0 ∨ rOut = 0 := by omega
    simp [calculateAmountToSell, hb, hr'] at h
  rw [calculateAmountToSell_pos b rIn rOut vIn vOut (by omega) (by omega) (by omega) hden] at h
  split at h
  · rename_i hq
    injection h with h
    rw [← h, Int.toNat_of_nonneg hq.1]
  · cases h

/-- The quotient of `BuyAmount` is below the buying-side virtual reserve. -/
theorem buyQuotient_lt (a vIn vOut : Int) (ha : 0 < a) (hIn : 0 < vIn) (hOut : 0 < vOut) :
    a * vOut / (a + vIn) < vOut := by
  apply Int.ediv_lt_of_lt_mul (by omega)
  nlinarith

/-- The quotient of `BuyAmount` is monotone in the amount sold. -/
theorem buyQuotient_mono (a b vIn vOut : Int) (ha : 0 < a) (hab : a ≤ b) (hIn : 0 ≤ vIn)
    (hOut : 0 ≤ vOut) : a * vOut / (a + vIn) ≤ b * vOut / (b + vIn) := by
  have hda : 0 < a + vIn := by omega
  have hdb : 0 < b + vIn := by omega
  apply Int.le_ediv_of_mul_le hdb
  have h1 : a * vOut / (a + vIn) * (a + vIn) ≤ a * vOut := Int.ediv_mul_le _ (by omega)
  have hq : 0 ≤ a * vOut / (a + vIn) := Int.ediv_nonneg (by positivity) hda.le
  have h2 : a * vOut * (b + vIn) ≤ b * vOut * (a + vIn) := by
    have h5 : 0 ≤ (b - a) * vOut * vIn :=
      mul_nonneg (mul_nonneg (by omega) hOut) hIn
    nlinarith
  have h3 : a * vOut / (a + vIn) * (b + vIn) * (a + vIn) ≤ b * vOut * (a + vIn) := by
    calc a * vOut / (a + vIn) * (b + vIn) * (a + vIn)
        = a * vOut / (a + vIn) * (a + vIn) * (b + vIn) := by ring
      _ ≤ a * vOut * (b + vIn) := by
          exact Int.mul_le_mul_of_nonneg_right h1 hdb.le
      _ ≤ b * vOut * (a + vIn) := h2
  exact le_of_mul_le_mul_right h3 hda

/-- Selling the amount computed from the floored output asks for at most one unit more
than the amount that was sold. -/
theorem sellQuotient_le (x vIn vOut : Int) (hx : 0 < x) (hIn : 0 < vIn) (hOut : 0 < vOut) :
    vIn * (x * vOut / (x + vIn)) / (vOut - x * vOut / (x + vIn)) ≤ x := by
  have hlt := buyQuotient_lt x vIn vOut hx hIn hOut
  have h1 : x * vOut / (x + vIn) * (x + vIn) ≤ x * vOut := Int.ediv_mul_le _ (by omega)
  apply Int.ediv_le_of_le_mul (by omega)
  nlinarith

/-- The amount computed for an output `y` exceeds every amount whose floored output is
below `y`. -/
theorem sellQuotient_gt (x y vIn vOut : Int) (hx : 0 < x + vIn) (hy : 0 < vOut - y)
    (h : x * vOut / (x + vIn) < y) : x < vIn * y / (vOut - y) + 1 := by
  have h1 : x * vOut < y * (x + vIn) := (Int.ediv_lt_iff_lt_mul hx).1 h
  have h2 : vIn * y < vIn * y / (vOut - y) * (vOut - y) + (vOut - y) :=
    Int.lt_ediv_add_one_mul_self (vIn * y) hy |>.trans_eq (by ring)
  have h3 : x * (vOut - y) < (vIn * y / (vOut - y) + 1) * (vOut - y) := by nlinarith
  exact lt_of_mul_lt_mul_right h3 hy.le

/-! ## The AMM formulas -/

/-- C3 as stated fails for pools with a negative virtual reserve: on the pool with
virtual reserves -3 / 5, selling 3 divides by `3 + (-3) = 0` and panics; on the pool with
virtual reserves -5 / -7, selling 3 returns the Euclidean quotient of `-21` by `-2`,
which is 11, while `floor(-21 / -2) = floor(10.5) = 10`. -/
theorem BuyAmount_ne_floor :
    BuyAmount cancelPool 3 TradeDirectionSell0 = .crash .divisionByZero ∧
      BuyAmount negativePool 3 TradeDirectionSell0 = .ok 11 ∧
      specBuyAmount 3 (-5) (-7) = .ok 10 := by
  refine ⟨by decide, by decide, ?_⟩
  have h : ⌊(((3 : Nat) : ℚ) * (((-7 : Int)) : ℚ)) / (((3 : Nat) : ℚ) + (((-5 : Int)) : ℚ))⌋
      = 10 := by
    rw [Int.floor_eq_iff]
    norm_num
  simp only [specBuyAmount, h]
  decide

/-- C3, amended: for every pool and every `sellAmount`, `BuyAmount` fails when
`sellAmount = 0` or a real reserve is `0`; otherwise, when the denominator
`sellAmount + vIn` is positive (as it is whenever the virtual reserve `vIn` is not
negative), it returns `floor(sellAmount * vOut / (sellAmount + vIn))`, failing only when
that value does not fit in 64 bits, with `vIn / vOut` the token0 / token1 virtual reserves
for `Sell0` and the token1 / token0 virtual reserves for `Sell1`. -/
theorem BuyAmount_eq_floor (tp : Pdexv3PoolPair) (sellAmount : Nat) :
    (∀ d, sellAmount = 0 ∨ tp.Token0RealAmount = 0 ∨ tp.Token1RealAmount = 0 →
      ∃ e, BuyAmount tp sellAmount d = .err e) ∧
    (sellAmount ≠ 0 → tp.Token0RealAmount ≠ 0 → tp.Token1RealAmount ≠ 0 →
      (0 < (sellAmount : Int) + tp.Token0VirtualAmount →
        BuyAmount tp sellAmount TradeDirectionSell0 =
          specBuyAmount sellAmount tp.Token0VirtualAmount tp.Token1VirtualAmount) ∧
      (0 < (sellAmount : Int) + tp.Token1VirtualAmount →
        BuyAmount tp sellAmount TradeDirectionSell1 =
          specBuyAmount sellAmount tp.Token1VirtualAmount tp.Token0VirtualAmount)) := by
  refine ⟨?_, ?_⟩
  · intro d h
    by_cases hs : sellAmount = 0
    · subst hs
      by_cases hd : d = TradeDirectionSell0 <;>
        simp [BuyAmount, calculateBuyAmount, hd]
    · have hr : tp.Token0RealAmount = 0 ∨ tp.Token1RealAmount = 0 := by tauto
      have hr' : tp.Token1RealAmount = 0 ∨ tp.Token0RealAmount = 0 := hr.symm
      by_cases hd : d = TradeDirectionSell0 <;>
        simp [BuyAmount, calculateBuyAmount, hd, hs, hr, hr']
  · intro hs h0 h1
    have hs' : 0 < sellAmount := Nat.pos_of_ne_zero hs
    have h0' : 0 < tp.Token0RealAmount := Nat.pos_of_ne_zero h0
    have h1' : 0 < tp.Token1RealAmount := Nat.pos_of_ne_zero h1
    constructor
    · intro hd0
      rw [specBuyAmount_eq _ _ _ hd0, ← calculateBuyAmount_pos _ _ _ _ _ hs' h0' h1' hd0]
      simp [BuyAmount]
    · intro hd1
      rw [specBuyAmount_eq _ _ _ hd1, ← calculateBuyAmount_pos _ _ _ _ _ hs' h1' h0' hd1]
      simp [BuyAmount, TradeDirectionSell0, TradeDirectionSell1]

/-- Witness of the amended C3 on the sample pool: selling 1000 buys
`floor(1000 * 10^6 / (1000 + 10^6))`. -/
theorem BuyAmount_eq_floor_witness :
    0 < ((1000 : Nat) : Int) + samplePool.Token0VirtualAmount ∧
      BuyAmount samplePool 1000 TradeDirectionSell0 = specBuyAmount 1000 1000000 1000000 :=
  ⟨by decide,
    ((BuyAmount_eq_floor samplePool 1000).2 (by decide) (by decide) (by decide)).1
      (by decide)⟩

/-- C4 as stated fails: on the 10 / 10 pool, buying 5 requires `50 / 5 + 1 = 11`, while
the exact ceiling of `50 / 5` is `10`. -/
theorem AmountToSell_ne_ceil :
    AmountToSell smallPool 5 TradeDirectionSell0 = .ok 11 ∧ specCeilToSell 5 10 10 = 10 := by
  refine ⟨by decide, ?_⟩
  norm_num [specCeilToSell]

/-- C4, amended: on a pool with positive real reserves and for `0 < buyAmount < vOut`,
`AmountToSell` returns `floor(vIn * buyAmount / (vOut - buyAmount)) + 1` when this fits
in 64 bits and an error otherwise; this value is at least the exact ceiling of the
quotient and at most the ceiling plus one. -/
theorem AmountToSell_eq_floor_succ (tp : Pdexv3PoolPair) (buyAmount : Nat)
    (h0 : 0 < tp.Token0RealAmount) (h1 : 0 < tp.Token1RealAmount) (hb : 0 < buyAmount) :
    ((buyAmount : Int) < tp.Token1VirtualAmount →
      AmountToSell tp buyAmount TradeDirectionSell0 =
          specAmountToSell buyAmount tp.Token0VirtualAmount tp.Token1VirtualAmount) ∧
    ((buyAmount : Int) < tp.Token0VirtualAmount →
      AmountToSell tp buyAmount TradeDirectionSell1 =
          specAmountToSell buyAmount tp.Token1VirtualAmount tp.Token0VirtualAmount) ∧
    (∀ vIn vOut : Int, specCeilToSell buyAmount vIn vOut ≤ specFloorToSell buyAmount vIn vOut + 1 ∧
      specFloorToSell buyAmount vIn vOut + 1 ≤ specCeilToSell buyAmount vIn vOut + 1) := by
  refine ⟨?_, ?_, ?_⟩
  · intro h
    have hd : 0 < tp.Token1VirtualAmount - (buyAmount : Int) := by omega
    rw [specAmountToSell_eq _ _ _ hd, ← calculateAmountToSell_pos _ _ _ _ _ hb h0 h1 hd]
    simp [AmountToSell]
  · intro h
    have hd : 0 < tp.Token0VirtualAmount - (buyAmount : Int) := by omega
    rw [specAmountToSell_eq _ _ _ hd, ← calculateAmountToSell_pos _ _ _ _ _ hb h1 h0 hd]
    simp [AmountToSell, TradeDirectionSell0, TradeDirectionSell1]
  · intro vIn vOut
    unfold specCeilToSell specFloorToSell
    have hfc := Int.floor_le_ceil
      (((vIn : ℚ) * (buyAmount : ℚ)) / ((vOut : ℚ) - (buyAmount : ℚ)))
    exact ⟨Int.ceil_le_floor_add_one _, by omega⟩

/-- Witness of the amended C4 on the 10 / 10 pool with `buyAmount = 5`. -/
theorem AmountToSell_eq_floor_succ_witness :
    AmountToSell smallPool 5 TradeDirectionSell0 = specAmountToSell 5 10 10 :=
  (AmountToSell_eq_floor_succ smallPool 5 (by decide) (by decide) (by decide)).1 (by decide)

/-- A successful `BuyAmount` on a pool of the data model: the amount sold and the real
reserves are positive and the result is the Euclidean quotient of the direction. -/
theorem BuyAmount_ok (tp : Pdexv3PoolPair) (x d r : Nat) (hv : VirtualAtLeastReal tp)
    (h : BuyAmount tp x d = .ok r) :
    0 < x ∧ 0 < tp.Token0RealAmount ∧ 0 < tp.Token1RealAmount ∧
      (r : Int) = (x : Int) *
        (if d = TradeDirectionSell0 then tp.Token1VirtualAmount else tp.Token0VirtualAmount) /
        ((x : Int) +
          (if d = TradeDirectionSell0 then tp.Token0VirtualAmount else tp.Token1VirtualAmount)) := by
  obtain ⟨hv0, hv1⟩ := hv
  unfold BuyAmount at h
  by_cases hd : d = TradeDirectionSell0
  · simp only [hd, if_true] at h ⊢
    have := calculateBuyAmount_ok _ _ _ _ _ _ (by omega) h
    exact ⟨this.1, this.2.1, this.2.2.1, this.2.2.2⟩
  · simp only [hd, if_false] at h ⊢
    have := calculateBuyAmount_ok _ _ _ _ _ _ (by omega) h
    exact ⟨this.1, this.2.2.1, this.2.1, this.2.2.2⟩

/-- C7: on a pool with positive real reserves and virtual reserves at least the real
ones, a successful `BuyAmount` of a positive amount returns strictly less than the
virtual reserve of the token being bought (token1 for `Sell0`, token0 otherwise). -/
theorem BuyAmount_lt_virtualOut (tp : Pdexv3PoolPair) (sellAmount d r : Nat)
    (h0 : 0 < tp.Token0RealAmount) (h1 : 0 < tp.Token1RealAmount)
    (hv : VirtualAtLeastReal tp) (hs : 0 < sellAmount)
    (h : BuyAmount tp sellAmount d = .ok r) :
    (r : Int) <
      (if d = TradeDirectionSell0 then tp.Token1VirtualAmount else tp.Token0VirtualAmount) := by
  have hr := (BuyAmount_ok tp sellAmount d r hv h).2.2.2
  obtain ⟨hv0, hv1⟩ := hv
  rw [hr]
  by_cases hd : d = TradeDirectionSell0
  · simp only [hd, if_true]
    exact buyQuotient_lt _ _ _ (by omega) (by omega) (by omega)
  · simp only [hd, if_false]
    exact buyQuotient_lt _ _ _ (by omega) (by omega) (by omega)

/-- Witness of C7: on the sample pool selling 1000 buys 999, below 1,000,000. -/
theorem BuyAmount_lt_virtualOut_witness :
    BuyAmount samplePool 1000 TradeDirectionSell0 = .ok 999 ∧
      ((999 : Nat) : Int) < (if TradeDirectionSell0 = TradeDirectionSell0
        then samplePool.Token1VirtualAmount else samplePool.Token0VirtualAmount) :=
  ⟨by decide, BuyAmount_lt_virtualOut samplePool 1000 TradeDirectionSell0 999
    (by decide) (by decide) ⟨by decide, by decide⟩ (by decide) (by decide)⟩

/-- C6 as stated fails: on the 10 / 10 pool selling 3 and selling 4 both buy 2. -/
theorem BuyAmount_not_strictly_increasing :
    BuyAmount smallPool 3 TradeDirectionSell0 = .ok 2 ∧
      BuyAmount smallPool 4 TradeDirectionSell0 = .ok 2 := by
  decide

/-- C6, amended: on a pool with positive real reserves and virtual reserves at least the
real ones, `BuyAmount` is monotone (non-decreasing) in the amount sold: for `0 < a < b`
on which both calls succeed, `BuyAmount a ≤ BuyAmount b`. -/
theorem BuyAmount_monotone (tp : Pdexv3PoolPair) (d a b ra rb : Nat)
    (h0 : 0 < tp.Token0RealAmount) (h1 : 0 < tp.Token1RealAmount)
    (hv : VirtualAtLeastReal tp) (ha : 0 < a) (hab : a < b)
    (hra : BuyAmount tp a d = .ok ra) (hrb : BuyAmount tp b d = .ok rb) : ra ≤ rb := by
  have ea := (BuyAmount_ok tp a d ra hv hra).2.2.2
  have eb := (BuyAmount_ok tp b d rb hv hrb).2.2.2
  obtain ⟨hv0, hv1⟩ := hv
  have : (ra : Int) ≤ rb := by
    rw [ea, eb]
    by_cases hd : d = TradeDirectionSell0
    · simp only [hd, if_true]
      exact buyQuotient_mono _ _ _ _ (by omega) (by omega) (by omega) (by omega)
    · simp only [hd, if_false]
      exact buyQuotient_mono _ _ _ _ (by omega) (by omega) (by omega) (by omega)
  exact_mod_cast this

/-- Witness of the amended C6 on the sample pool: selling 1000 buys 999, selling 2000
buys 1996. -/
theorem BuyAmount_monotone_witness :
    BuyAmount samplePool 1000 TradeDirectionSell0 = .ok 999 ∧
      BuyAmount samplePool 2000 TradeDirectionSell0 = .ok 1996 ∧ (999 : Nat) ≤ 1996 :=
  ⟨by decide, by decide,
    BuyAmount_monotone samplePool TradeDirectionSell0 1000 2000 999 1996
      (by decide) (by decide) ⟨by decide, by decide⟩ (by decide) (by decide)
      (by decide) (by decide)⟩

/-- C5 as stated fails: on the 10 / 10 pool selling 4 buys 2, and `AmountToSell 2` is 3,
which is less than 4. -/
theorem AmountToSell_BuyAmount_lt :
    BuyAmount smallPool 4 TradeDirectionSell0 = .ok 2 ∧
      AmountToSell smallPool 2 TradeDirectionSell0 = .ok 3 := by
  decide

/-- C5, amended: on a pool with positive real reserves and virtual reserves at least the
real ones, for every direction and every `x > 0` for which both calls succeed,
`AmountToSell (BuyAmount x)` is at most `x + 1` and is greater than every sell amount
that buys strictly less than `BuyAmount x`. -/
theorem AmountToSell_BuyAmount_le (tp : Pdexv3PoolPair) (d x y s : Nat)
    (h0 : 0 < tp.Token0RealAmount) (h1 : 0 < tp.Token1RealAmount)
    (hv : VirtualAtLeastReal tp) (hx : 0 < x)
    (hy : BuyAmount tp x d = .ok y) (hs : AmountToSell tp y d = .ok s) :
    s ≤ x + 1 ∧ ∀ x1 y1, BuyAmount tp x1 d = .ok y1 → y1 < y → x1 < s := by
  have ey := (BuyAmount_ok tp x d y hv hy).2.2.2
  have hlt := BuyAmount_lt_virtualOut tp x d y h0 h1 hv hx hy
  have hv' := hv
  obtain ⟨hv0, hv1⟩ := hv
  unfold AmountToSell at hs
  by_cases hd : d = TradeDirectionSell0
  · simp only [hd, if_true] at hs ey hlt
    have es := calculateAmountToSell_ok _ _ _ _ _ _ (by omega) hs
    constructor
    · have := sellQuotient_le x tp.Token0VirtualAmount tp.Token1VirtualAmount
        (by omega) (by omega) (by omega)
      rw [← ey] at this
      omega
    · intro x1 y1 hy1 hlt1
      obtain ⟨hx1, -, -, e1⟩ := BuyAmount_ok tp x1 d y1 hv' hy1
      simp only [hd, if_true] at e1
      have := sellQuotient_gt x1 y tp.Token0VirtualAmount tp.Token1VirtualAmount
        (by omega) (by omega) (by rw [← e1]; exact_mod_cast hlt1)
      omega
  · simp only [hd, if_false] at hs ey hlt
    have es := calculateAmountToSell_ok _ _ _ _ _ _ (by omega) hs
    constructor
    · have := sellQuotient_le x tp.Token1VirtualAmount tp.Token0VirtualAmount
        (by omega) (by omega) (by omega)
      rw [← ey] at this
      omega
    · intro x1 y1 hy1 hlt1
      obtain ⟨hx1, -, -, e1⟩ := BuyAmount_ok tp x1 d y1 hv' hy1
      simp only [hd, if_false] at e1
      have := sellQuotient_gt x1 y tp.Token1VirtualAmount tp.Token0VirtualAmount
        (by omega) (by omega) (by rw [← e1]; exact_mod_cast hlt1)
      omega

/-- Witness of the amended C5 on the 10 / 10 pool: selling 4 buys 2 and
`AmountToSell 2 = 3 ≤ 4 + 1`; selling 2 buys only 1, and `2 < 3`. -/
theorem AmountToSell_BuyAmount_le_witness :
    BuyAmount smallPool 4 TradeDirectionSell0 = .ok 2 ∧
      AmountToSell smallPool 2 TradeDirectionSell0 = .ok 3 ∧ (3 : Nat) ≤ 4 + 1 ∧
      BuyAmount smallPool 2 TradeDirectionSell0 = .ok 1 ∧ (2 : Nat) < 3 :=
  ⟨by decide, by decide,
    (AmountToSell_BuyAmount_le smallPool TradeDirectionSell0 4 2 3
      (by decide) (by decide) ⟨by decide, by decide⟩ (by decide) (by decide) (by decide)).1,
    by decide,
    (AmountToSell_BuyAmount_le smallPool TradeDirectionSell0 4 2 3
      (by decide) (by decide) ⟨by decide, by decide⟩ (by decide) (by decide) (by decide)).2
      2 1 (by decide) (by decide)⟩

/-- C8, the behaviour of the code where the claim fails: on the 1 / 1 pool,
`AmountToSell` with `buyAmount` equal to the virtual reserve bought divides by zero
(a run-time panic), and with `buyAmount = 3` above it the quotient `-1` plus one is
returned as the amount `0` with no error. -/
theorem AmountToSell_at_or_above_reserve :
    AmountToSell unitPool 1 TradeDirectionSell0 = .crash .divisionByZero ∧
      AmountToSell unitPool 3 TradeDirectionSell0 = .ok 0 := by
  decide

/-! ## `SwapToReachOrderRate` without an order -/

/-- The values returned by a successful `applySwap`. -/
theorem applySwap_ok (tp tp1 : Pdexv3PoolPair) (d f r b b1 r1 : Nat) (c0 c1 : Int)
    (h : applySwap tp d f r b = (tp1, .ok (b1, r1, c0, c1))) :
    b1 = b ∧ r1 = r ∧
      c0 = (if d = TradeDirectionSell0 then (f : Int) else -(b : Int)) ∧
      c1 = (if d = TradeDirectionSell0 then -(b : Int) else (f : Int)) ∧
      ApplyReserveChanges tp c0 c1 = (tp1, none) := by
  simp only [applySwap] at h
  split at h
  · simp at h
  · rename_i tq hA
    simp only [Prod.mk.injEq, Result.ok.injEq] at h
    obtain ⟨h1, h2, h3, h4, h5⟩ := h
    subst h1 h2 h3 h4 h5
    exact ⟨rfl, rfl, rfl, rfl, hA⟩

/-- Without an order the swap is the reserve update of a full `BuyAmount`. -/
theorem SwapToReachOrderRate_none (tp : Pdexv3PoolPair) (m d : Nat) :
    SwapToReachOrderRate tp m d none =
      if HasInsufficientLiquidity tp then (tp, .err .noLiquidity)
      else match BuyAmount tp m d with
        | .ok b => applySwap tp d m 0 b
        | .err e => (tp, .err e)
        | .crash p => (tp, .crash p)
        | .outOfFuel => (tp, .outOfFuel) := by
  simp only [SwapToReachOrderRate]

/-- A successful swap without an order returns the value of `BuyAmount` and no
remainder. -/
theorem SwapToReachOrderRate_none_ok (tp tp1 : Pdexv3PoolPair) (m d b r : Nat) (c0 c1 : Int)
    (h : SwapToReachOrderRate tp m d none = (tp1, .ok (b, r, c0, c1))) :
    BuyAmount tp m d = .ok b ∧ r = 0 := by
  rw [SwapToReachOrderRate_none] at h
  split at h
  · simp at h
  · split at h
    · rename_i b1 hb
      have := applySwap_ok _ _ _ _ _ _ _ _ _ _ h
      rw [hb, this.1, this.2.1]
      exact ⟨rfl, rfl⟩
    all_goals simp at h

/-- A successful `BuyAmount` sold a positive amount on a pool with liquidity and
returned a 64-bit value. -/
theorem BuyAmount_ok_pos (tp : Pdexv3PoolPair) (m d b : Nat) (h : BuyAmount tp m d = .ok b) :
    0 < m ∧ 0 < tp.Token0RealAmount ∧ 0 < tp.Token1RealAmount ∧ b < uint64Bound := by
  have key : ∀ (rIn rOut : Nat) (vIn vOut : Int),
      calculateBuyAmount m rIn rOut vIn vOut = .ok b →
        0 < m ∧ 0 < rIn ∧ 0 < rOut ∧ b < uint64Bound := by
    intro rIn rOut vIn vOut hc
    simp only [calculateBuyAmount] at hc
    split at hc
    · cases hc
    split at hc
    · cases hc
    split at hc
    · cases hc
    split at hc
    · cases hc
    · injection hc with hc
      refine ⟨by omega, by omega, by omega, ?_⟩
      rw [← hc]
      exact Nat.mod_lt _ (by decide)
  unfold BuyAmount at h
  split at h
  · exact key _ _ _ _ h
  · have := key _ _ _ _ h
    exact ⟨this.1, this.2.2.1, this.2.1, this.2.2.2⟩

/-- The reserve update of a swap succeeds when the amount bought is positive and within
the real reserve bought, and the real reserve sold stays in the 64-bit range. -/
theorem applySwap_succeeds (tp : Pdexv3PoolPair) (d f r b : Nat) (hf : 0 < f) (hb : 0 < b)
    (hout : b ≤ (if d = TradeDirectionSell0 then tp.Token1RealAmount else tp.Token0RealAmount))
    (hin : (if d = TradeDirectionSell0 then tp.Token0RealAmount else tp.Token1RealAmount) + f
      < uint64Bound)
    (hrange : (if d = TradeDirectionSell0 then tp.Token1RealAmount else tp.Token0RealAmount)
      < uint64Bound) :
    ∃ tp1 c0 c1, applySwap tp d f r b = (tp1, .ok (b, r, c0, c1)) := by
  have hB : ((uint64Bound : Nat) : Int) = 2 ^ 64 := by simp [uint64Bound]
  have hsf : (f : Int).sign = 1 := Int.sign_eq_one_of_pos (by omega)
  have hsb : (-(b : Int)).sign = -1 := Int.sign_eq_neg_one_of_neg (by omega)
  by_cases hd : d = TradeDirectionSell0
  · simp only [hd, if_true] at hout hin hrange
    have e0 : IsUint64 ((tp.Token0RealAmount : Int) + (f : Int)) = true :=
      (IsUint64_eq_true _).2 ⟨by omega, by omega⟩
    have e1 : IsUint64 ((tp.Token1RealAmount : Int) + -(b : Int)) = true :=
      (IsUint64_eq_true _).2 ⟨by omega, by omega⟩
    have n0 : ¬ ((tp.Token0RealAmount : Int) + (f : Int) < 0) := by omega
    have n1 : ¬ ((tp.Token1RealAmount : Int) + -(b : Int) < 0) := by omega
    simp [applySwap, ApplyReserveChanges, hd, hsf, hsb, e0, e1, n0, n1]
  · simp only [hd, if_false] at hout hin hrange
    have e0 : IsUint64 ((tp.Token0RealAmount : Int) + -(b : Int)) = true :=
      (IsUint64_eq_true _).2 ⟨by omega, by omega⟩
    have e1 : IsUint64 ((tp.Token1RealAmount : Int) + (f : Int)) = true :=
      (IsUint64_eq_true _).2 ⟨by omega, by omega⟩
    have n0 : ¬ ((tp.Token0RealAmount : Int) + -(b : Int) < 0) := by omega
    have n1 : ¬ ((tp.Token1RealAmount : Int) + (f : Int) < 0) := by omega
    simp [applySwap, ApplyReserveChanges, hd, hsf, hsb, e0, e1, n0, n1]

/-- C9 as stated fails: on the sample pool `BuyAmount 1` succeeds with `0`, while the
swap of `1` without an order fails in the reserve update (signs check). -/
theorem SwapToReachOrderRate_none_fails :
    BuyAmount samplePool 1 TradeDirectionSell0 = .ok 0 ∧
      (SwapToReachOrderRate samplePool 1 TradeDirectionSell0 none).2 = .err .invalidSigns := by
  decide

/-- C9, amended: for every pool, direction and `maxSellAmount`, the swap without an order
fails whenever `BuyAmount` fails (and panics when it panics); whenever it succeeds it
returns the value of `BuyAmount` as the amount bought with remainder `0`; when
`BuyAmount` returns `b` it succeeds provided the reserve update does, in particular
when `0 < b`, `b` is within the real reserve bought and the real reserve sold plus
`maxSellAmount` stays below `2 ^ 64`; and when `BuyAmount` returns `0` it fails on the
signs check of the reserve update. -/
theorem SwapToReachOrderRate_none_spec (tp : Pdexv3PoolPair) (m d : Nat) :
    (∀ e, BuyAmount tp m d = .err e → ∃ e1, (SwapToReachOrderRate tp m d none).2 = .err e1) ∧
    (∀ p, BuyAmount tp m d = .crash p → (SwapToReachOrderRate tp m d none).2 = .crash p) ∧
    (∀ tp1 b r c0 c1, SwapToReachOrderRate tp m d none = (tp1, .ok (b, r, c0, c1)) →
      BuyAmount tp m d = .ok b ∧ r = 0) ∧
    (∀ b, BuyAmount tp m d = .ok b → 0 < b →
      b ≤ (if d = TradeDirectionSell0 then tp.Token1RealAmount else tp.Token0RealAmount) →
      (if d = TradeDirectionSell0 then tp.Token0RealAmount else tp.Token1RealAmount) + m
        < uint64Bound →
      (if d = TradeDirectionSell0 then tp.Token1RealAmount else tp.Token0RealAmount)
        < uint64Bound →
      ∃ tp1 c0 c1, SwapToReachOrderRate tp m d none = (tp1, .ok (b, 0, c0, c1))) ∧
    (BuyAmount tp m d = .ok 0 →
      (SwapToReachOrderRate tp m d none).2 = .err .invalidSigns) := by
  refine ⟨?_, ?_, ?_, ?_, ?_⟩
  · intro e he
    rw [SwapToReachOrderRate_none]
    split
    · exact ⟨_, rfl⟩
    · rw [he]; exact ⟨_, rfl⟩
  · intro p hp
    rw [SwapToReachOrderRate_none]
    split
    · rename_i hl
      exfalso
      unfold BuyAmount calculateBuyAmount at hp
      simp only [HasInsufficientLiquidity, Bool.or_eq_true, decide_eq_true_eq] at hl
      have hl' : tp.Token1RealAmount ≤ 0 ∨ tp.Token0RealAmount ≤ 0 := hl.symm
      split at hp <;> split at hp <;> simp [hl, hl'] at hp
    · rw [hp]
  · intro tp1 b r c0 c1 h
    exact SwapToReachOrderRate_none_ok tp tp1 m d b r c0 c1 h
  · intro b hb hpos hout hin hrange
    obtain ⟨hm, h0, h1, -⟩ := BuyAmount_ok_pos tp m d b hb
    rw [SwapToReachOrderRate_none]
    have hl : HasInsufficientLiquidity tp = false := by
      simp [HasInsufficientLiquidity]; omega
    rw [hl, hb]
    exact applySwap_succeeds tp d m 0 b hm hpos hout hin hrange
  · intro hb
    obtain ⟨hm, h0, h1, -⟩ := BuyAmount_ok_pos tp m d 0 hb
    rw [SwapToReachOrderRate_none]
    have hl : HasInsufficientLiquidity tp = false := by
      simp [HasInsufficientLiquidity]; omega
    have hsm : (m : Int).sign = 1 := Int.sign_eq_one_of_pos (by omega)
    rw [hl, hb]
    by_cases hd : d = TradeDirectionSell0 <;>
      simp [applySwap, ApplyReserveChanges, hd, hsm]

/-- Witness of the amended C9 on the sample pool: `BuyAmount 1000 = 999` and the swap of
1000 without an order succeeds with `(999, 0)`. -/
theorem SwapToReachOrderRate_none_spec_witness :
    BuyAmount samplePool 1000 TradeDirectionSell0 = .ok 999 ∧
      ∃ tp1 c0 c1, SwapToReachOrderRate samplePool 1000 TradeDirectionSell0 none
        = (tp1, .ok (999, 0, c0, c1)) :=
  ⟨by decide,
    (SwapToReachOrderRate_none_spec samplePool 1000 TradeDirectionSell0).2.2.2.1 999
      (by decide) (by decide) (by decide) (by decide) (by decide)⟩

/-! ## `SwapToReachOrderRate` with an order -/

/-- A computed `targetDeltaX` is the target of the specification, and the direction is
one of the two constants. -/
theorem targetDeltaX_ok (tp : Pdexv3PoolPair) (d : Nat) (o : Pdexv3Order) (t : Int)
    (h : targetDeltaX tp d o = .ok t) :
    t = specTargetDeltaX
      (if d = TradeDirectionSell0 then tp.Token0VirtualAmount else tp.Token1VirtualAmount)
      (if d = TradeDirectionSell0 then tp.Token1VirtualAmount else tp.Token0VirtualAmount)
      (if d = TradeDirectionSell0 then o.Token0Rate else o.Token1Rate)
      (if d = TradeDirectionSell0 then o.Token1Rate else o.Token0Rate) := by
  have key : ∀ (xV yV : Int) (xOrd yOrd : Nat), yOrd ≠ 0 →
      ((Nat.sqrt (xV * yV * (xOrd : Int) / (yOrd : Int)).toNat : Nat) : Int) - xV =
        specTargetDeltaX xV yV xOrd yOrd := by
    intro xV yV xOrd yOrd hy
    have hf := floor_ratDiv (xV * yV * (xOrd : Int)) (yOrd : Int) (by omega)
    push_cast at hf
    simp only [specTargetDeltaX, hf]
  simp only [targetDeltaX, sellingBuyingReserves] at h
  by_cases hd : d = TradeDirectionSell0
  · simp only [hd, if_true] at h ⊢
    split at h
    · cases h
    · rename_i hy
      split at h
      · cases h
      · injection h with h
        rw [← h]
        exact key _ _ _ _ (by exact_mod_cast hy)
  · simp only [hd, if_false] at h ⊢
    by_cases hd1 : d = TradeDirectionSell1
    · simp only [hd1, if_true] at h
      split at h
      · cases h
      · rename_i hy
        split at h
        · cases h
        · injection h with h
          rw [← h]
          exact key _ _ _ _ (by exact_mod_cast hy)
    · simp only [hd1, if_false] at h
      cases h

/-- C10: let `T = floor(sqrt(floor(xV * yV * xOrd / yOrd))) - xV` for an order, with
`xV / yV` the selling / buying virtual reserves and `xOrd : yOrd` the rate of the order on
the selling : buying side.  If `T > 0` and `SwapToReachOrderRate maxSellAmount direction
order` succeeds with a non-zero amount bought, then the amount sold to the pool (the
reserve change of the selling token) is `min maxSellAmount T`, the amount bought is
`BuyAmount (min maxSellAmount T)` on the reserves before the call, and the remainder is
`maxSellAmount - min maxSellAmount T`. -/
theorem SwapToReachOrderRate_order_spec (tp tp1 : Pdexv3PoolPair) (m d : Nat)
    (o : Pdexv3Order) (b r : Nat) (c0 c1 : Int) (hm : m < uint64Bound)
    (hT : 0 < specTargetDeltaX
      (if d = TradeDirectionSell0 then tp.Token0VirtualAmount else tp.Token1VirtualAmount)
      (if d = TradeDirectionSell0 then tp.Token1VirtualAmount else tp.Token0VirtualAmount)
      (if d = TradeDirectionSell0 then o.Token0Rate else o.Token1Rate)
      (if d = TradeDirectionSell0 then o.Token1Rate else o.Token0Rate))
    (h : SwapToReachOrderRate tp m d (some o) = (tp1, .ok (b, r, c0, c1))) (hb : b ≠ 0) :
    (if d = TradeDirectionSell0 then c0 else c1) = min (m : Int) (specTargetDeltaX
      (if d = TradeDirectionSell0 then tp.Token0VirtualAmount else tp.Token1VirtualAmount)
      (if d = TradeDirectionSell0 then tp.Token1VirtualAmount else tp.Token0VirtualAmount)
      (if d = TradeDirectionSell0 then o.Token0Rate else o.Token1Rate)
      (if d = TradeDirectionSell0 then o.Token1Rate else o.Token0Rate)) ∧
    BuyAmount tp (min (m : Int) (specTargetDeltaX
      (if d = TradeDirectionSell0 then tp.Token0VirtualAmount else tp.Token1VirtualAmount)
      (if d = TradeDirectionSell0 then tp.Token1VirtualAmount else tp.Token0VirtualAmount)
      (if d = TradeDirectionSell0 then o.Token0Rate else o.Token1Rate)
      (if d = TradeDirectionSell0 then o.Token1Rate else o.Token0Rate))).toNat d = .ok b ∧
    (r : Int) = (m : Int) - min (m : Int) (specTargetDeltaX
      (if d = TradeDirectionSell0 then tp.Token0VirtualAmount else tp.Token1VirtualAmount)
      (if d = TradeDirectionSell0 then tp.Token1VirtualAmount else tp.Token0VirtualAmount)
      (if d = TradeDirectionSell0 then o.Token0Rate else o.Token1Rate)
      (if d = TradeDirectionSell0 then o.Token1Rate else o.Token0Rate)) := by
  have hB : ((uint64Bound : Nat) : Int) = 2 ^ 64 := by simp [uint64Bound]
  simp only [SwapToReachOrderRate] at h
  split at h
  · simp at h
  split at h
  · simp at h
  split at h
  · rename_i t ht
    rw [← targetDeltaX_ok tp d o t ht] at hT ⊢
    split at h
    · rename_i hge
      have hmin : min (m : Int) t = m := min_eq_left hge
      split at h
      · rename_i b1 hb1
        obtain ⟨e1, e2, e3, e4, -⟩ := applySwap_ok _ _ _ _ _ _ _ _ _ _ h
        subst e1 e2
        rw [hmin]
        refine ⟨?_, ?_, ?_⟩
        · split
          · rw [e3]; rename_i hd; simp [hd]
          · rw [e4]; rename_i hd; simp [hd]
        · simpa using hb1
        · simp
      all_goals simp at h
    · rename_i hlt
      split at h
      · omega
      · have ht0 : 0 ≤ t := by omega
        have htm : t < m := by omega
        have hmin : min (m : Int) t = t := min_eq_right htm.le
        have hfin : toUint64 t = t.toNat := toUint64_of_range t ht0 (by omega)
        have hrem : toUint64 ((m : Int) - t) = ((m : Int) - t).toNat :=
          toUint64_of_range _ (by omega) (by omega)
        rw [hfin, hrem] at h
        split at h
        · rename_i b1 hb1
          split at h
          · simp only [Prod.mk.injEq, Result.ok.injEq] at h
            omega
          · obtain ⟨e1, e2, e3, e4, -⟩ := applySwap_ok _ _ _ _ _ _ _ _ _ _ h
            subst e1 e2
            rw [hmin]
            refine ⟨?_, hb1, ?_⟩
            · split
              · rw [e3]; rename_i hd; simp [hd]; omega
              · rw [e4]; rename_i hd; simp [hd]; omega
            · omega
        all_goals simp at h
  all_goals simp at h

/-- The target of the sample order on the sample pool: `sqrt(4 * 10^12) - 10^6`. -/
theorem specTargetDeltaX_sample : specTargetDeltaX 1000000 1000000 4 1 = 1000000 := by
  have hs : Nat.sqrt 4000000000000 = 2000000 :=
    (Nat.eq_sqrt.2 ⟨by norm_num, by norm_num⟩).symm
  have hf : ⌊((1000000 : Int) : ℚ) * ((1000000 : Int) : ℚ) * ((4 : Nat) : ℚ) / ((1 : Nat) : ℚ)⌋
      = 4000000000000 := by
    have e : ((1000000 : Int) : ℚ) * ((1000000 : Int) : ℚ) * ((4 : Nat) : ℚ) / ((1 : Nat) : ℚ)
        = ((4000000000000 : Int) : ℚ) := by norm_num
    rw [e, Int.floor_intCast]
  unfold specTargetDeltaX
  rw [hf]
  show ((Nat.sqrt 4000000000000 : Nat) : Int) - 1000000 = 1000000
  rw [hs]
  decide

/-- The partial swap of the sample pool against the sample order. -/
theorem SwapToReachOrderRate_sample :
    SwapToReachOrderRate samplePool 2000000 TradeDirectionSell0 (some sampleOrder) =
      (samplePoolAfter, .ok (500000, 1000000, 1000000, -500000)) := by
  have ht : targetDeltaX samplePool TradeDirectionSell0 sampleOrder = .ok 1000000 := by
    have hs : Nat.sqrt 4000000000000 = 2000000 :=
      (Nat.eq_sqrt.2 ⟨by norm_num, by norm_num⟩).symm
    have hq : ((1000000 : Int) * 1000000 * ((4 : Nat) : Int) / ((1 : Nat) : Int)).toNat
        = 4000000000000 := by decide
    simp only [targetDeltaX, sellingBuyingReserves, samplePool, sampleOrder,
      TradeDirectionSell0, if_true]
    rw [if_neg (by decide), hq, hs, if_neg (by decide)]
    rfl
  simp only [SwapToReachOrderRate]
  rw [ht]
  decide

/-- Witness of C10: the sample pool, `maxSellAmount = 2,000,000` and the sample order
give `T = 1,000,000`; the pool sells 1,000,000, buys 500,000 and leaves 1,000,000. -/
theorem SwapToReachOrderRate_order_spec_witness :
    0 < specTargetDeltaX 1000000 1000000 4 1 ∧
    SwapToReachOrderRate samplePool 2000000 TradeDirectionSell0 (some sampleOrder) =
      (samplePoolAfter, .ok (500000, 1000000, 1000000, -500000)) ∧
    (1000000 : Int) = min ((2000000 : Nat) : Int) (specTargetDeltaX 1000000 1000000 4 1) ∧
      BuyAmount samplePool
        (min ((2000000 : Nat) : Int) (specTargetDeltaX 1000000 1000000 4 1)).toNat
        TradeDirectionSell0 = .ok 500000 ∧
      ((1000000 : Nat) : Int) =
        ((2000000 : Nat) : Int) - min ((2000000 : Nat) : Int)
          (specTargetDeltaX 1000000 1000000 4 1) :=
  ⟨by rw [specTargetDeltaX_sample]; decide, SwapToReachOrderRate_sample,
    SwapToReachOrderRate_order_spec samplePool samplePoolAfter 2000000 TradeDirectionSell0
      sampleOrder 500000 1000000 1000000 (-500000) (by decide)
      (by
        show 0 < specTargetDeltaX 1000000 1000000 4 1
        rw [specTargetDeltaX_sample]
        decide)
      SwapToReachOrderRate_sample (by decide)⟩

/-! ## The estimator -/

/-- An empty book has no next order in either direction. -/
theorem NextOrder_empty (M : MatchingPrimitive) (d : Nat)
    (hd : d = TradeDirectionSell0 ∨ d = TradeDirectionSell1) :
    OrderBook.NextOrder M ⟨[]⟩ d = .ok (none, "") := by
  rcases hd with rfl | rfl <;>
    simp [OrderBook.NextOrder, nextOrderSell0, nextOrderSell1, TradeDirectionSell0,
      TradeDirectionSell1]

/-- The swap without an order never exhausts an iteration budget. -/
theorem SwapToReachOrderRate_none_ne_outOfFuel (tp : Pdexv3PoolPair) (m d : Nat) :
    (SwapToReachOrderRate tp m d none).2 ≠ .outOfFuel := by
  have hB : BuyAmount tp m d ≠ .outOfFuel := by
    simp only [BuyAmount, calculateBuyAmount]
    split_ifs <;> simp
  rw [SwapToReachOrderRate_none]
  split
  · simp
  · split
    · simp only [applySwap]
      split <;> simp
    · simp
    · simp
    · rename_i h; exact absurd h hB

/-- One hop over an empty book, with at least one iteration allowed: the loop ends, and
when it leaves a total, the total is the `BuyAmount` of the amount sold. -/
theorem hopLoop_empty (M : MatchingPrimitive) (d fuel : Nat) (tp : Pdexv3PoolPair) (x : Nat)
    (hd : d = TradeDirectionSell0 ∨ d = TradeDirectionSell1) :
    hopLoop M d (fuel + 1) tp ⟨[]⟩ x 0 ≠ .outOfFuel ∧
      ∀ r, hopLoop M d (fuel + 1) tp ⟨[]⟩ x 0 = .ok r → BuyAmount tp x d = .ok r := by
  have hne := SwapToReachOrderRate_none_ne_outOfFuel tp x d
  simp only [hopLoop, NextOrder_empty M d hd, Option.map_none']
  generalize hS : SwapToReachOrderRate tp x d none = S at hne
  obtain ⟨tp1, res⟩ := S
  cases res with
  | ok v =>
    obtain ⟨b, temp, c0, c1⟩ := v
    obtain ⟨hb, ht⟩ := SwapToReachOrderRate_none_ok tp tp1 x d b temp c0 c1 hS
    have hlt := (BuyAmount_ok_pos tp x d b hb).2.2.2
    subst ht
    simp [Nat.mod_eq_of_lt hlt, hb]
  | err e => simp
  | crash p => simp
  | outOfFuel => simp at hne

/-- The hops over empty books in valid directions: the loop ends, and a total left after
at least one hop is the composition of the `BuyAmount`s. -/
theorem estimateHops_empty (M : MatchingPrimitive) (fuel : Nat) :
    ∀ (hops : List (Pdexv3PoolPair × Nat × OrderBook)) (x total : Nat),
      (∀ h ∈ hops, (h.2.1 = TradeDirectionSell0 ∨ h.2.1 = TradeDirectionSell1) ∧
        h.2.2 = ⟨[]⟩) →
      estimateHops M (fuel + 1) hops x total ≠ .outOfFuel ∧
      ∀ r, estimateHops M (fuel + 1) hops x total = .ok r →
        (hops = [] ∧ r = total) ∨
          (hops ≠ [] ∧ chainBuyAmount (hops.map fun h => (h.1, h.2.1)) x = .ok r) := by
  intro hops
  induction hops with
  | nil => intro x total _; simp [estimateHops]
  | cons h rest ih =>
    intro x total hall
    obtain ⟨tp, d, ob⟩ := h
    have hh := hall (tp, d, ob) (List.mem_cons_self _ _)
    simp only at hh
    obtain ⟨hd, hob⟩ := hh
    subst hob
    have hrest : ∀ h ∈ rest, (h.2.1 = TradeDirectionSell0 ∨ h.2.1 = TradeDirectionSell1) ∧
        h.2.2 = ⟨[]⟩ := fun h hm => hall h (List.mem_cons_of_mem _ hm)
    obtain ⟨hne, hok⟩ := hopLoop_empty M d fuel tp x hd
    simp only [estimateHops, List.map_cons, chainBuyAmount]
    generalize hL : hopLoop M d (fuel + 1) tp ⟨[]⟩ x 0 = L at hne hok
    cases L with
    | ok t =>
      have hb := hok t rfl
      obtain ⟨ih1, ih2⟩ := ih t t hrest
      simp only [Result.bind, hb]
      refine ⟨ih1, ?_⟩
      intro r hr
      right
      refine ⟨by simp, ?_⟩
      rcases ih2 r hr with ⟨hnil, hrt⟩ | ⟨_, hch⟩
      · subst hnil hrt; simp [chainBuyAmount]
      · exact hch
    | err e => simp [Result.bind]
    | crash p => simp [Result.bind]
    | outOfFuel => exact absurd rfl hne

/-- Dropping the books from the zipped hops leaves the pools zipped with the directions. -/
theorem zip_hops_map (rs : List Pdexv3PoolPair) :
    ∀ (ds : List Nat) (obs : List OrderBook), ds.length = rs.length → obs.length = rs.length →
      (rs.zip (ds.zip obs)).map (fun h => (h.1, h.2.1)) = rs.zip ds := by
  induction rs with
  | nil => intro ds obs _ _; simp
  | cons r rs ih =>
    intro ds obs h1 h2
    cases ds with
    | nil => simp at h1
    | cons d ds =>
      cases obs with
      | nil => simp at h2
      | cons ob obs =>
        simp only [List.length_cons, Nat.add_right_cancel_iff] at h1 h2
        simp [ih ds obs h1 h2]

/-- C1 as stated fails for a direction byte outside `{Sell0, Sell1}`: the one-hop call on
the sample pool with direction `2`, an empty book, `amountIn = 1000`, `fee = 0` and
`minAmount = 0` succeeds with `0`, while `BuyAmount 1000` in that direction is `999`. -/
theorem EstimateReceivingAmount_invalid_direction :
    EstimateReceivingAmount noMatching 1 1000 0 [samplePool] [2] 0 [⟨[]⟩] = .ok 0 ∧
      chainBuyAmount [(samplePool, 2)] 1000 = .ok 999 := by
  decide

/-- C1, amended: for every path of `n ≥ 1` distinct pools with directions in
`{Sell0, Sell1}` whose order books are all empty, the estimator ends within one
iteration per hop, and whenever it succeeds the fee is at most `amountIn` and the
result equals `BuyAmount_n (... BuyAmount_1 (amountIn - fee) ...)`, each `BuyAmount_i`
taken on pool `i` in direction `i`. -/
theorem EstimateReceivingAmount_empty_books (M : MatchingPrimitive)
    (fuel amountIn fee minAmount : Nat) (reserves : List Pdexv3PoolPair)
    (tradeDirections : List Nat) (orderBooks : List OrderBook)
    (hn : reserves ≠ [])
    (hd : ∀ d ∈ tradeDirections, d = TradeDirectionSell0 ∨ d = TradeDirectionSell1)
    (hob : ∀ ob ∈ orderBooks, ob.orders = []) :
    EstimateReceivingAmount M (fuel + 1) amountIn fee reserves tradeDirections minAmount
        orderBooks ≠ .outOfFuel ∧
    ∀ r, EstimateReceivingAmount M (fuel + 1) amountIn fee reserves tradeDirections minAmount
        orderBooks = .ok r →
      fee ≤ amountIn ∧
        chainBuyAmount (reserves.zip tradeDirections) (amountIn - fee) = .ok r := by
  unfold EstimateReceivingAmount
  split
  · simp
  rename_i hlen
  split
  · simp
  rename_i hfee
  have hl1 : tradeDirections.length = reserves.length := by
    by_contra hc; exact hlen (Or.inl hc)
  have hl2 : orderBooks.length = reserves.length := by
    by_contra hc; exact hlen (Or.inr hc)
  have hall : ∀ h ∈ reserves.zip (tradeDirections.zip orderBooks),
      (h.2.1 = TradeDirectionSell0 ∨ h.2.1 = TradeDirectionSell1) ∧ h.2.2 = ⟨[]⟩ := by
    rintro ⟨tp, d, ob⟩ hmem
    have h2 := (List.of_mem_zip hmem).2
    have h3 := List.of_mem_zip h2
    refine ⟨hd d h3.1, ?_⟩
    have := hob ob h3.2
    cases ob
    simp_all
  obtain ⟨hne, hok⟩ := estimateHops_empty M fuel
    (reserves.zip (tradeDirections.zip orderBooks)) (amountIn - fee) 0 hall
  have hnz : reserves.zip (tradeDirections.zip orderBooks) ≠ [] := by
    cases reserves with
    | nil => exact absurd rfl hn
    | cons r rs =>
      cases tradeDirections with
      | nil => simp at hl1
      | cons d ds =>
        cases orderBooks with
        | nil => simp at hl2
        | cons ob obs => simp
  rw [zip_hops_map reserves tradeDirections orderBooks hl1 hl2] at hok
  generalize hE : estimateHops M (fuel + 1) (reserves.zip (tradeDirections.zip orderBooks))
    (amountIn - fee) 0 = E at hne hok
  cases E with
  | ok t =>
    simp only
    split
    · simp
    · refine ⟨by simp, ?_⟩
      intro r hr
      injection hr with hr
      subst hr
      rcases hok t rfl with ⟨h1, _⟩ | ⟨_, h2⟩
      · exact absurd h1 hnz
      · exact ⟨by omega, h2⟩
  | err e => simp
  | crash p => simp
  | outOfFuel => exact absurd rfl hne

/-- Witness of the amended C1: one pool with reserves 1,000,000 / 1,000,000, direction
`Sell0`, `amountIn = 1000`, `fee = 0`, `minAmount = 0` succeeds with 999. -/
theorem EstimateReceivingAmount_empty_books_witness :
    EstimateReceivingAmount noMatching (0 + 1) 1000 0 [samplePool] [TradeDirectionSell0] 0
        [⟨[]⟩] = .ok 999 ∧
      (0 ≤ 1000 ∧
        chainBuyAmount ([samplePool].zip [TradeDirectionSell0]) (1000 - 0) = .ok 999) :=
  ⟨by decide,
    (EstimateReceivingAmount_empty_books noMatching 0 1000 0 0 [samplePool]
      [TradeDirectionSell0] [⟨[]⟩] (by decide) (by decide) (by decide)).2 999 (by decide)⟩

/-- C2: for all inputs, every successful result of the estimator is at least
`minAmount`; and if the call with `minAmount = 0` yields `r` (the cumulative output of
the final hop), then the call with any `minAmount > r` on the same snapshot returns the
error "min acceptable amount not reached" and no amount. -/
theorem EstimateReceivingAmount_minAmount (M : MatchingPrimitive) (fuel amountIn fee : Nat)
    (reserves : List Pdexv3PoolPair) (tradeDirections : List Nat)
    (orderBooks : List OrderBook) :
    (∀ minAmount r, EstimateReceivingAmount M fuel amountIn fee reserves tradeDirections
        minAmount orderBooks = .ok r → minAmount ≤ r) ∧
    (∀ r, EstimateReceivingAmount M fuel amountIn fee reserves tradeDirections 0 orderBooks
        = .ok r →
      ∀ minAmount, r < minAmount →
        EstimateReceivingAmount M fuel amountIn fee reserves tradeDirections minAmount
          orderBooks = .err (.minAmountNotReached minAmount r)) := by
  unfold EstimateReceivingAmount
  refine ⟨?_, ?_⟩
  · intro minAmount r h
    split at h
    · cases h
    split at h
    · cases h
    split at h
    · split at h
      · cases h
      · injection h with h; omega
    · rename_i hE
      exact absurd h (hE r)
  · intro r h minAmount hlt
    split at h
    · cases h
    split at h
    · cases h
    rename_i h1 h2
    rw [if_neg h1, if_neg h2]
    split at h
    · rename_i t ht
      split at h
      · cases h
      · injection h with h
        subst h
        rw [if_pos hlt]
    · rename_i hE
      exact absurd h (hE r)

/-- Witness of C2 on the sample pool: the call with `minAmount = 0` yields 999, and the
call with `minAmount = 1000` fails. -/
theorem EstimateReceivingAmount_minAmount_witness :
    EstimateReceivingAmount noMatching 1 1000 0 [samplePool] [TradeDirectionSell0] 0 [⟨[]⟩]
        = .ok 999 ∧
      EstimateReceivingAmount noMatching 1 1000 0 [samplePool] [TradeDirectionSell0] 1000
        [⟨[]⟩] = .err (.minAmountNotReached 1000 999) :=
  ⟨by decide,
    (EstimateReceivingAmount_minAmount noMatching 1 1000 0 [samplePool] [TradeDirectionSell0]
      [⟨[]⟩]).2 999 (by decide) 1000 (by decide)⟩

/-! ## `ApplyReserveChanges` -/

/-- The signs check passes exactly for strictly opposite signs or two zeros. -/
theorem signs_check (d0 d1 : Int) :
    (d0.sign * d1.sign ≥ 0 ∧ ¬ (d0.sign = 0 ∧ d1.sign = 0)) ↔
      ¬ ((d0 < 0 ∧ 0 < d1) ∨ (0 < d0 ∧ d1 < 0) ∨ (d0 = 0 ∧ d1 = 0)) := by
  rcases lt_trichotomy d0 0 with h0 | h0 | h0 <;>
    rcases lt_trichotomy d1 0 with h1 | h1 | h1
  all_goals
    first
      | (rw [Int.sign_eq_neg_one_of_neg h0]) | (rw [Int.sign_eq_one_of_pos h0]) | (subst h0)
  all_goals
    first
      | (rw [Int.sign_eq_neg_one_of_neg h1]) | (rw [Int.sign_eq_one_of_pos h1]) | (subst h1)
  all_goals simp <;> omega

/-- The outcome of `ApplyReserveChanges` when every check passes. -/
theorem ApplyReserveChanges_pass (tp : Pdexv3PoolPair) (d0 d1 : Int)
    (hs : (d0 < 0 ∧ 0 < d1) ∨ (0 < d0 ∧ d1 < 0) ∨ (d0 = 0 ∧ d1 = 0))
    (h0 : 0 ≤ (tp.Token0RealAmount : Int) + d0) (h0' : (tp.Token0RealAmount : Int) + d0 < 2 ^ 64)
    (h1 : 0 ≤ (tp.Token1RealAmount : Int) + d1) (h1' : (tp.Token1RealAmount : Int) + d1 < 2 ^ 64) :
    ApplyReserveChanges tp d0 d1 =
      ({ tp with
          Token0RealAmount := ((tp.Token0RealAmount : Int) + d0).toNat
          Token0VirtualAmount := tp.Token0VirtualAmount + d0
          Token1RealAmount := ((tp.Token1RealAmount : Int) + d1).toNat
          Token1VirtualAmount := tp.Token1VirtualAmount + d1 }, none) := by
  have hsig : ¬ (d0.sign * d1.sign ≥ 0 ∧ ¬ (d0.sign = 0 ∧ d1.sign = 0)) := by
    rw [signs_check]; exact not_not.2 hs
  have e0 := (IsUint64_eq_true _).2 ⟨h0, h0'⟩
  have e1 := (IsUint64_eq_true _).2 ⟨h1, h1'⟩
  unfold ApplyReserveChanges
  rw [if_neg hsig]
  simp only [if_neg (not_lt.2 h0), e0, Bool.not_true, Bool.false_eq_true, if_false,
    if_neg (not_lt.2 h1), e1, toUint64_of_range _ h0 h0', toUint64_of_range _ h1 h1']

/-- A successful `ApplyReserveChanges` passed every check. -/
theorem ApplyReserveChanges_none (tp : Pdexv3PoolPair) (d0 d1 : Int)
    (h : (ApplyReserveChanges tp d0 d1).2 = none) :
    ((d0 < 0 ∧ 0 < d1) ∨ (0 < d0 ∧ d1 < 0) ∨ (d0 = 0 ∧ d1 = 0)) ∧
      0 ≤ (tp.Token0RealAmount : Int) + d0 ∧ (tp.Token0RealAmount : Int) + d0 < 2 ^ 64 ∧
      0 ≤ (tp.Token1RealAmount : Int) + d1 ∧ (tp.Token1RealAmount : Int) + d1 < 2 ^ 64 := by
  unfold ApplyReserveChanges at h
  split at h
  · simp at h
  rename_i hsig
  rw [signs_check, not_not] at hsig
  simp only at h
  split at h
  · simp at h
  rename_i h0
  split at h
  · simp at h
  rename_i e0
  split at h
  · simp at h
  rename_i h1
  split at h
  · simp at h
  rename_i e1
  simp only [Bool.not_eq_true, Bool.not_eq_false] at e0 e1
  have e0' := (IsUint64_eq_true _).1 (by simpa using e0)
  have e1' := (IsUint64_eq_true _).1 (by simpa using e1)
  exact ⟨hsig, e0'.1, e0'.2, e1'.1, e1'.2⟩

/-- C13: for every pool and integer deltas `d0`, `d1`, `ApplyReserveChanges` succeeds if
and only if the deltas have strictly opposite signs or are both `0`, and `real0 + d0`
and `real1 + d1` both lie in `[0, 2^64 - 1]`; on success each of the four reserves is
shifted by the delta of its token, so the differences `virtual_i - real_i` are kept. -/
theorem ApplyReserveChanges_iff (tp : Pdexv3PoolPair) (d0 d1 : Int) :
    ((ApplyReserveChanges tp d0 d1).2 = none ↔
      ((d0 < 0 ∧ 0 < d1) ∨ (0 < d0 ∧ d1 < 0) ∨ (d0 = 0 ∧ d1 = 0)) ∧
        0 ≤ (tp.Token0RealAmount : Int) + d0 ∧
        (tp.Token0RealAmount : Int) + d0 ≤ 2 ^ 64 - 1 ∧
        0 ≤ (tp.Token1RealAmount : Int) + d1 ∧
        (tp.Token1RealAmount : Int) + d1 ≤ 2 ^ 64 - 1) ∧
    ((ApplyReserveChanges tp d0 d1).2 = none →
      ((ApplyReserveChanges tp d0 d1).1.Token0RealAmount : Int)
          = (tp.Token0RealAmount : Int) + d0 ∧
        ((ApplyReserveChanges tp d0 d1).1.Token1RealAmount : Int)
          = (tp.Token1RealAmount : Int) + d1 ∧
        (ApplyReserveChanges tp d0 d1).1.Token0VirtualAmount = tp.Token0VirtualAmount + d0 ∧
        (ApplyReserveChanges tp d0 d1).1.Token1VirtualAmount = tp.Token1VirtualAmount + d1 ∧
        (ApplyReserveChanges tp d0 d1).1.Token0VirtualAmount
            - ((ApplyReserveChanges tp d0 d1).1.Token0RealAmount : Int)
          = tp.Token0VirtualAmount - (tp.Token0RealAmount : Int) ∧
        (ApplyReserveChanges tp d0 d1).1.Token1VirtualAmount
            - ((ApplyReserveChanges tp d0 d1).1.Token1RealAmount : Int)
          = tp.Token1VirtualAmount - (tp.Token1RealAmount : Int)) := by
  constructor
  · constructor
    · intro h
      obtain ⟨hs, a, b, c, d⟩ := ApplyReserveChanges_none tp d0 d1 h
      exact ⟨hs, a, by omega, c, by omega⟩
    · rintro ⟨hs, a, b, c, d⟩
      rw [ApplyReserveChanges_pass tp d0 d1 hs a (by omega) c (by omega)]
  · intro h
    obtain ⟨hs, a, b, c, d⟩ := ApplyReserveChanges_none tp d0 d1 h
    rw [ApplyReserveChanges_pass tp d0 d1 hs a b c d]
    simp only [Int.toNat_of_nonneg a, Int.toNat_of_nonneg c]
    refine ⟨trivial, trivial, trivial, trivial, by ring, by ring⟩

/-- Witness of C13 on the sample pool with the deltas `1000` and `-999`. -/
theorem ApplyReserveChanges_iff_witness :
    (ApplyReserveChanges samplePool 1000 (-999)).2 = none ∧
      (ApplyReserveChanges samplePool 1000 (-999)).1.Token0VirtualAmount
        = samplePool.Token0VirtualAmount + 1000 ∧
      (ApplyReserveChanges samplePool 1000 (-999)).1.Token1VirtualAmount
        = samplePool.Token1VirtualAmount + (-999) :=
  ⟨by decide,
    ((ApplyReserveChanges_iff samplePool 1000 (-999)).2 (by decide)).2.2.1,
    ((ApplyReserveChanges_iff samplePool 1000 (-999)).2 (by decide)).2.2.2.1⟩

/-- C14, the behaviour of the code where the claim fails: on the amplified pool (real
10 / 10, virtual 1000 / 1000) the deltas `+500`, `-333` pass the checks of token0 and
fail the check of token1; `ApplyReserveChanges` returns the error with the reserves of
token0 already shifted, and so does the swap of 500 in direction `Sell0`. -/
theorem ApplyReserveChanges_not_atomic :
    ApplyReserveChanges amplifiedPool 500 (-333) = (amplifiedPoolHalf, some .notEnoughToken1) ∧
      SwapToReachOrderRate amplifiedPool 500 TradeDirectionSell0 none
        = (amplifiedPoolHalf, .err .notEnoughToken1) ∧
      amplifiedPoolHalf.Token0RealAmount ≠ amplifiedPool.Token0RealAmount := by
  decide

/-! ## Reserve effects of `SwapToReachOrderRate` -/

/-- A successful `calculateBuyAmount`: the denominator is not zero and the result is the
Euclidean quotient. -/
theorem calculateBuyAmount_ok_quot (a rIn rOut : Nat) (vIn vOut : Int) (r : Nat)
    (h : calculateBuyAmount a rIn rOut vIn vOut = .ok r) :
    (a : Int) + vIn ≠ 0 ∧ (r : Int) = (a : Int) * vOut / ((a : Int) + vIn) := by
  simp only [calculateBuyAmount] at h
  split at h
  · cases h
  split at h
  · cases h
  split at h
  · cases h
  rename_i hden
  split at h
  · cases h
  rename_i hu
  injection h with h
  have hu' := (IsUint64_eq_true _).1 (by simpa using hu)
  refine ⟨hden, ?_⟩
  rw [← h, toUint64_of_range _ hu'.1 hu'.2, Int.toNat_of_nonneg hu'.1]

/-- A successful `BuyAmount`: the result is the Euclidean quotient of the direction. -/
theorem BuyAmount_ok_quot (tp : Pdexv3PoolPair) (x d r : Nat) (h : BuyAmount tp x d = .ok r) :
    (x : Int) +
        (if d = TradeDirectionSell0 then tp.Token0VirtualAmount else tp.Token1VirtualAmount)
      ≠ 0 ∧
    (r : Int) = (x : Int) *
        (if d = TradeDirectionSell0 then tp.Token1VirtualAmount else tp.Token0VirtualAmount) /
        ((x : Int) +
          (if d = TradeDirectionSell0 then tp.Token0VirtualAmount else tp.Token1VirtualAmount)) := by
  unfold BuyAmount at h
  by_cases hd : d = TradeDirectionSell0
  · simp only [hd, if_true] at h ⊢
    exact calculateBuyAmount_ok_quot _ _ _ _ _ _ h
  · simp only [hd, if_false] at h ⊢
    exact calculateBuyAmount_ok_quot _ _ _ _ _ _ h

/-- The virtual reserves after a successful `applySwap`. -/
theorem applySwap_virtual (tp tp1 : Pdexv3PoolPair) (d f r b : Nat)
    (res : Nat × Nat × Int × Int) (h : applySwap tp d f r b = (tp1, .ok res)) :
    res = (b, r, (if d = TradeDirectionSell0 then (f : Int) else -(b : Int)),
        (if d = TradeDirectionSell0 then -(b : Int) else (f : Int))) ∧
      (if d = TradeDirectionSell0 then tp1.Token0VirtualAmount else tp1.Token1VirtualAmount)
        = (if d = TradeDirectionSell0 then tp.Token0VirtualAmount else tp.Token1VirtualAmount)
          + f ∧
      (if d = TradeDirectionSell0 then tp1.Token1VirtualAmount else tp1.Token0VirtualAmount)
        = (if d = TradeDirectionSell0 then tp.Token1VirtualAmount else tp.Token0VirtualAmount)
          - b := by
  obtain ⟨b1, r1, c0, c1⟩ := res
  obtain ⟨e1, e2, e3, e4, hA⟩ := applySwap_ok tp tp1 d f r b b1 r1 c0 c1 h
  have hn : (ApplyReserveChanges tp c0 c1).2 = none := by rw [hA]
  obtain ⟨hs, p0, p0', p1, p1'⟩ := ApplyReserveChanges_none tp c0 c1 hn
  rw [ApplyReserveChanges_pass tp c0 c1 hs p0 p0' p1 p1'] at hA
  injection hA with hA _
  subst hA e1 e2
  by_cases hd : d = TradeDirectionSell0
  · simp only [hd, if_true] at e3 e4 ⊢
    subst e3 e4
    exact ⟨rfl, rfl, by ring⟩
  · simp only [hd, if_false] at e3 e4 ⊢
    subst e3 e4
    exact ⟨rfl, rfl, by ring⟩

/-- A successful `applySwap` of a positive amount bought a positive amount (signs
check). -/
theorem applySwap_bought_pos (tp tp1 : Pdexv3PoolPair) (d f r b : Nat)
    (res : Nat × Nat × Int × Int) (hf : 0 < f) (h : applySwap tp d f r b = (tp1, .ok res)) :
    0 < b := by
  obtain ⟨b1, r1, c0, c1⟩ := res
  obtain ⟨-, -, e3, e4, hA⟩ := applySwap_ok tp tp1 d f r b b1 r1 c0 c1 h
  have hn : (ApplyReserveChanges tp c0 c1).2 = none := by rw [hA]
  obtain ⟨hs, -⟩ := ApplyReserveChanges_none tp c0 c1 hn
  by_cases hd : d = TradeDirectionSell0
  · simp only [hd, if_true] at e3 e4
    omega
  · simp only [hd, if_false] at e3 e4
    omega

/-- The successful outcomes of `SwapToReachOrderRate` with an order: either nothing is
swapped and the pool is unchanged, or a positive amount `f`, at most the target and at
most `maxSellAmount`, is swapped for `BuyAmount f`. -/
theorem SwapToReachOrderRate_some_ok (tp tp1 : Pdexv3PoolPair) (m d : Nat) (o : Pdexv3Order)
    (res : Nat × Nat × Int × Int) (hm : m < uint64Bound)
    (h : SwapToReachOrderRate tp m d (some o) = (tp1, .ok res)) :
    ∃ t, targetDeltaX tp d o = .ok t ∧
      ((res = (0, m, 0, 0) ∧ tp1 = tp) ∨
        ∃ f b : Nat, 0 < f ∧ (f : Int) ≤ t ∧ f ≤ m ∧ 0 < b ∧ BuyAmount tp f d = .ok b ∧
          applySwap tp d f (m - f) b = (tp1, .ok res)) := by
  have hB : ((uint64Bound : Nat) : Int) = 2 ^ 64 := by simp [uint64Bound]
  simp only [SwapToReachOrderRate] at h
  split at h
  · simp at h
  split at h
  · simp at h
  split at h
  · rename_i t ht
    refine ⟨t, ht, ?_⟩
    split at h
    · rename_i hge
      split at h
      · rename_i b1 hb1
        right
        have hpos := (BuyAmount_ok_pos tp m d b1 hb1).1
        have hb0 : 0 < b1 := applySwap_bought_pos tp tp1 d m 0 b1 res hpos h
        exact ⟨m, b1, hpos, hge, le_refl _, hb0, hb1, by simpa using h⟩
      all_goals simp at h
    · rename_i hlt
      split at h
      · left
        simp only [Prod.mk.injEq, Result.ok.injEq] at h
        exact ⟨h.2.symm, h.1.symm⟩
      · have ht0 : 0 ≤ t := by omega
        have htm : t < m := by omega
        have hfin : toUint64 t = t.toNat := toUint64_of_range t ht0 (by omega)
        have hrem : toUint64 ((m : Int) - t) = ((m : Int) - t).toNat :=
          toUint64_of_range _ (by omega) (by omega)
        rw [hfin, hrem] at h
        split at h
        · rename_i b1 hb1
          split at h
          · left
            simp only [Prod.mk.injEq, Result.ok.injEq] at h
            exact ⟨h.2.symm, h.1.symm⟩
          · right
            rename_i hb0
            refine ⟨t.toNat, b1, by omega, by omega, by omega, by omega, hb1, ?_⟩
            have : ((m : Int) - t).toNat = m - t.toNat := by omega
            rw [← this]
            exact h
        all_goals simp at h
  all_goals simp at h

/-- A computed `targetDeltaX` in integer arithmetic: the rate divisor is not zero, the
quotient under the root is not negative, and the target is the root minus `xV`. -/
theorem targetDeltaX_ok_int (tp : Pdexv3PoolPair) (d : Nat) (o : Pdexv3Order) (t : Int)
    (h : targetDeltaX tp d o = .ok t) :
    (if d = TradeDirectionSell0 then o.Token1Rate else o.Token0Rate) ≠ 0 ∧
    t = ((Nat.sqrt
      ((if d = TradeDirectionSell0 then tp.Token0VirtualAmount else tp.Token1VirtualAmount) *
        (if d = TradeDirectionSell0 then tp.Token1VirtualAmount else tp.Token0VirtualAmount) *
        ((if d = TradeDirectionSell0 then o.Token0Rate else o.Token1Rate : Nat) : Int) /
        ((if d = TradeDirectionSell0 then o.Token1Rate else o.Token0Rate : Nat) : Int)).toNat
      : Nat) : Int) -
      (if d = TradeDirectionSell0 then tp.Token0VirtualAmount else tp.Token1VirtualAmount) := by
  simp only [targetDeltaX, sellingBuyingReserves] at h
  by_cases hd : d = TradeDirectionSell0
  · simp only [hd, if_true] at h ⊢
    split at h
    · cases h
    · rename_i hy
      split at h
      · cases h
      · injection h with h
        exact ⟨by exact_mod_cast hy, h.symm⟩
  · simp only [hd, if_false] at h ⊢
    by_cases hd1 : d = TradeDirectionSell1
    · simp only [hd1, if_true] at h
      split at h
      · cases h
      · rename_i hy
        split at h
        · cases h
        · injection h with h
          exact ⟨by exact_mod_cast hy, h.symm⟩
    · simp only [hd1, if_false] at h
      cases h

/-- The price bound behind `SwapToReachOrderRate`: selling at most the target keeps
`xV' * yOrd ≤ yV' * xOrd`. -/
theorem price_bound (xV yV : Int) (xOrd yOrd f b : Nat) (hx : 0 < xV) (hy : 0 < yV)
    (hyO : yOrd ≠ 0) (hf : 0 < f)
    (hft : (f : Int) ≤ ((Nat.sqrt (xV * yV * (xOrd : Int) / (yOrd : Int)).toNat : Nat) : Int)
      - xV)
    (hb : (b : Int) = (f : Int) * yV / ((f : Int) + xV)) :
    (xV + f) * (yOrd : Int) ≤ (yV - b) * (xOrd : Int) := by
  have hyO' : (0 : Int) < yOrd := by omega
  have hN : 0 ≤ xV * yV * (xOrd : Int) / (yOrd : Int) :=
    Int.ediv_nonneg (by positivity) hyO'.le
  have hS : ((Nat.sqrt (xV * yV * (xOrd : Int) / (yOrd : Int)).toNat : Nat) : Int) *
      ((Nat.sqrt (xV * yV * (xOrd : Int) / (yOrd : Int)).toNat : Nat) : Int)
      ≤ xV * yV * (xOrd : Int) / (yOrd : Int) := by
    have h1 := Nat.sqrt_le (xV * yV * (xOrd : Int) / (yOrd : Int)).toNat
    have h2 : ((xV * yV * (xOrd : Int) / (yOrd : Int)).toNat : Int)
        = xV * yV * (xOrd : Int) / (yOrd : Int) := Int.toNat_of_nonneg hN
    rw [← h2]
    exact_mod_cast h1
  have hNy : xV * yV * (xOrd : Int) / (yOrd : Int) * (yOrd : Int) ≤ xV * yV * (xOrd : Int) :=
    Int.ediv_mul_le _ (by omega)
  have hbq : (b : Int) * ((f : Int) + xV) ≤ (f : Int) * yV := by
    rw [hb]; exact Int.ediv_mul_le _ (by omega)
  set S : Int := ((Nat.sqrt (xV * yV * (xOrd : Int) / (yOrd : Int)).toNat : Nat) : Int)
  set N : Int := xV * yV * (xOrd : Int) / (yOrd : Int)
  have hX : 0 < xV + (f : Int) := by omega
  have hXS : xV + (f : Int) ≤ S := by omega
  have hXX : (xV + (f : Int)) * (xV + (f : Int)) ≤ S * S :=
    Int.mul_le_mul hXS hXS hX.le (by omega)
  have hxo : (0 : Int) ≤ xOrd := by positivity
  have hL : xV * yV ≤ (yV - b) * (xV + (f : Int)) := by nlinarith
  have h1 : (xV + (f : Int)) * ((xV + (f : Int)) * (yOrd : Int))
      ≤ (xV + (f : Int)) * ((yV - b) * (xOrd : Int)) := by
    calc (xV + (f : Int)) * ((xV + (f : Int)) * (yOrd : Int))
        = (xV + (f : Int)) * (xV + (f : Int)) * (yOrd : Int) := by ring
      _ ≤ S * S * (yOrd : Int) := Int.mul_le_mul_of_nonneg_right hXX hyO'.le
      _ ≤ N * (yOrd : Int) := Int.mul_le_mul_of_nonneg_right hS hyO'.le
      _ ≤ xV * yV * (xOrd : Int) := hNy
      _ ≤ (yV - b) * (xV + (f : Int)) * (xOrd : Int) :=
          Int.mul_le_mul_of_nonneg_right hL hxo
      _ = (xV + (f : Int)) * ((yV - b) * (xOrd : Int)) := by ring
  exact le_of_mul_le_mul_left h1 hX

/-- The target of the parity order on the sample pool is `sqrt(10^12) - 10^6 = 0`. -/
theorem targetDeltaX_parity :
    targetDeltaX samplePool TradeDirectionSell0 parityOrder = .ok 0 := by
  have hs : Nat.sqrt 1000000000000 = 1000000 :=
    (Nat.eq_sqrt.2 ⟨by norm_num, by norm_num⟩).symm
  have hq : ((1000000 : Int) * 1000000 * ((1 : Nat) : Int) / ((1 : Nat) : Int)).toNat
      = 1000000000000 := by decide
  simp only [targetDeltaX, sellingBuyingReserves, samplePool, parityOrder,
    TradeDirectionSell0, if_true]
  rw [if_neg (by decide), hq, hs, if_neg (by decide)]
  rfl

/-- C11 as stated fails when `targetDeltaX = 0` and `maxSellAmount = 0`: on the sample pool
with the parity order the target is `0`, and the call with `maxSellAmount = 0` takes the
full-swap branch and returns the error of `BuyAmount 0`. -/
theorem SwapToReachOrderRate_zero_fails :
    targetDeltaX samplePool TradeDirectionSell0 parityOrder = .ok 0 ∧
      SwapToReachOrderRate samplePool 0 TradeDirectionSell0 (some parityOrder)
        = (samplePool, .err .insufficientInput) := by
  refine ⟨targetDeltaX_parity, ?_⟩
  simp only [SwapToReachOrderRate]
  rw [targetDeltaX_parity]
  decide

/-- C11, amended: for every pool with liquidity, every order of another direction and
every `maxSellAmount` in the 64-bit range, if `targetDeltaX ≤ 0` and
`targetDeltaX < maxSellAmount`, or if `0 < targetDeltaX < maxSellAmount` and
`BuyAmount targetDeltaX = 0`, then `SwapToReachOrderRate` succeeds with amount bought
`0`, remainder `maxSellAmount` and both reserve deltas `0`, and the pool is unchanged. -/
theorem SwapToReachOrderRate_defers (tp : Pdexv3PoolPair) (m d : Nat) (o : Pdexv3Order)
    (t : Int) (h0 : 0 < tp.Token0RealAmount) (h1 : 0 < tp.Token1RealAmount)
    (hopp : d ≠ o.TradeDirection) (ht : targetDeltaX tp d o = .ok t)
    (hm : m < uint64Bound)
    (hcase : (t ≤ 0 ∧ t < m) ∨ (0 < t ∧ t < m ∧ BuyAmount tp t.toNat d = .ok 0)) :
    SwapToReachOrderRate tp m d (some o) = (tp, .ok (0, m, 0, 0)) := by
  have hB : ((uint64Bound : Nat) : Int) = 2 ^ 64 := by simp [uint64Bound]
  have hl : HasInsufficientLiquidity tp = false := by
    simp [HasInsufficientLiquidity]; omega
  simp only [SwapToReachOrderRate, hl, Bool.false_eq_true, if_false, if_neg hopp, ht]
  rcases hcase with ⟨ht0, htm⟩ | ⟨ht0, htm, hb⟩
  · rw [if_neg (by omega), if_pos ht0]
  · rw [if_neg (by omega), if_neg (by omega),
      toUint64_of_range t (by omega) (by omega)]
    simp only [hb, if_true]

/-- Witness of the amended C11: on the sample pool with the parity order the target is
`0`, and the call with `maxSellAmount = 1000` defers everything to the order. -/
theorem SwapToReachOrderRate_defers_witness :
    targetDeltaX samplePool TradeDirectionSell0 parityOrder = .ok 0 ∧
      SwapToReachOrderRate samplePool 1000 TradeDirectionSell0 (some parityOrder)
        = (samplePool, .ok (0, 1000, 0, 0)) :=
  ⟨targetDeltaX_parity,
    SwapToReachOrderRate_defers samplePool 1000 TradeDirectionSell0 parityOrder 0
      (by decide) (by decide) (by decide) targetDeltaX_parity (by decide)
      (Or.inl ⟨by decide, by decide⟩)⟩

/-- C12: for every pool with positive virtual reserves and every order, after a successful
`SwapToReachOrderRate` that swapped a non-zero amount in the pool, the virtual reserves
`xV'` of the selling side and `yV'` of the buying side satisfy
`xV' * yOrd ≤ yV' * xOrd`, with `xOrd : yOrd` the rate of the order on the
selling : buying side. -/
theorem SwapToReachOrderRate_price (tp tp1 : Pdexv3PoolPair) (m d : Nat) (o : Pdexv3Order)
    (b r : Nat) (c0 c1 : Int)
    (hv0 : 0 < tp.Token0VirtualAmount) (hv1 : 0 < tp.Token1VirtualAmount)
    (hm : m < uint64Bound)
    (h : SwapToReachOrderRate tp m d (some o) = (tp1, .ok (b, r, c0, c1))) (hb : b ≠ 0) :
    (if d = TradeDirectionSell0 then tp1.Token0VirtualAmount else tp1.Token1VirtualAmount) *
        ((if d = TradeDirectionSell0 then o.Token1Rate else o.Token0Rate : Nat) : Int) ≤
      (if d = TradeDirectionSell0 then tp1.Token1VirtualAmount else tp1.Token0VirtualAmount) *
        ((if d = TradeDirectionSell0 then o.Token0Rate else o.Token1Rate : Nat) : Int) := by
  obtain ⟨t, ht, hc⟩ := SwapToReachOrderRate_some_ok tp tp1 m d o _ hm h
  rcases hc with ⟨hres, -⟩ | ⟨f, b1, hf, hft, -, -, hb1, hA⟩
  · simp only [Prod.mk.injEq] at hres
    exact absurd hres.1 hb
  · obtain ⟨-, hx, hy⟩ := applySwap_virtual tp tp1 d f (m - f) b1 _ hA
    obtain ⟨hyO, htt⟩ := targetDeltaX_ok_int tp d o t ht
    obtain ⟨-, hq⟩ := BuyAmount_ok_quot tp f d b1 hb1
    rw [hx, hy]
    rw [htt] at hft
    by_cases hd : d = TradeDirectionSell0
    · simp only [hd, if_true] at hft hq hyO ⊢
      exact price_bound _ _ _ _ f b1 hv0 hv1 hyO hf hft hq
    · simp only [hd, if_false] at hft hq hyO ⊢
      exact price_bound _ _ _ _ f b1 hv1 hv0 hyO hf hft hq

/-- Witness of C12: after the partial swap of the sample pool against the sample order
(rate 4 : 1) the virtual reserves are 2,000,000 / 500,000 and
`2,000,000 * 1 ≤ 500,000 * 4`. -/
theorem SwapToReachOrderRate_price_witness :
    SwapToReachOrderRate samplePool 2000000 TradeDirectionSell0 (some sampleOrder) =
        (samplePoolAfter, .ok (500000, 1000000, 1000000, -500000)) ∧
      (2000000 : Int) * ((1 : Nat) : Int) ≤ (500000 : Int) * ((4 : Nat) : Int) :=
  ⟨SwapToReachOrderRate_sample,
    SwapToReachOrderRate_price samplePool samplePoolAfter 2000000 TradeDirectionSell0
      sampleOrder 500000 1000000 1000000 (-500000) (by decide) (by decide) (by decide)
      SwapToReachOrderRate_sample (by decide)⟩

/-- A successful swap without an order is the reserve update of `BuyAmount`. -/
theorem SwapToReachOrderRate_none_apply (tp tp1 : Pdexv3PoolPair) (m d : Nat)
    (res : Nat × Nat × Int × Int) (h : SwapToReachOrderRate tp m d none = (tp1, .ok res)) :
    ∃ b, BuyAmount tp m d = .ok b ∧ applySwap tp d m 0 b = (tp1, .ok res) := by
  rw [SwapToReachOrderRate_none] at h
  split at h
  · simp at h
  · split at h
    · rename_i b hb
      exact ⟨b, hb, h⟩
    all_goals simp at h

/-- C15 as stated fails: selling 1000 on the sample pool without an order buys 999 and
moves the product of the virtual reserves from `10^12` to `1,001,000 * 999,001`. -/
theorem SwapToReachOrderRate_product_changes :
    (SwapToReachOrderRate samplePool 1000 TradeDirectionSell0 none).2
        = .ok (999, 0, 1000, -999) ∧
      (SwapToReachOrderRate samplePool 1000 TradeDirectionSell0 none).1.Token0VirtualAmount *
        (SwapToReachOrderRate samplePool 1000 TradeDirectionSell0 none).1.Token1VirtualAmount
        = 1000000001000 ∧
      samplePool.Token0VirtualAmount * samplePool.Token1VirtualAmount = 1000000000000 := by
  decide

/-- C15, amended: for every pool and every successful swap without an order, the product
of the virtual reserves after the call is the product before the call plus the remainder
of `sellAmount * vOut` modulo `sellAmount + vIn` (the part lost to rounding the bought
amount down); the remainder is not negative and below `|sellAmount + vIn|`, so the
product never decreases. -/
theorem SwapToReachOrderRate_none_product (tp tp1 : Pdexv3PoolPair) (m d : Nat)
    (res : Nat × Nat × Int × Int) (h : SwapToReachOrderRate tp m d none = (tp1, .ok res)) :
    tp1.Token0VirtualAmount * tp1.Token1VirtualAmount =
        tp.Token0VirtualAmount * tp.Token1VirtualAmount +
          ((m : Int) *
            (if d = TradeDirectionSell0 then tp.Token1VirtualAmount
              else tp.Token0VirtualAmount)) %
          ((m : Int) +
            (if d = TradeDirectionSell0 then tp.Token0VirtualAmount
              else tp.Token1VirtualAmount)) ∧
      0 ≤ ((m : Int) *
            (if d = TradeDirectionSell0 then tp.Token1VirtualAmount
              else tp.Token0VirtualAmount)) %
          ((m : Int) +
            (if d = TradeDirectionSell0 then tp.Token0VirtualAmount
              else tp.Token1VirtualAmount)) ∧
      ((m : Int) *
            (if d = TradeDirectionSell0 then tp.Token1VirtualAmount
              else tp.Token0VirtualAmount)) %
          ((m : Int) +
            (if d = TradeDirectionSell0 then tp.Token0VirtualAmount
              else tp.Token1VirtualAmount)) <
        |(m : Int) +
            (if d = TradeDirectionSell0 then tp.Token0VirtualAmount
              else tp.Token1VirtualAmount)| ∧
      tp.Token0VirtualAmount * tp.Token1VirtualAmount ≤
        tp1.Token0VirtualAmount * tp1.Token1VirtualAmount := by
  obtain ⟨b, hb, hA⟩ := SwapToReachOrderRate_none_apply tp tp1 m d res h
  obtain ⟨-, hx, hy⟩ := applySwap_virtual tp tp1 d m 0 b res hA
  obtain ⟨hden, hq⟩ := BuyAmount_ok_quot tp m d b hb
  have hnn := Int.emod_nonneg ((m : Int) *
    (if d = TradeDirectionSell0 then tp.Token1VirtualAmount else tp.Token0VirtualAmount)) hden
  have hlt := Int.emod_lt ((m : Int) *
    (if d = TradeDirectionSell0 then tp.Token1VirtualAmount else tp.Token0VirtualAmount)) hden
  have hdiv := Int.emod_add_ediv ((m : Int) *
    (if d = TradeDirectionSell0 then tp.Token1VirtualAmount else tp.Token0VirtualAmount))
    ((m : Int) +
      (if d = TradeDirectionSell0 then tp.Token0VirtualAmount else tp.Token1VirtualAmount))
  rw [← hq] at hdiv
  have key : tp1.Token0VirtualAmount * tp1.Token1VirtualAmount =
      tp.Token0VirtualAmount * tp.Token1VirtualAmount +
        ((m : Int) *
          (if d = TradeDirectionSell0 then tp.Token1VirtualAmount
            else tp.Token0VirtualAmount)) %
        ((m : Int) +
          (if d = TradeDirectionSell0 then tp.Token0VirtualAmount
            else tp.Token1VirtualAmount)) := by
    by_cases hd : d = TradeDirectionSell0
    · simp only [hd, if_true] at hx hy hdiv ⊢
      rw [hx, hy]
      linear_combination -hdiv
    · simp only [hd, if_false] at hx hy hdiv ⊢
      rw [hx, hy]
      linear_combination -hdiv
  refine ⟨key, hnn, hlt, ?_⟩
  rw [key]
  omega

/-- Witness of the amended C15 on the sample pool: the product after selling 1000 is
`10^12 + (1000 * 10^6) % (1000 + 10^6)`. -/
theorem SwapToReachOrderRate_none_product_witness :
    (SwapToReachOrderRate samplePool 1000 TradeDirectionSell0 none).1.Token0VirtualAmount *
        (SwapToReachOrderRate samplePool 1000 TradeDirectionSell0 none).1.Token1VirtualAmount
      = samplePool.Token0VirtualAmount * samplePool.Token1VirtualAmount +
        ((1000 : Nat) : Int) * samplePool.Token1VirtualAmount %
          (((1000 : Nat) : Int) + samplePool.Token0VirtualAmount) :=
  (SwapToReachOrderRate_none_product samplePool
    (SwapToReachOrderRate samplePool 1000 TradeDirectionSell0 none).1 1000
    TradeDirectionSell0 (999, 0, 1000, -999) (by decide)).1

/-! ## `AmountToSell` followed by `BuyAmount` -/

/-- The sell amount computed for `y` is enough to buy `y`: with `s = q + 1` for the
quotient `q` of `vIn * y` by `vOut - y`, the quotient of `s * vOut` by `s + vIn` is at
least `y`. -/
theorem buyQuotient_of_sellQuotient (y vIn vOut : Int) (hy : 0 < y) (hIn : 0 < vIn)
    (hlt : y < vOut) :
    y ≤ (vIn * y / (vOut - y) + 1) * vOut / (vIn * y / (vOut - y) + 1 + vIn) := by
  have hd : 0 < vOut - y := by omega
  have hq : 0 ≤ vIn * y / (vOut - y) := Int.ediv_nonneg (by positivity) hd.le
  have h1 : vIn * y < (vIn * y / (vOut - y) + 1) * (vOut - y) := by
    have := Int.lt_ediv_add_one_mul_self (vIn * y) hd
    linarith
  rw [Int.le_ediv_iff_mul_le (by omega)]
  nlinarith

/-- C27: for every pool with positive virtual reserves, every direction and every buy
amount `y` with `0 < y < vOut`, when `AmountToSell y` returns `s` and `BuyAmount s`
returns `b`, then `b ≥ y`. -/
theorem BuyAmount_AmountToSell_ge (tp : Pdexv3PoolPair) (d y s b : Nat)
    (hv0 : 0 < tp.Token0VirtualAmount) (hv1 : 0 < tp.Token1VirtualAmount) (hy : 0 < y)
    (hlt : (y : Int) <
      (if d = TradeDirectionSell0 then tp.Token1VirtualAmount else tp.Token0VirtualAmount))
    (hs : AmountToSell tp y d = .ok s) (hb : BuyAmount tp s d = .ok b) : y ≤ b := by
  obtain ⟨-, hq⟩ := BuyAmount_ok_quot tp s d b hb
  have hy' : (0 : Int) < y := by exact_mod_cast hy
  by_cases hd : d = TradeDirectionSell0
  · simp only [hd, if_true] at hlt hq
    simp only [AmountToSell, hd, if_true] at hs
    have hs' := calculateAmountToSell_ok y _ _ _ _ s (by omega) hs
    have := buyQuotient_of_sellQuotient y tp.Token0VirtualAmount tp.Token1VirtualAmount
      hy' hv0 hlt
    rw [← hs', ← hq] at this
    exact_mod_cast this
  · simp only [hd, if_false] at hlt hq
    simp only [AmountToSell, hd, if_false] at hs
    have hs' := calculateAmountToSell_ok y _ _ _ _ s (by omega) hs
    have := buyQuotient_of_sellQuotient y tp.Token1VirtualAmount tp.Token0VirtualAmount
      hy' hv1 hlt
    rw [← hs', ← hq] at this
    exact_mod_cast this

/-- Witness of C27 on the small pool: `AmountToSell 2 = 3` and `BuyAmount 3 = 2`. -/
theorem BuyAmount_AmountToSell_ge_witness :
    AmountToSell smallPool 2 TradeDirectionSell0 = .ok 3 ∧
      BuyAmount smallPool 3 TradeDirectionSell0 = .ok 2 ∧ (2 : Nat) ≤ 2 :=
  ⟨by decide, by decide,
    BuyAmount_AmountToSell_ge smallPool TradeDirectionSell0 2 3 2 (by decide) (by decide)
      (by decide) (by decide) (by decide) (by decide)⟩

/-! ## The product of the virtual reserves -/

/-- The reserve update of a swap of `f` for the amount `BuyAmount f` does not let the
product of the virtual reserves decrease. -/
theorem applySwap_product (tp tp1 : Pdexv3PoolPair) (d f r b : Nat)
    (res : Nat × Nat × Int × Int)
    (hv0 : 0 < tp.Token0VirtualAmount) (hv1 : 0 < tp.Token1VirtualAmount)
    (hb : BuyAmount tp f d = .ok b) (h : applySwap tp d f r b = (tp1, .ok res)) :
    tp.Token0VirtualAmount * tp.Token1VirtualAmount ≤
      tp1.Token0VirtualAmount * tp1.Token1VirtualAmount := by
  obtain ⟨-, hx, hy⟩ := applySwap_virtual tp tp1 d f r b res h
  obtain ⟨-, hq⟩ := BuyAmount_ok_quot tp f d b hb
  have hf : (0 : Int) ≤ f := Int.ofNat_nonneg f
  by_cases hd : d = TradeDirectionSell0
  · simp only [hd, if_true] at hx hy hq
    have hden : 0 < (f : Int) + tp.Token0VirtualAmount := by omega
    have hle := Int.ediv_mul_le ((f : Int) * tp.Token1VirtualAmount) hden.ne'
    rw [← hq] at hle
    rw [hx, hy]
    nlinarith
  · simp only [hd, if_false] at hx hy hq
    have hden : 0 < (f : Int) + tp.Token1VirtualAmount := by omega
    have hle := Int.ediv_mul_le ((f : Int) * tp.Token0VirtualAmount) hden.ne'
    rw [← hq] at hle
    rw [hx, hy]
    nlinarith

/-- C28: for every pool with positive virtual reserves and every successful
`SwapToReachOrderRate` call, with or without an order, the product of the virtual
reserves after the call is at least the product before the call. -/
theorem SwapToReachOrderRate_product_ge (tp tp1 : Pdexv3PoolPair) (m d : Nat)
    (ord : Option Pdexv3Order) (res : Nat × Nat × Int × Int)
    (hv0 : 0 < tp.Token0VirtualAmount) (hv1 : 0 < tp.Token1VirtualAmount)
    (hm : m < uint64Bound)
    (h : SwapToReachOrderRate tp m d ord = (tp1, .ok res)) :
    tp.Token0VirtualAmount * tp.Token1VirtualAmount ≤
      tp1.Token0VirtualAmount * tp1.Token1VirtualAmount := by
  cases ord with
  | none =>
    obtain ⟨b, hb, hA⟩ := SwapToReachOrderRate_none_apply tp tp1 m d res h
    exact applySwap_product tp tp1 d m 0 b res hv0 hv1 hb hA
  | some o =>
    obtain ⟨t, -, hc⟩ := SwapToReachOrderRate_some_ok tp tp1 m d o res hm h
    rcases hc with ⟨-, htp⟩ | ⟨f, b, -, -, -, -, hb, hA⟩
    · rw [htp]
    · exact applySwap_product tp tp1 d f (m - f) b res hv0 hv1 hb hA

/-- Witness of C28: the partial swap of the sample pool against the sample order moves
the product of the virtual reserves from `10^12` to `2,000,000 * 500,000`. -/
theorem SwapToReachOrderRate_product_ge_witness :
    SwapToReachOrderRate samplePool 2000000 TradeDirectionSell0 (some sampleOrder) =
        (samplePoolAfter, .ok (500000, 1000000, 1000000, -500000)) ∧
      samplePool.Token0VirtualAmount * samplePool.Token1VirtualAmount ≤
        samplePoolAfter.Token0VirtualAmount * samplePoolAfter.Token1VirtualAmount :=
  ⟨SwapToReachOrderRate_sample,
    SwapToReachOrderRate_product_ge samplePool samplePoolAfter 2000000 TradeDirectionSell0
      (some sampleOrder) (500000, 1000000, 1000000, -500000) (by decide) (by decide)
      (by decide) SwapToReachOrderRate_sample⟩

/-! ## One hop of the estimator -/

/-- C29: for a hop whose direction is neither `Sell0` nor `Sell1`, `NextOrder` returns an
error, the loop of the hop is left at once with the output `0`, and the estimation goes on
with the next hop selling `0`; a one-hop call with such a direction and `minAmount = 0`
returns `0` without an error for every `amountIn ≥ fee`. -/
theorem EstimateReceivingAmount_swallows_direction (M : MatchingPrimitive) (fuel d : Nat)
    (tp : Pdexv3PoolPair) (ob : OrderBook)
    (hd0 : d ≠ TradeDirectionSell0) (hd1 : d ≠ TradeDirectionSell1) :
    (∃ e, ob.NextOrder M d = .err e) ∧
    (∀ x, hopLoop M d (fuel + 1) tp ob x 0 = .ok 0) ∧
    (∀ rest x total, estimateHops M (fuel + 1) ((tp, d, ob) :: rest) x total =
      estimateHops M (fuel + 1) rest 0 0) ∧
    (∀ amountIn fee, fee ≤ amountIn →
      EstimateReceivingAmount M (fuel + 1) amountIn fee [tp] [d] 0 [ob] = .ok 0) := by
  have hn : ob.NextOrder M d = .err (.invalidDirection d) := by
    simp [OrderBook.NextOrder, hd0, hd1]
  have hl : ∀ x, hopLoop M d (fuel + 1) tp ob x 0 = .ok 0 := by
    intro x
    simp [hopLoop, hn]
  refine ⟨⟨_, hn⟩, hl, ?_, ?_⟩
  · intro rest x total
    simp [estimateHops, hl, Result.bind]
  · intro amountIn fee hfee
    have : ¬ amountIn < fee := by omega
    simp [EstimateReceivingAmount, this, estimateHops, hl, Result.bind]

/-- Witness of C29: selling 1000 on the sample pool with the direction byte `2`. -/
theorem EstimateReceivingAmount_swallows_direction_witness :
    EstimateReceivingAmount noMatching (0 + 1) 1000 0 [samplePool] [2] 0 [⟨[]⟩] = .ok 0 :=
  (EstimateReceivingAmount_swallows_direction noMatching 0 2 samplePool ⟨[]⟩ (by decide)
    (by decide)).2.2.2 1000 0 (by decide)

/-- The estimate of one hop without a fee and without a minimum is the loop of the hop. -/
theorem EstimateReceivingAmount_single (M : MatchingPrimitive) (fuel s d : Nat)
    (tp : Pdexv3PoolPair) (ob : OrderBook) :
    EstimateReceivingAmount M fuel s 0 [tp] [d] 0 [ob] = hopLoop M d fuel tp ob s 0 := by
  simp only [EstimateReceivingAmount, List.length_singleton, ne_eq, not_true_eq_false,
    or_self, if_false, Nat.not_lt_zero, List.zip_cons_cons, List.zip_nil_right, Nat.sub_zero,
    estimateHops]
  cases hopLoop M d fuel tp ob s 0 <;> simp [Result.bind, estimateHops]

/-- The estimate of an empty path is `0`. -/
theorem EstimateReceivingAmount_nil (M : MatchingPrimitive) (fuel s : Nat) :
    EstimateReceivingAmount M fuel s 0 [] [] 0 [] = .ok 0 := by
  simp [EstimateReceivingAmount, estimateHops]

/-- A successful `SwapToReachOrderRate` of the amount `0` buys nothing and leaves nothing
to sell. -/
theorem SwapToReachOrderRate_zero (tp tp1 : Pdexv3PoolPair) (d : Nat)
    (ord : Option Pdexv3Order) (b r : Nat) (c0 c1 : Int)
    (h : SwapToReachOrderRate tp 0 d ord = (tp1, .ok (b, r, c0, c1))) : b = 0 ∧ r = 0 := by
  cases ord with
  | none =>
    obtain ⟨hb, -⟩ := SwapToReachOrderRate_none_ok tp tp1 0 d b r c0 c1 h
    have := (BuyAmount_ok_pos tp 0 d b hb).1
    omega
  | some o =>
    obtain ⟨t, -, hc⟩ := SwapToReachOrderRate_some_ok tp tp1 0 d o _ (by decide) h
    rcases hc with ⟨hres, -⟩ | ⟨f, b1, hf, -, hfm, -⟩
    · simp only [Prod.mk.injEq] at hres
      exact ⟨hres.1, hres.2.1⟩
    · omega

/-- The loop of a hop that sells `0` buys `0`. -/
theorem hopLoop_zero (M : MatchingPrimitive) (d fuel : Nat) (tp : Pdexv3PoolPair)
    (ob : OrderBook) (v : Nat) (h : hopLoop M d fuel tp ob 0 0 = .ok v) : v = 0 := by
  cases fuel with
  | zero => simp [hopLoop] at h
  | succ fuel =>
    simp only [hopLoop] at h
    split at h
    · rename_i order id hn
      split at h
      · rename_i tp1 b temp c0 c1 hs
        obtain ⟨hb, ht⟩ := SwapToReachOrderRate_zero tp tp1 d _ b temp c0 c1 hs
        subst hb; subst ht
        simp at h
        exact h.symm
      all_goals simp at h
    · simp only [Result.ok.injEq] at h
      exact h.symm

/-- One hop over an empty book, with at least one iteration allowed, is the swap in the
pool: the amount bought by a successful swap, or the error of the swap. -/
theorem hopLoop_empty_swap (M : MatchingPrimitive) (d fuel : Nat) (tp : Pdexv3PoolPair)
    (x : Nat) (hd : d = TradeDirectionSell0 ∨ d = TradeDirectionSell1) :
    (∀ tp1 b t c0 c1, SwapToReachOrderRate tp x d none = (tp1, .ok (b, t, c0, c1)) →
      hopLoop M d (fuel + 1) tp ⟨[]⟩ x 0 = .ok b) ∧
    (∀ e, (SwapToReachOrderRate tp x d none).2 = .err e →
      hopLoop M d (fuel + 1) tp ⟨[]⟩ x 0 = .err e) := by
  constructor
  · intro tp1 b t c0 c1 hS
    obtain ⟨hb, ht⟩ := SwapToReachOrderRate_none_ok tp tp1 x d b t c0 c1 hS
    have hlt := (BuyAmount_ok_pos tp x d b hb).2.2.2
    subst ht
    simp only [hopLoop, NextOrder_empty M d hd, Option.map_none', hS]
    simp [Nat.mod_eq_of_lt hlt]
  · intro e hS
    simp only [hopLoop, NextOrder_empty M d hd, Option.map_none']
    generalize hS1 : SwapToReachOrderRate tp x d none = S at hS
    obtain ⟨tp1, res⟩ := S
    simp only at hS
    subst hS
    rfl

/-- The swap without an order does not panic in a pool with non-negative virtual
reserves. -/
theorem SwapToReachOrderRate_none_ne_crash (tp : Pdexv3PoolPair) (m d : Nat)
    (hv0 : 0 ≤ tp.Token0VirtualAmount) (hv1 : 0 ≤ tp.Token1VirtualAmount) (p : Panic) :
    (SwapToReachOrderRate tp m d none).2 ≠ .crash p := by
  have hB : BuyAmount tp m d ≠ .crash p := by
    simp only [BuyAmount, calculateBuyAmount]
    split_ifs <;> first | (simp; done) | (exfalso; omega)
  rw [SwapToReachOrderRate_none]
  split
  · simp
  · split
    · simp only [applySwap]
      split <;> simp
    · simp
    · rename_i q h
      intro heq
      simp only [Result.crash.injEq] at heq
      subst heq
      exact hB h
    · simp

/-- One hop over an empty book in a pool with non-negative virtual reserves, with at
least one iteration allowed, returns an amount or an error. -/
theorem hopLoop_empty_returns (M : MatchingPrimitive) (d fuel : Nat) (tp : Pdexv3PoolPair)
    (x : Nat) (hd : d = TradeDirectionSell0 ∨ d = TradeDirectionSell1)
    (hv0 : 0 ≤ tp.Token0VirtualAmount) (hv1 : 0 ≤ tp.Token1VirtualAmount) :
    (∃ v, hopLoop M d (fuel + 1) tp ⟨[]⟩ x 0 = .ok v) ∨
      (∃ e, hopLoop M d (fuel + 1) tp ⟨[]⟩ x 0 = .err e) := by
  have hne := SwapToReachOrderRate_none_ne_outOfFuel tp x d
  have hnc := SwapToReachOrderRate_none_ne_crash tp x d hv0 hv1
  obtain ⟨k1, k2⟩ := hopLoop_empty_swap M d fuel tp x hd
  generalize hS : SwapToReachOrderRate tp x d none = S at hne hnc k1 k2
  obtain ⟨tp1, res⟩ := S
  cases res with
  | ok v =>
    obtain ⟨b, temp, c0, c1⟩ := v
    exact Or.inl ⟨b, k1 tp1 b temp c0 c1 rfl⟩
  | err e => exact Or.inr ⟨e, k2 e rfl⟩
  | crash p => exact absurd rfl (hnc p)
  | outOfFuel => exact absurd rfl hne

end V2utils

namespace Pdex_v3

open V2utils

/-! ## `NextOrder` -/

/-- The backward scan returns the matching order of greatest position below `n`. -/
theorem nextOrderSell0_some (M : MatchingPrimitive) (l : List Pdexv3Order) (d : Nat) :
    ∀ (n i : Nat) (o : Pdexv3Order),
      nextOrderSell0 M l d n = some (i, o) ↔
        i < n ∧ l.get? i = some o ∧ canMatch M o d = true ∧
          ∀ j o1, i < j → j < n → l.get? j = some o1 → canMatch M o1 d = false := by
  intro n
  induction n with
  | zero => intro i o; simp [nextOrderSell0]
  | succ n ih =>
    intro i o
    simp only [nextOrderSell0]
    cases hg : l.get? n with
    | none =>
      simp only [ih]
      constructor
      · rintro ⟨h1, h2, h3, h4⟩
        refine ⟨by omega, h2, h3, ?_⟩
        intro j o1 hij hjn hj
        rcases Nat.lt_succ_iff_lt_or_eq.1 hjn with h | h
        · exact h4 j o1 hij h hj
        · subst h; rw [hg] at hj; cases hj
      · rintro ⟨h1, h2, h3, h4⟩
        have hne : i ≠ n := by rintro rfl; rw [hg] at h2; cases h2
        exact ⟨by omega, h2, h3, fun j o1 hij hjn hj => h4 j o1 hij (by omega) hj⟩
    | some cur =>
      simp only
      by_cases hc : canMatch M cur d = true
      · have hc' : ((M.CanMatch cur d).1 && (M.CanMatch cur d).2.isNone) = true := hc
        rw [if_pos hc']
        constructor
        · intro h
          simp only [Option.some.injEq, Prod.mk.injEq] at h
          obtain ⟨rfl, rfl⟩ := h
          exact ⟨by omega, hg, hc, fun j o1 hij hjn _ => by omega⟩
        · rintro ⟨h1, h2, h3, h4⟩
          rcases Nat.lt_succ_iff_lt_or_eq.1 h1 with h | h
          · have := h4 n cur h (by omega) hg
            rw [hc] at this; cases this
          · subst h
            rw [hg] at h2
            injection h2 with h2
            rw [h2]
      · have hc' : ¬ ((M.CanMatch cur d).1 && (M.CanMatch cur d).2.isNone) = true := hc
        rw [if_neg hc']
        simp only [ih]
        constructor
        · rintro ⟨h1, h2, h3, h4⟩
          refine ⟨by omega, h2, h3, ?_⟩
          intro j o1 hij hjn hj
          rcases Nat.lt_succ_iff_lt_or_eq.1 hjn with h | h
          · exact h4 j o1 hij h hj
          · subst h
            rw [hg] at hj
            injection hj with hj
            subst hj
            simpa using hc
        · rintro ⟨h1, h2, h3, h4⟩
          have hne : i ≠ n := by
            rintro rfl
            rw [hg] at h2
            injection h2 with h2
            subst h2
            exact hc h3
          exact ⟨by omega, h2, h3, fun j o1 hij hjn hj => h4 j o1 hij (by omega) hj⟩

/-- The backward scan returns nothing exactly when no order below `n` matches. -/
theorem nextOrderSell0_none (M : MatchingPrimitive) (l : List Pdexv3Order) (d : Nat) :
    ∀ n : Nat, nextOrderSell0 M l d n = none ↔
      ∀ j o1, j < n → l.get? j = some o1 → canMatch M o1 d = false := by
  intro n
  induction n with
  | zero => simp [nextOrderSell0]
  | succ n ih =>
    simp only [nextOrderSell0]
    cases hg : l.get? n with
    | none =>
      simp only [ih]
      constructor
      · intro h j o1 hjn hj
        rcases Nat.lt_succ_iff_lt_or_eq.1 hjn with h1 | h1
        · exact h j o1 h1 hj
        · subst h1; rw [hg] at hj; cases hj
      · intro h j o1 hjn hj
        exact h j o1 (by omega) hj
    | some cur =>
      simp only
      by_cases hc : canMatch M cur d = true
      · have hc' : ((M.CanMatch cur d).1 && (M.CanMatch cur d).2.isNone) = true := hc
        rw [if_pos hc']
        constructor
        · intro h; cases h
        · intro h
          have := h n cur (by omega) hg
          rw [hc] at this; cases this
      · have hc' : ¬ ((M.CanMatch cur d).1 && (M.CanMatch cur d).2.isNone) = true := hc
        rw [if_neg hc']
        simp only [ih]
        constructor
        · intro h j o1 hjn hj
          rcases Nat.lt_succ_iff_lt_or_eq.1 hjn with h1 | h1
          · exact h j o1 h1 hj
          · subst h1
            rw [hg] at hj
            injection hj with hj
            subst hj
            simpa using hc
        · intro h j o1 hjn hj
          exact h j o1 (by omega) hj

/-- The forward scan returns the matching order of smallest position. -/
theorem nextOrderSell1_some (M : MatchingPrimitive) (d : Nat) :
    ∀ (l : List Pdexv3Order) (k i : Nat) (o : Pdexv3Order),
      nextOrderSell1 M d l k = some (i, o) ↔
        k ≤ i ∧ l.get? (i - k) = some o ∧ canMatch M o d = true ∧
          ∀ j o1, j < i - k → l.get? j = some o1 → canMatch M o1 d = false := by
  intro l
  induction l with
  | nil => intro k i o; simp [nextOrderSell1]
  | cons cur rest ih =>
    intro k i o
    simp only [nextOrderSell1]
    by_cases hc : canMatch M cur d = true
    · have hc' : ((M.CanMatch cur d).1 && (M.CanMatch cur d).2.isNone) = true := hc
      rw [if_pos hc']
      constructor
      · intro h
        simp only [Option.some.injEq, Prod.mk.injEq] at h
        obtain ⟨rfl, rfl⟩ := h
        refine ⟨le_refl _, by simp, hc, ?_⟩
        intro j o1 hj; omega
      · rintro ⟨h1, h2, h3, h4⟩
        rcases Nat.eq_zero_or_pos (i - k) with h | h
        · rw [h] at h2
          simp only [List.get?_cons_zero, Option.some.injEq] at h2
          have : i = k := by omega
          rw [this, h2]
        · have := h4 0 cur h (by simp)
          rw [hc] at this; cases this
    · have hc' : ¬ ((M.CanMatch cur d).1 && (M.CanMatch cur d).2.isNone) = true := hc
      rw [if_neg hc']
      rw [ih]
      constructor
      · rintro ⟨h1, h2, h3, h4⟩
        have e : i - k = (i - (k + 1)) + 1 := by omega
        refine ⟨by omega, by rw [e]; simpa using h2, h3, ?_⟩
        intro j o1 hj hjo
        cases j with
        | zero =>
          simp only [List.get?_cons_zero, Option.some.injEq] at hjo
          subst hjo; simpa using hc
        | succ j =>
          simp only [List.get?_cons_succ] at hjo
          exact h4 j o1 (by omega) hjo
      · rintro ⟨h1, h2, h3, h4⟩
        have hne : i - k ≠ 0 := by
          intro h0
          rw [h0] at h2
          simp only [List.get?_cons_zero, Option.some.injEq] at h2
          subst h2
          exact hc h3
        have e : i - k = (i - (k + 1)) + 1 := by omega
        rw [e] at h2
        refine ⟨by omega, by simpa using h2, h3, ?_⟩
        intro j o1 hj hjo
        exact h4 (j + 1) o1 (by omega) (by simpa using hjo)

/-- The forward scan returns nothing exactly when no order matches. -/
theorem nextOrderSell1_none (M : MatchingPrimitive) (d : Nat) :
    ∀ (l : List Pdexv3Order) (k : Nat),
      nextOrderSell1 M d l k = none ↔ ∀ o1 ∈ l, canMatch M o1 d = false := by
  intro l
  induction l with
  | nil => intro k; simp [nextOrderSell1]
  | cons cur rest ih =>
    intro k
    simp only [nextOrderSell1]
    by_cases hc : canMatch M cur d = true
    · have hc' : ((M.CanMatch cur d).1 && (M.CanMatch cur d).2.isNone) = true := hc
      rw [if_pos hc']
      simp only [List.mem_cons, forall_eq_or_imp]
      constructor
      · intro h; cases h
      · intro h; rw [hc] at h; cases h.1
    · have hc' : ¬ ((M.CanMatch cur d).1 && (M.CanMatch cur d).2.isNone) = true := hc
      rw [if_neg hc', ih]
      simp only [List.mem_cons, forall_eq_or_imp]
      constructor
      · intro h; exact ⟨by simpa using hc, h⟩
      · intro h; exact h.2

/-- C18: for every order book and direction byte `d`, `NextOrder d` returns an error if
and only if `d` is outside `{Sell0, Sell1}`; for `Sell0` it returns the order of greatest
position for which `CanMatch` holds, for `Sell1` the one of smallest position, together
with the `Id` of that order; and it returns no order, with an empty `Id` and no error,
exactly when no order of the book can match.  It neither panics nor loops. -/
theorem NextOrder_spec (M : MatchingPrimitive) (ob : OrderBook) (d : Nat) :
    ((∃ e, ob.NextOrder M d = .err e) ↔
      (d ≠ TradeDirectionSell0 ∧ d ≠ TradeDirectionSell1)) ∧
    (∀ i o id, ob.NextOrder M TradeDirectionSell0 = .ok (some (i, o), id) ↔
      (ob.orders.get? i = some o ∧ canMatch M o TradeDirectionSell0 = true ∧
        (∀ j o1, i < j → ob.orders.get? j = some o1 →
          canMatch M o1 TradeDirectionSell0 = false) ∧ id = o.Id)) ∧
    (∀ i o id, ob.NextOrder M TradeDirectionSell1 = .ok (some (i, o), id) ↔
      (ob.orders.get? i = some o ∧ canMatch M o TradeDirectionSell1 = true ∧
        (∀ j o1, j < i → ob.orders.get? j = some o1 →
          canMatch M o1 TradeDirectionSell1 = false) ∧ id = o.Id)) ∧
    ((d = TradeDirectionSell0 ∨ d = TradeDirectionSell1) →
      ∀ id, ob.NextOrder M d = .ok (none, id) ↔
        (id = "" ∧ ∀ o ∈ ob.orders, canMatch M o d = false)) ∧
    (∀ p, ob.NextOrder M d ≠ .crash p) ∧ ob.NextOrder M d ≠ .outOfFuel := by
  refine ⟨?_, ?_, ?_, ?_, ?_, ?_⟩
  · unfold OrderBook.NextOrder
    constructor
    · rintro ⟨e, he⟩
      split at he
      · split at he <;> cases he
      · split at he
        · split at he <;> cases he
        · rename_i h0 h1; exact ⟨h0, h1⟩
    · rintro ⟨h0, h1⟩
      rw [if_neg h0, if_neg h1]
      exact ⟨_, rfl⟩
  · intro i o id
    unfold OrderBook.NextOrder
    rw [if_pos rfl]
    cases hs : nextOrderSell0 M ob.orders TradeDirectionSell0 ob.orders.length with
    | none =>
      simp only [Result.ok.injEq, Prod.mk.injEq]
      constructor
      · rintro ⟨h, -⟩; cases h
      rintro ⟨hg, hc, hall, -⟩
      exfalso
      rw [nextOrderSell0_none] at hs
      have hlt : i < ob.orders.length := by
        by_contra hn
        rw [List.get?_eq_none.2 (by omega)] at hg
        cases hg
      have := hs i o hlt hg
      rw [hc] at this; cases this
    | some v =>
      obtain ⟨i1, o1⟩ := v
      rw [nextOrderSell0_some] at hs
      obtain ⟨h1, h2, h3, h4⟩ := hs
      simp only [Result.ok.injEq, Prod.mk.injEq, Option.some.injEq]
      constructor
      · rintro ⟨⟨rfl, rfl⟩, rfl⟩
        refine ⟨h2, h3, ?_, rfl⟩
        intro j o2 hij hj
        have hlt : j < ob.orders.length := by
          by_contra hn
          rw [List.get?_eq_none.2 (by omega)] at hj
          cases hj
        exact h4 j o2 hij hlt hj
      · rintro ⟨hg, hc, hall, rfl⟩
        have hi : i1 = i := by
          rcases Nat.lt_trichotomy i1 i with h | h | h
          · have := h4 i o h (by
              by_contra hn
              rw [List.get?_eq_none.2 (by omega)] at hg
              cases hg) hg
            rw [hc] at this; cases this
          · exact h
          · have := hall i1 o1 h h2
            rw [h3] at this; cases this
        subst hi
        rw [h2] at hg
        injection hg with hg
        subst hg
        exact ⟨⟨rfl, rfl⟩, rfl⟩
  · intro i o id
    unfold OrderBook.NextOrder
    rw [if_neg (by decide), if_pos rfl]
    cases hs : nextOrderSell1 M TradeDirectionSell1 ob.orders 0 with
    | none =>
      simp only [Result.ok.injEq, Prod.mk.injEq]
      constructor
      · rintro ⟨h, -⟩; cases h
      rintro ⟨hg, hc, hall, -⟩
      exfalso
      rw [nextOrderSell1_none] at hs
      have := hs o (List.get?_mem hg)
      rw [hc] at this; cases this
    | some v =>
      obtain ⟨i1, o1⟩ := v
      rw [nextOrderSell1_some] at hs
      obtain ⟨-, h2, h3, h4⟩ := hs
      simp only [Nat.sub_zero] at h2 h4
      simp only [Result.ok.injEq, Prod.mk.injEq, Option.some.injEq]
      constructor
      · rintro ⟨⟨rfl, rfl⟩, rfl⟩
        exact ⟨h2, h3, h4, rfl⟩
      · rintro ⟨hg, hc, hall, rfl⟩
        have hi : i1 = i := by
          rcases Nat.lt_trichotomy i1 i with h | h | h
          · have := hall i1 o1 h h2
            rw [h3] at this; cases this
          · exact h
          · have := h4 i o h hg
            rw [hc] at this; cases this
        subst hi
        rw [h2] at hg
        injection hg with hg
        subst hg
        exact ⟨⟨rfl, rfl⟩, rfl⟩
  · intro hd id
    unfold OrderBook.NextOrder
    rcases hd with rfl | rfl
    · rw [if_pos rfl]
      cases hs : nextOrderSell0 M ob.orders TradeDirectionSell0 ob.orders.length with
      | none =>
        rw [nextOrderSell0_none] at hs
        simp only [Result.ok.injEq, Prod.mk.injEq, true_and]
        constructor
        · rintro rfl
          refine ⟨rfl, ?_⟩
          intro o ho
          obtain ⟨n, hn⟩ := List.get?_of_mem ho
          have hlt : n < ob.orders.length := by
            by_contra hc
            rw [List.get?_eq_none.2 (by omega)] at hn
            cases hn
          exact hs n o hlt hn
        · rintro ⟨rfl, -⟩; rfl
      | some v =>
        obtain ⟨i1, o1⟩ := v
        rw [nextOrderSell0_some] at hs
        obtain ⟨h1, h2, h3, h4⟩ := hs
        simp only [Result.ok.injEq, Prod.mk.injEq]
        constructor
        · rintro ⟨h, -⟩; cases h
        rintro ⟨-, hall⟩
        exfalso
        have := hall o1 (List.get?_mem h2)
        rw [h3] at this; cases this
    · rw [if_neg (by decide), if_pos rfl]
      cases hs : nextOrderSell1 M TradeDirectionSell1 ob.orders 0 with
      | none =>
        rw [nextOrderSell1_none] at hs
        simp only [Result.ok.injEq, Prod.mk.injEq, true_and]
        constructor
        · rintro rfl; exact ⟨rfl, hs⟩
        · rintro ⟨rfl, -⟩; rfl
      | some v =>
        obtain ⟨i1, o1⟩ := v
        rw [nextOrderSell1_some] at hs
        obtain ⟨-, h2, h3, h4⟩ := hs
        simp only [Nat.sub_zero] at h2
        simp only [Result.ok.injEq, Prod.mk.injEq]
        constructor
        · rintro ⟨h, -⟩; cases h
        rintro ⟨-, hall⟩
        exfalso
        have := hall o1 (List.get?_mem h2)
        rw [h3] at this; cases this
  · intro p
    unfold OrderBook.NextOrder
    split
    · split <;> simp
    · split
      · split <;> simp
      · simp
  · unfold OrderBook.NextOrder
    split
    · split <;> simp
    · split
      · split <;> simp
      · simp

/-- Witness of C18 on the book `[a, d, c, b]` with the balance-based matching: selling
token0 the orders `d` and `c` can match and `NextOrder` returns `c`, the one of greatest
position; selling token1 it returns `a`, the first order that can match. -/
theorem NextOrder_spec_witness :
    OrderBook.NextOrder balanceMatching ⟨[orderA, orderD, orderC, orderB]⟩ TradeDirectionSell0
        = .ok (some (2, orderC), "c") ∧
      OrderBook.NextOrder balanceMatching ⟨[orderA, orderD, orderC, orderB]⟩
        TradeDirectionSell1 = .ok (some (0, orderA), "a") :=
  ⟨((NextOrder_spec balanceMatching ⟨[orderA, orderD, orderC, orderB]⟩
      TradeDirectionSell0).2.1 2 orderC "c").2
      ⟨by decide, by decide, by
        intro j o1 hj hg
        have hj3 : j = 3 := by
          by_contra hne
          have : 4 ≤ j := by omega
          rw [List.get?_eq_none.2 (by simpa using this)] at hg
          cases hg
        subst hj3
        simp only [List.get?_cons_succ, List.get?_cons_zero, Option.some.injEq] at hg
        subst hg
        decide, rfl⟩,
    ((NextOrder_spec balanceMatching ⟨[orderA, orderD, orderC, orderB]⟩
      TradeDirectionSell1).2.2.1 0 orderA "a").2
      ⟨by decide, by decide, by intro j o1 hj; omega, rfl⟩⟩

/-! ## `InsertOrder` -/

/-- The binary search ends within the interval, next to a false value on the left and a
true value on the right. -/
theorem sortSearchLoop_ends (f : Nat → Bool) (n : Nat) :
    ∀ (fuel i j : Nat), i ≤ j → j ≤ n → j - i ≤ fuel →
      (i = 0 ∨ f (i - 1) = false) → (j = n ∨ f j = true) →
      sortSearchLoop f fuel i j ≤ n ∧
        (sortSearchLoop f fuel i j = 0 ∨ f (sortSearchLoop f fuel i j - 1) = false) ∧
        (sortSearchLoop f fuel i j = n ∨ f (sortSearchLoop f fuel i j) = true) := by
  intro fuel
  induction fuel with
  | zero =>
    intro i j hij hjn hf hi hj
    have : i = j := by omega
    subst this
    simp only [sortSearchLoop]
    exact ⟨hjn, hi, hj⟩
  | succ fuel ih =>
    intro i j hij hjn hf hi hj
    simp only [sortSearchLoop]
    by_cases hlt : i < j
    · rw [if_pos hlt]
      have h1 : i ≤ (i + j) / 2 := by omega
      have h2 : (i + j) / 2 < j := by omega
      cases hfh : f ((i + j) / 2) with
      | false =>
        simp only [Bool.not_false, if_true]
        exact ih ((i + j) / 2 + 1) j (by omega) hjn (by omega)
          (Or.inr (by simpa using hfh)) hj
      | true =>
        simp only [Bool.not_true, Bool.false_eq_true, if_false]
        exact ih i ((i + j) / 2) h1 (by omega) (by omega) hi (Or.inr hfh)
    · rw [if_neg hlt]
      have : i = j := by omega
      subst this
      exact ⟨hjn, hi, hj⟩

/-- The closure `insertAt` puts the new item between the first `i` entries and the
rest. -/
theorem insertAt_eq (lst : List Pdexv3Order) (i : Nat) (x : Pdexv3Order)
    (hi : i ≤ lst.length) : insertAt lst i x = lst.take i ++ x :: lst.drop i := by
  unfold insertAt
  by_cases h : i = lst.length
  · subst h
    simp
  · rw [if_neg h]
    have hlt : i < lst.length := by omega
    apply List.ext_getElem?
    intro k
    rw [List.getElem?_set]
    have hlen : i < (List.take (i + 1) lst ++ List.drop i lst).length := by
      simp; omega
    by_cases hk : i = k
    · subst hk
      rw [if_pos rfl, if_pos hlen]
      rw [List.getElem?_append_right (by simp)]
      simp [Nat.min_eq_left hlt.le]
    · rw [if_neg hk]
      rcases Nat.lt_or_gt_of_ne hk with h1 | h1
      · -- i < k
        rw [List.getElem?_append_right (by simp; omega),
          List.getElem?_append_right (by simp; omega)]
        simp only [List.length_take, Nat.min_eq_left (show i + 1 ≤ lst.length by omega),
          Nat.min_eq_left hlt.le]
        have e : k - i = (k - i - 1) + 1 := by omega
        rw [e, List.getElem?_cons_succ, List.getElem?_drop, List.getElem?_drop]
        congr 1
      · -- k < i
        rw [List.getElem?_append_left (by simp; omega),
          List.getElem?_append_left (by simp; omega),
          List.getElem?_take_of_lt (by omega), List.getElem?_take_of_lt h1]

/-- Inserting between two halves of a pairwise related list keeps it so, when the new
entry is related to the last entry of the first half and the first entry of the second
half and the relation is transitive on the entries. -/
theorem pairwise_insert_middle {α : Type} (R : α → α → Prop) (P : α → Prop)
    (htrans : ∀ a b c, P a → P b → P c → R a b → R b c → R a c)
    (l1 l2 : List α) (x : α) (hP : ∀ a ∈ l1 ++ x :: l2, P a)
    (hs : (l1 ++ l2).Pairwise R)
    (h1 : ∀ a, l1.getLast? = some a → R a x) (h2 : ∀ b, l2.head? = some b → R x b) :
    (l1 ++ x :: l2).Pairwise R := by
  rw [List.pairwise_append] at hs ⊢
  obtain ⟨hs1, hs2, hs12⟩ := hs
  have hPx : P x := hP x (by simp)
  have hP1 : ∀ a ∈ l1, P a := fun a ha => hP a (by simp [ha])
  have hP2 : ∀ a ∈ l2, P a := fun a ha => hP a (by simp [ha])
  have hl1 : ∀ a ∈ l1, R a x := by
    intro a ha
    rcases List.eq_nil_or_concat l1 with hnil | ⟨init, last, hl⟩
    · subst hnil; cases ha
    · subst hl
      have hlast : R last x := h1 last (by simp)
      rw [List.concat_eq_append, List.pairwise_append] at hs1
      rw [List.concat_eq_append] at ha hP1
      rcases List.mem_append.1 ha with hin | hin
      · have := hs1.2.2 a hin last (by simp)
        exact htrans a last x (hP1 a ha) (hP1 last (by simp)) hPx this hlast
      · simp only [List.mem_singleton] at hin
        subst hin; exact hlast
  have hl2 : ∀ b ∈ l2, R x b := by
    intro b hb
    cases l2 with
    | nil => cases hb
    | cons b0 tail =>
      have hhead : R x b0 := h2 b0 rfl
      rcases List.mem_cons.1 hb with hin | hin
      · subst hin; exact hhead
      · have := (List.pairwise_cons.1 hs2).1 b hin
        exact htrans x b0 b hPx (hP2 b0 (by simp)) (hP2 b hb) hhead this
  refine ⟨hs1, List.pairwise_cons.2 ⟨hl2, hs2⟩, ?_⟩
  intro a ha b hb
  rcases List.mem_cons.1 hb with hin | hin
  · subst hin; exact hl1 a ha
  · exact hs12 a ha b hin

/-- The position chosen by `InsertOrder`: the book is split in two, the closure is false
at the last entry of the first half and true at the first entry of the second. -/
theorem InsertOrder_split (ob : OrderBook) (ord : Pdexv3Order) :
    ∃ l1 l2, ob.orders = l1 ++ l2 ∧ (ob.InsertOrder ord).orders = l1 ++ ord :: l2 ∧
      (∀ a, l1.getLast? = some a → insertBefore ord a = false) ∧
      (∀ b, l2.head? = some b → insertBefore ord b = true) := by
  set f : Nat → Bool := fun i =>
    match ob.orders.get? i with
    | some cur => insertBefore ord cur
    | none => false with hf
  obtain ⟨hr, hlo, hhi⟩ := sortSearchLoop_ends f ob.orders.length ob.orders.length 0
    ob.orders.length (Nat.zero_le _) (le_refl _) (by omega) (Or.inl rfl) (Or.inl rfl)
  have hidx : (ob.InsertOrder ord).orders =
      insertAt ob.orders (sortSearchLoop f ob.orders.length 0 ob.orders.length) ord := rfl
  set r := sortSearchLoop f ob.orders.length 0 ob.orders.length with hrdef
  refine ⟨ob.orders.take r, ob.orders.drop r, (List.take_append_drop r _).symm, ?_, ?_, ?_⟩
  · rw [hidx, insertAt_eq _ _ _ hr]
  · intro a ha
    rw [List.getLast?_take] at ha
    rcases hlo with h0 | hfalse
    · rw [if_pos h0] at ha; cases ha
    · have hr0 : r ≠ 0 := by
        intro h0; rw [if_pos h0] at ha; cases ha
      rw [if_neg hr0] at ha
      have hlt : r - 1 < ob.orders.length := by omega
      have hget : ob.orders[r - 1]? = some ob.orders[r - 1] := List.getElem?_eq_getElem hlt
      rw [hget] at ha
      simp only [Option.or_some, Option.some.injEq] at ha
      subst ha
      have : f (r - 1) = insertBefore ord ob.orders[r - 1] := by
        simp only [hf, List.get?_eq_getElem?, hget]
      rw [← this]; exact hfalse
  · intro b hb
    rw [List.head?_drop] at hb
    rcases hhi with hn | htrue
    · rw [hn, List.getElem?_eq_none (le_refl _)] at hb; cases hb
    · have : f r = insertBefore ord b := by
        simp only [hf, List.get?_eq_getElem?, hb]
      rw [← this]; exact htrue

/-- Cross-multiplication compares the effective rates. -/
theorem rateLe_iff (a b : Pdexv3Order) (ha : a.Token0Rate ≠ 0) (hb : b.Token0Rate ≠ 0) :
    rateLe a b ↔ effectiveRate a ≤ effectiveRate b := by
  have ha' : (0 : ℚ) < a.Token0Rate := by exact_mod_cast Nat.pos_of_ne_zero ha
  have hb' : (0 : ℚ) < b.Token0Rate := by exact_mod_cast Nat.pos_of_ne_zero hb
  unfold effectiveRate
  rw [div_le_div_iff₀ ha' hb']
  exact_mod_cast Iff.rfl

/-- Cross-multiplication decides the equality of the effective rates. -/
theorem rateEq_iff (a b : Pdexv3Order) (ha : a.Token0Rate ≠ 0) (hb : b.Token0Rate ≠ 0) :
    rateEq a b ↔ effectiveRate a = effectiveRate b := by
  have ha' : (a.Token0Rate : ℚ) ≠ 0 := by exact_mod_cast ha
  have hb' : (b.Token0Rate : ℚ) ≠ 0 := by exact_mod_cast hb
  unfold effectiveRate
  rw [div_eq_div_iff ha' hb']
  exact_mod_cast Iff.rfl

/-- The order of the book is transitive on valid orders. -/
theorem orderBefore_trans (a b c : Pdexv3Order) (ha : ValidOrder a) (hb : ValidOrder b)
    (hc : ValidOrder c) (hab : orderBefore a b) (hbc : orderBefore b c) : orderBefore a c := by
  obtain ⟨hda, hra⟩ := ha
  obtain ⟨hdb, hrb⟩ := hb
  obtain ⟨hdc, hrc⟩ := hc
  obtain ⟨lab, tab⟩ := hab
  obtain ⟨lbc, tbc⟩ := hbc
  rw [rateLe_iff a b hra hrb] at lab
  rw [rateLe_iff b c hrb hrc] at lbc
  rw [rateEq_iff a b hra hrb] at tab
  rw [rateEq_iff b c hrb hrc] at tbc
  refine ⟨(rateLe_iff a c hra hrc).2 (le_trans lab lbc), ?_⟩
  intro hac
  rw [rateEq_iff a c hra hrc] at hac
  have e1 : effectiveRate a = effectiveRate b := le_antisymm lab (hac ▸ lbc)
  have e2 : effectiveRate b = effectiveRate c := e1 ▸ hac
  obtain ⟨t1, t2, t3⟩ := tab e1
  obtain ⟨u1, u2, u3⟩ := tbc e2
  simp only [TradeDirectionSell0, TradeDirectionSell1] at *
  refine ⟨?_, ?_, ?_⟩
  · rintro ⟨h1, h2⟩
    rcases hdb with h | h
    · exact t1 ⟨h1, h⟩
    · exact u1 ⟨h, h2⟩
  · intro h1 h2
    rcases hdb with h | h
    · exact lt_trans (t2 h1 h) (u2 h h2)
    · exact absurd ⟨h, h2⟩ u1
  · intro h1 h2
    rcases hdb with h | h
    · exact absurd ⟨h1, h⟩ t1
    · exact lt_trans (u3 h h2) (t3 h1 h)

/-- No two orders are before each other. -/
theorem orderBefore_asymm (a b : Pdexv3Order) (ha : ValidOrder a) (hb : ValidOrder b)
    (hab : orderBefore a b) (hba : orderBefore b a) : False := by
  obtain ⟨hda, -⟩ := ha
  obtain ⟨hdb, -⟩ := hb
  obtain ⟨lab, tab⟩ := hab
  obtain ⟨lba, tba⟩ := hba
  have e : rateEq a b := Nat.le_antisymm lab lba
  obtain ⟨t1, t2, t3⟩ := tab e
  obtain ⟨u1, u2, u3⟩ := tba e.symm
  simp only [TradeDirectionSell0, TradeDirectionSell1] at *
  rcases hda with h | h <;> rcases hdb with h' | h'
  · exact lt_asymm (t2 h h') (u2 h' h)
  · exact u1 ⟨h', h⟩
  · exact t1 ⟨h, h'⟩
  · exact lt_asymm (t3 h h') (u3 h' h)

/-- The closure of `InsertOrder` is true only when the new order is before the entry. -/
theorem insertBefore_true (ord cur : Pdexv3Order) (h : insertBefore ord cur = true) :
    orderBefore ord cur := by
  simp only [insertBefore] at h
  simp only [orderBefore, rateLe, rateEq, TradeDirectionSell0, TradeDirectionSell1] at *
  by_cases he : cur.Token0Rate * ord.Token1Rate = cur.Token1Rate * ord.Token0Rate
  · rw [if_pos he] at h
    have he' : ord.Token1Rate * cur.Token0Rate = cur.Token1Rate * ord.Token0Rate := by
      rw [Nat.mul_comm]; exact he
    refine ⟨he'.le, fun _ => ?_⟩
    by_cases hd : ord.TradeDirection ≠ cur.TradeDirection
    · rw [if_pos hd] at h
      have h0 : ord.TradeDirection = 0 := by simpa using h
      refine ⟨?_, ?_, ?_⟩
      · rintro ⟨h1, -⟩; omega
      · intro _ h2; exact absurd (h0.trans h2.symm) hd
      · intro h1 _; omega
    · rw [if_neg hd] at h
      have hd' : ord.TradeDirection = cur.TradeDirection := not_not.1 hd
      by_cases h0 : ord.TradeDirection = 0
      · rw [if_pos h0] at h
        refine ⟨?_, ?_, ?_⟩
        · rintro ⟨h1, -⟩; omega
        · intro _ _; simpa using h
        · intro h1 _; omega
      · rw [if_neg h0] at h
        refine ⟨?_, ?_, ?_⟩
        · rintro ⟨-, h2⟩; omega
        · intro h1 _; exact absurd h1 h0
        · intro _ _; simpa using h
  · rw [if_neg he] at h
    have hlt : cur.Token0Rate * ord.Token1Rate < cur.Token1Rate * ord.Token0Rate := by
      simpa using h
    have hlt' : ord.Token1Rate * cur.Token0Rate < cur.Token1Rate * ord.Token0Rate := by
      rw [Nat.mul_comm]; exact hlt
    exact ⟨hlt'.le, fun e => absurd e hlt'.ne⟩

/-- When the closure of `InsertOrder` is false and the identifiers differ, the entry is
before the new order. -/
theorem insertBefore_false (ord cur : Pdexv3Order) (hid : cur.Id ≠ ord.Id)
    (h : insertBefore ord cur = false) : orderBefore cur ord := by
  have hne : cur.Id.toList ≠ ord.Id.toList := by
    intro e
    apply hid
    have := congrArg String.mk e
    simpa using this
  simp only [insertBefore] at h
  simp only [orderBefore, rateLe, rateEq, TradeDirectionSell0, TradeDirectionSell1] at *
  by_cases he : cur.Token0Rate * ord.Token1Rate = cur.Token1Rate * ord.Token0Rate
  · rw [if_pos he] at h
    have he' : cur.Token1Rate * ord.Token0Rate = ord.Token1Rate * cur.Token0Rate := by
      rw [← he, Nat.mul_comm]
    refine ⟨he'.le, fun _ => ?_⟩
    by_cases hd : ord.TradeDirection ≠ cur.TradeDirection
    · rw [if_pos hd] at h
      have h0 : ¬ ord.TradeDirection = 0 := by simpa using h
      refine ⟨?_, ?_, ?_⟩
      · rintro ⟨-, h2⟩; exact h0 h2
      · intro _ h2; exact absurd h2 h0
      · intro h1 h2; exact absurd (h2.trans h1.symm) hd
    · rw [if_neg hd] at h
      have hd' : ord.TradeDirection = cur.TradeDirection := not_not.1 hd
      by_cases h0 : ord.TradeDirection = 0
      · rw [if_pos h0] at h
        have hnlt : ¬ ord.Id.toList < cur.Id.toList := by simpa using h
        refine ⟨?_, ?_, ?_⟩
        · rintro ⟨h1, -⟩; omega
        · intro _ _
          exact lt_of_le_of_ne (not_lt.1 hnlt) hne
        · intro h1 _; omega
      · rw [if_neg h0] at h
        have hnlt : ¬ cur.Id.toList < ord.Id.toList := by simpa using h
        refine ⟨?_, ?_, ?_⟩
        · rintro ⟨-, h2⟩; exact h0 h2
        · intro _ h2; exact absurd h2 h0
        · intro _ _
          exact lt_of_le_of_ne (not_lt.1 hnlt) (Ne.symm hne)
  · rw [if_neg he] at h
    have hnlt : ¬ cur.Token0Rate * ord.Token1Rate < cur.Token1Rate * ord.Token0Rate := by
      simpa using h
    have hgt : cur.Token1Rate * ord.Token0Rate < ord.Token1Rate * cur.Token0Rate := by
      rw [Nat.mul_comm ord.Token1Rate]
      exact lt_of_le_of_ne (not_lt.1 hnlt) (Ne.symm he)
    exact ⟨hgt.le, fun e => absurd e hgt.ne⟩

/-- `InsertOrder` keeps a book of valid orders sorted when the new `Id` is not in the
book. -/
theorem InsertOrder_keeps_sorted (ob : OrderBook) (ord : Pdexv3Order)
    (hs : SortedBook ob.orders) (hv : ∀ o ∈ ob.orders, ValidOrder o) (hord : ValidOrder ord)
    (hid : ∀ o ∈ ob.orders, o.Id ≠ ord.Id) : SortedBook (ob.InsertOrder ord).orders := by
  obtain ⟨l1, l2, h1, h2, hlast, hhead⟩ := InsertOrder_split ob ord
  rw [h2]
  have hmem : ∀ a ∈ l1 ++ ord :: l2, ValidOrder a := by
    intro a ha
    rcases List.mem_append.1 ha with h | h
    · exact hv a (by rw [h1]; exact List.mem_append_left _ h)
    · rcases List.mem_cons.1 h with h | h
      · subst h; exact hord
      · exact hv a (by rw [h1]; exact List.mem_append_right _ h)
  apply pairwise_insert_middle orderBefore ValidOrder orderBefore_trans l1 l2 ord hmem
  · rw [← h1]; exact hs
  · intro a ha
    have hin : a ∈ ob.orders := by
      obtain ⟨ys, hys⟩ := List.getLast?_eq_some_iff.1 ha
      rw [h1, hys]
      simp
    exact insertBefore_false ord a (hid a hin) (hlast a ha)
  · intro b hb
    exact insertBefore_true ord b (hhead b hb)

/-- C16 as stated fails when an order of the book is not valid.  The book `[c, z]`, with
the `Sell1` order `c` and the order `z` of direction byte 2, both at rate 1, is sorted;
inserting the valid `Sell1` order `d` at rate 1 appends it, and `[c, z, d]` is not sorted,
the `Id`s of the equal-rate `Sell1` orders `c`, `d` ascending.  The book `[b, n]`, with
`b` at rate 2 and the order `n` whose rates are zero, is sorted; inserting the valid order
`c` at rate 1 appends it, and `[b, n, c]` is not sorted by rate. -/
theorem InsertOrder_unsorted :
    (SortedBook [orderC, orderZ] ∧ ValidOrder orderD ∧
      (∀ o ∈ [orderC, orderZ], o.Id ≠ orderD.Id) ∧
      (OrderBook.InsertOrder ⟨[orderC, orderZ]⟩ orderD).orders = [orderC, orderZ, orderD] ∧
      ¬ SortedBook [orderC, orderZ, orderD]) ∧
    (SortedBook [orderB, orderN] ∧ ValidOrder orderC ∧
      (∀ o ∈ [orderB, orderN], o.Id ≠ orderC.Id) ∧
      (OrderBook.InsertOrder ⟨[orderB, orderN]⟩ orderC).orders = [orderB, orderN, orderC] ∧
      ¬ SortedBook [orderB, orderN, orderC]) :=
  ⟨⟨by decide, by decide, by decide, by decide, by decide⟩,
    ⟨by decide, by decide, by decide, by decide, by decide⟩⟩

/-- C16, amended: for every sorted order book and every new order, the orders of the book
and the new order having a direction in `{Sell0, Sell1}` and a non-zero `Token0Rate` and
the new `Id` differing from the `Id`s of the book, `InsertOrder` puts the new order
between two parts of the book, which keep their order, and the resulting book is again
sorted: ascending by effective rate compared by cross-multiplication, at equal rates
`Sell0` orders before `Sell1` orders, `Id`s ascending among equal-rate `Sell0` orders and
descending among equal-rate `Sell1` orders. -/
theorem InsertOrder_sorted (ob : OrderBook) (ord : Pdexv3Order)
    (hs : SortedBook ob.orders) (hv : ∀ o ∈ ob.orders, ValidOrder o) (hord : ValidOrder ord)
    (hid : ∀ o ∈ ob.orders, o.Id ≠ ord.Id) :
    (∃ l1 l2, ob.orders = l1 ++ l2 ∧ (ob.InsertOrder ord).orders = l1 ++ ord :: l2) ∧
      SortedBook (ob.InsertOrder ord).orders := by
  obtain ⟨l1, l2, h1, h2, -, -⟩ := InsertOrder_split ob ord
  exact ⟨⟨l1, l2, h1, h2⟩, InsertOrder_keeps_sorted ob ord hs hv hord hid⟩

/-- Witness of the amended C16: inserting the `Sell1` order `c` into the sorted book
`[a, d, b]` gives the sorted book `[a, d, c, b]`. -/
theorem InsertOrder_sorted_witness :
    SortedBook [orderA, orderD, orderB] ∧
      (OrderBook.InsertOrder ⟨[orderA, orderD, orderB]⟩ orderC).orders
        = [orderA, orderD, orderC, orderB] ∧
      SortedBook (OrderBook.InsertOrder ⟨[orderA, orderD, orderB]⟩ orderC).orders :=
  ⟨by decide, by decide,
    (InsertOrder_sorted ⟨[orderA, orderD, orderB]⟩ orderC (by decide) (by decide) (by decide)
      (by decide)).2⟩

/-- Inserting a list of valid orders with distinct `Id`s into a sorted book of valid orders
gives a sorted book with the old and the new orders. -/
theorem foldl_InsertOrder_sorted :
    ∀ (os : List Pdexv3Order) (acc : OrderBook), SortedBook acc.orders →
      (∀ o ∈ acc.orders ++ os, ValidOrder o) →
      ((acc.orders ++ os).map fun o => o.Id).Nodup →
      SortedBook (os.foldl OrderBook.InsertOrder acc).orders ∧
        (os.foldl OrderBook.InsertOrder acc).orders.Perm (acc.orders ++ os) := by
  intro os
  induction os with
  | nil => intro acc hs _ _; simpa using hs
  | cons o os ih =>
    intro acc hs hv hnd
    obtain ⟨l1, l2, h1, h2, -, -⟩ := InsertOrder_split acc o
    have hperm : (acc.InsertOrder o).orders.Perm (acc.orders ++ [o]) := by
      rw [h2, h1]
      exact (List.perm_middle).trans (List.perm_append_singleton o (l1 ++ l2)).symm
    have hperm2 : ((acc.InsertOrder o).orders ++ os).Perm (acc.orders ++ o :: os) := by
      have := hperm.append_right os
      simpa using this
    have hid : ∀ a ∈ acc.orders, a.Id ≠ o.Id := by
      intro a ha hEq
      rw [List.map_append, List.map_cons, List.nodup_append] at hnd
      exact hnd.2.2 (List.mem_map_of_mem _ ha) (by rw [hEq]; simp)
    have hs' := InsertOrder_keeps_sorted acc o hs
      (fun a ha => hv a (List.mem_append_left _ ha)) (hv o (by simp)) hid
    have hv' : ∀ a ∈ (acc.InsertOrder o).orders ++ os, ValidOrder a :=
      fun a ha => hv a (hperm2.subset ha)
    have hnd' : (((acc.InsertOrder o).orders ++ os).map fun o => o.Id).Nodup :=
      (hperm2.map _).nodup_iff.2 hnd
    obtain ⟨r1, r2⟩ := ih (acc.InsertOrder o) hs' hv' hnd'
    exact ⟨r1, r2.trans hperm2⟩

/-- Two sorted lists of valid orders with the same entries are equal. -/
theorem sorted_perm_unique (l1 l2 : List Pdexv3Order) (hp : l1.Perm l2)
    (h1 : SortedBook l1) (h2 : SortedBook l2) (hv : ∀ o ∈ l1, ValidOrder o) : l1 = l2 := by
  let r : Pdexv3Order → Pdexv3Order → Prop :=
    fun a b => orderBefore a b ∧ ValidOrder a ∧ ValidOrder b
  haveI : IsAntisymm Pdexv3Order r :=
    ⟨fun a b hab hba => (orderBefore_asymm a b hab.2.1 hab.2.2 hab.1 hba.1).elim⟩
  have hv2 : ∀ o ∈ l2, ValidOrder o := fun o ho => hv o (hp.symm.subset ho)
  have s1 : l1.Sorted r := by
    have : l1.Pairwise r := by
      rw [List.pairwise_iff_forall_sublist] 
      intro a b hab
      have hab' := (List.pairwise_iff_forall_sublist.1 h1) hab
      exact ⟨hab', hv a (hab.subset (by simp)), hv b (hab.subset (by simp))⟩
    exact this
  have s2 : l2.Sorted r := by
    have : l2.Pairwise r := by
      rw [List.pairwise_iff_forall_sublist] 
      intro a b hab
      have hab' := (List.pairwise_iff_forall_sublist.1 h2) hab
      exact ⟨hab', hv2 a (hab.subset (by simp)), hv2 b (hab.subset (by simp))⟩
    exact this
  exact List.eq_of_perm_of_sorted hp s1 s2

/-- C17: for every list of orders with pairwise distinct `Id`s, directions in
`{Sell0, Sell1}` and non-zero `Token0Rate`, inserting the orders into an empty book in
any two orders of insertion yields the same order sequence, hence the same `NextOrder`
result. -/
theorem insertAll_perm (os1 os2 : List Pdexv3Order) (hp : os1.Perm os2)
    (hv : ∀ o ∈ os1, ValidOrder o) (hnd : (os1.map fun o => o.Id).Nodup) :
    insertAll os1 = insertAll os2 ∧
      ∀ (M : MatchingPrimitive) (d : Nat),
        (insertAll os1).NextOrder M d = (insertAll os2).NextOrder M d := by
  have hv2 : ∀ o ∈ os2, ValidOrder o := fun o ho => hv o (hp.symm.subset ho)
  have hnd2 : (os2.map fun o => o.Id).Nodup := (hp.map _).nodup_iff.1 hnd
  obtain ⟨s1, p1⟩ := foldl_InsertOrder_sorted os1 ⟨[]⟩ List.Pairwise.nil
    (by simpa using hv) (by simpa using hnd)
  obtain ⟨s2, p2⟩ := foldl_InsertOrder_sorted os2 ⟨[]⟩ List.Pairwise.nil
    (by simpa using hv2) (by simpa using hnd2)
  simp only [List.nil_append] at p1 p2
  have hperm : (insertAll os1).orders.Perm (insertAll os2).orders :=
    p1.trans (hp.trans p2.symm)
  have heq : (insertAll os1).orders = (insertAll os2).orders :=
    sorted_perm_unique _ _ hperm s1 s2 (fun o ho => hv o (p1.subset ho))
  have hbook : insertAll os1 = insertAll os2 := by
    cases h1 : insertAll os1
    cases h2 : insertAll os2
    rw [h1, h2] at heq
    simpa using heq
  exact ⟨hbook, fun M d => by rw [hbook]⟩

/-- Witness of C17: the orders `b, d, a, c` and `c, a, d, b` give the same book
`[a, d, c, b]`. -/
theorem insertAll_perm_witness :
    insertAll [orderB, orderD, orderA, orderC] = ⟨[orderA, orderD, orderC, orderB]⟩ ∧
      insertAll [orderB, orderD, orderA, orderC] = insertAll [orderC, orderA, orderD, orderB] :=
  ⟨by decide,
    (insertAll_perm [orderB, orderD, orderA, orderC] [orderC, orderA, orderD, orderB]
      (by decide) (by decide) (by decide)).1⟩

/-! ## Rates of the orders returned by `NextOrder` -/

/-- When the closure of `InsertOrder` is false, the rate of the entry is at most the rate
of the new order. -/
theorem insertBefore_false_rate (ord cur : Pdexv3Order) (h : insertBefore ord cur = false) :
    rateLe cur ord := by
  simp only [insertBefore] at h
  simp only [rateLe]
  by_cases he : cur.Token0Rate * ord.Token1Rate = cur.Token1Rate * ord.Token0Rate
  · rw [← he, Nat.mul_comm]
  · rw [if_neg he] at h
    have hnlt : ¬ cur.Token0Rate * ord.Token1Rate < cur.Token1Rate * ord.Token0Rate := by
      simpa using h
    rw [Nat.mul_comm ord.Token1Rate]
    exact not_lt.1 hnlt

/-- The comparison of rates by cross-multiplication is transitive on non-zero
`Token0Rate`s. -/
theorem rateLe_trans (a b c : Pdexv3Order) (ha : a.Token0Rate ≠ 0) (hb : b.Token0Rate ≠ 0)
    (hc : c.Token0Rate ≠ 0) (hab : rateLe a b) (hbc : rateLe b c) : rateLe a c := by
  rw [rateLe_iff a b ha hb] at hab
  rw [rateLe_iff b c hb hc] at hbc
  exact (rateLe_iff a c ha hc).2 (le_trans hab hbc)

/-- `InsertOrder` keeps the rates of a book ascending, whatever the directions. -/
theorem InsertOrder_keeps_rateSorted (ob : OrderBook) (ord : Pdexv3Order)
    (hs : RateSorted ob.orders) (hv : ∀ o ∈ ob.orders, o.Token0Rate ≠ 0)
    (hord : ord.Token0Rate ≠ 0) :
    RateSorted (ob.InsertOrder ord).orders ∧
      ∀ o ∈ (ob.InsertOrder ord).orders, o.Token0Rate ≠ 0 := by
  obtain ⟨l1, l2, h1, h2, hlast, hhead⟩ := InsertOrder_split ob ord
  rw [h2]
  have hmem : ∀ a ∈ l1 ++ ord :: l2, a.Token0Rate ≠ 0 := by
    intro a ha
    rcases List.mem_append.1 ha with h | h
    · exact hv a (by rw [h1]; exact List.mem_append_left _ h)
    · rcases List.mem_cons.1 h with h | h
      · subst h; exact hord
      · exact hv a (by rw [h1]; exact List.mem_append_right _ h)
  refine ⟨?_, hmem⟩
  apply pairwise_insert_middle rateLe (fun o => o.Token0Rate ≠ 0) rateLe_trans l1 l2 ord hmem
  · rw [← h1]; exact hs
  · intro a ha
    exact insertBefore_false_rate ord a (hlast a ha)
  · intro b hb
    exact (insertBefore_true ord b (hhead b hb)).1

/-- A book built from any book with ascending rates by `InsertOrder` calls has ascending
rates. -/
theorem foldl_InsertOrder_rateSorted :
    ∀ (os : List Pdexv3Order) (acc : OrderBook), RateSorted acc.orders →
      (∀ o ∈ acc.orders, o.Token0Rate ≠ 0) → (∀ o ∈ os, o.Token0Rate ≠ 0) →
      RateSorted (os.foldl OrderBook.InsertOrder acc).orders ∧
        ∀ o ∈ (os.foldl OrderBook.InsertOrder acc).orders, o.Token0Rate ≠ 0 := by
  intro os
  induction os with
  | nil => intro acc hs hv _; exact ⟨hs, hv⟩
  | cons o os ih =>
    intro acc hs hv hos
    obtain ⟨h1, h2⟩ := InsertOrder_keeps_rateSorted acc o hs hv (hos o (by simp))
    exact ih (acc.InsertOrder o) h1 h2 (fun a ha => hos a (List.mem_cons_of_mem _ ha))

/-- Two entries of a pairwise related list, by position. -/
theorem pairwise_get? {α : Type} (R : α → α → Prop) (l : List α) (hl : l.Pairwise R)
    (i j : Nat) (a b : α) (hij : i < j) (ha : l.get? i = some a) (hb : l.get? j = some b) :
    R a b := by
  rw [List.get?_eq_getElem?] at ha hb
  obtain ⟨hi, rfl⟩ := List.getElem?_eq_some_iff.1 ha
  obtain ⟨hj, rfl⟩ := List.getElem?_eq_some_iff.1 hb
  exact (List.pairwise_iff_getElem.1 hl) i j hi hj hij

/-- `NextOrder` for `Sell0` in terms of the backward scan. -/
theorem NextOrder_sell0 (M : MatchingPrimitive) (ob : OrderBook) :
    ob.NextOrder M TradeDirectionSell0 =
      match nextOrderSell0 M ob.orders TradeDirectionSell0 ob.orders.length with
      | some (i, o) => .ok (some (i, o), o.Id)
      | none => .ok (none, "") := by
  unfold OrderBook.NextOrder
  rw [if_pos rfl]

/-- `NextOrder` for `Sell1` in terms of the forward scan. -/
theorem NextOrder_sell1 (M : MatchingPrimitive) (ob : OrderBook) :
    ob.NextOrder M TradeDirectionSell1 =
      match nextOrderSell1 M TradeDirectionSell1 ob.orders 0 with
      | some (i, o) => .ok (some (i, o), o.Id)
      | none => .ok (none, "") := by
  unfold OrderBook.NextOrder
  rw [if_neg (by decide), if_pos rfl]

/-- Repeated `NextOrder Sell0` calls on a book that agrees with a rate-sorted list below
`bound` and has no matching order from `bound` on: the orders come from positions below
`bound`, with non-increasing rates. -/
theorem drainOrders_sell0 (M : MatchingPrimitive) (consume : Pdexv3Order → Pdexv3Order)
    (hc : ∀ o, canMatch M (consume o) TradeDirectionSell0 = false)
    (orig : List Pdexv3Order) (hs : RateSorted orig) (hv : ∀ o ∈ orig, o.Token0Rate ≠ 0) :
    ∀ (n : Nat) (ob : OrderBook) (bound : Nat),
      (∀ k, k < bound → ob.orders.get? k = orig.get? k) →
      (∀ k o, bound ≤ k → ob.orders.get? k = some o →
        canMatch M o TradeDirectionSell0 = false) →
      (drainOrders M consume TradeDirectionSell0 n ob).Pairwise
          (fun a b => effectiveRate b ≤ effectiveRate a) ∧
        ∀ y ∈ drainOrders M consume TradeDirectionSell0 n ob,
          ∃ k, k < bound ∧ orig.get? k = some y := by
  intro n
  induction n with
  | zero => intro ob bound _ _; simp [drainOrders]
  | succ n ih =>
    intro ob bound hagree hnom
    simp only [drainOrders, NextOrder_sell0]
    cases hN : nextOrderSell0 M ob.orders TradeDirectionSell0 ob.orders.length with
    | none => simp
    | some v =>
      obtain ⟨i, o⟩ := v
      obtain ⟨hi, hg, hm, hafter⟩ := (nextOrderSell0_some M ob.orders _ _ i o).1 hN
      have hib : i < bound := by
        by_contra hge
        have := hnom i o (by omega) hg
        rw [hm] at this; cases this
      have hgo : orig.get? i = some o := by rw [← hagree i hib]; exact hg
      have hagree' : ∀ k, k < i →
          (ob.orders.set i (consume o)).get? k = orig.get? k := by
        intro k hk
        rw [List.get?_eq_getElem?, List.getElem?_set_ne (by omega), ← List.get?_eq_getElem?]
        exact hagree k (by omega)
      have hnom' : ∀ k o1, i ≤ k → (ob.orders.set i (consume o)).get? k = some o1 →
          canMatch M o1 TradeDirectionSell0 = false := by
        intro k o1 hk hk1
        rw [List.get?_eq_getElem?] at hk1
        by_cases hki : i = k
        · subst hki
          rw [List.getElem?_set_self hi] at hk1
          injection hk1 with hk1
          subst hk1
          exact hc o
        · rw [List.getElem?_set_ne hki, ← List.get?_eq_getElem?] at hk1
          have hlt : k < ob.orders.length := by
            by_contra hn
            rw [List.get?_eq_none.2 (by omega)] at hk1
            cases hk1
          exact hafter k o1 (by omega) hlt hk1
      obtain ⟨ih1, ih2⟩ := ih ⟨ob.orders.set i (consume o)⟩ i hagree' hnom'
      simp only
      refine ⟨List.pairwise_cons.2 ⟨?_, ih1⟩, ?_⟩
      · intro y hy
        obtain ⟨k, hk, hky⟩ := ih2 y hy
        have hr := pairwise_get? rateLe orig hs k i y o hk hky hgo
        exact (rateLe_iff y o (hv y (List.get?_mem hky)) (hv o (List.get?_mem hgo))).1 hr
      · intro y hy
        rcases List.mem_cons.1 hy with h | h
        · subst h; exact ⟨i, hib, hgo⟩
        · obtain ⟨k, hk, hky⟩ := ih2 y h
          exact ⟨k, by omega, hky⟩

/-- Repeated `NextOrder Sell1` calls on a book that agrees with a rate-sorted list from
`bound` on and has no matching order below `bound`: the orders come from positions from
`bound` on, with non-decreasing rates. -/
theorem drainOrders_sell1 (M : MatchingPrimitive) (consume : Pdexv3Order → Pdexv3Order)
    (hc : ∀ o, canMatch M (consume o) TradeDirectionSell1 = false)
    (orig : List Pdexv3Order) (hs : RateSorted orig) (hv : ∀ o ∈ orig, o.Token0Rate ≠ 0) :
    ∀ (n : Nat) (ob : OrderBook) (bound : Nat),
      (∀ k, bound ≤ k → ob.orders.get? k = orig.get? k) →
      (∀ k o, k < bound → ob.orders.get? k = some o →
        canMatch M o TradeDirectionSell1 = false) →
      (drainOrders M consume TradeDirectionSell1 n ob).Pairwise
          (fun a b => effectiveRate a ≤ effectiveRate b) ∧
        ∀ y ∈ drainOrders M consume TradeDirectionSell1 n ob,
          ∃ k, bound ≤ k ∧ orig.get? k = some y := by
  intro n
  induction n with
  | zero => intro ob bound _ _; simp [drainOrders]
  | succ n ih =>
    intro ob bound hagree hnom
    simp only [drainOrders, NextOrder_sell1]
    cases hN : nextOrderSell1 M TradeDirectionSell1 ob.orders 0 with
    | none => simp
    | some v =>
      obtain ⟨i, o⟩ := v
      obtain ⟨-, hg, hm, hbefore⟩ := (nextOrderSell1_some M _ ob.orders 0 i o).1 hN
      simp only [Nat.sub_zero] at hg hbefore
      have hi : i < ob.orders.length := by
        by_contra hn
        rw [List.get?_eq_none.2 (by omega)] at hg
        cases hg
      have hib : bound ≤ i := by
        by_contra hlt
        have := hnom i o (by omega) hg
        rw [hm] at this; cases this
      have hgo : orig.get? i = some o := by rw [← hagree i hib]; exact hg
      have hagree' : ∀ k, i + 1 ≤ k →
          (ob.orders.set i (consume o)).get? k = orig.get? k := by
        intro k hk
        rw [List.get?_eq_getElem?, List.getElem?_set_ne (by omega), ← List.get?_eq_getElem?]
        exact hagree k (by omega)
      have hnom' : ∀ k o1, k < i + 1 → (ob.orders.set i (consume o)).get? k = some o1 →
          canMatch M o1 TradeDirectionSell1 = false := by
        intro k o1 hk hk1
        rw [List.get?_eq_getElem?] at hk1
        by_cases hki : i = k
        · subst hki
          rw [List.getElem?_set_self hi] at hk1
          injection hk1 with hk1
          subst hk1
          exact hc o
        · rw [List.getElem?_set_ne hki, ← List.get?_eq_getElem?] at hk1
          exact hbefore k o1 (by omega) hk1
      obtain ⟨ih1, ih2⟩ := ih ⟨ob.orders.set i (consume o)⟩ (i + 1) hagree' hnom'
      simp only
      refine ⟨List.pairwise_cons.2 ⟨?_, ih1⟩, ?_⟩
      · intro y hy
        obtain ⟨k, hk, hky⟩ := ih2 y hy
        have hr := pairwise_get? rateLe orig hs i k o y (by omega) hgo hky
        exact (rateLe_iff o y (hv o (List.get?_mem hgo)) (hv y (List.get?_mem hky))).1 hr
      · intro y hy
        rcases List.mem_cons.1 hy with h | h
        · subst h; exact ⟨i, hib, hgo⟩
        · obtain ⟨k, hk, hky⟩ := ih2 y h
          exact ⟨k, by omega, hky⟩

/-- C19: for every book built from the empty book by `InsertOrder` calls with orders of
non-zero `Token0Rate`, repeated `NextOrder Sell0` calls, each returned order being
replaced by a consumed state that can no longer match before the next call, yield orders
with non-increasing effective rates `Token1Rate / Token0Rate`, and repeated
`NextOrder Sell1` calls yield non-decreasing rates; a single `NextOrder Sell0` returns a
matchable order of maximal rate among the matchable ones and `NextOrder Sell1` one of
minimal rate. -/
theorem NextOrder_rates (M : MatchingPrimitive) (consume : Pdexv3Order → Pdexv3Order)
    (os : List Pdexv3Order) (hv : ∀ o ∈ os, o.Token0Rate ≠ 0) (n : Nat) :
    ((∀ o, canMatch M (consume o) TradeDirectionSell0 = false) →
      (drainOrders M consume TradeDirectionSell0 n (insertAll os)).Pairwise
        (fun a b => effectiveRate b ≤ effectiveRate a)) ∧
    ((∀ o, canMatch M (consume o) TradeDirectionSell1 = false) →
      (drainOrders M consume TradeDirectionSell1 n (insertAll os)).Pairwise
        (fun a b => effectiveRate a ≤ effectiveRate b)) ∧
    (∀ i o id, (insertAll os).NextOrder M TradeDirectionSell0 = .ok (some (i, o), id) →
      canMatch M o TradeDirectionSell0 = true ∧
        ∀ o1 ∈ (insertAll os).orders, canMatch M o1 TradeDirectionSell0 = true →
          effectiveRate o1 ≤ effectiveRate o) ∧
    (∀ i o id, (insertAll os).NextOrder M TradeDirectionSell1 = .ok (some (i, o), id) →
      canMatch M o TradeDirectionSell1 = true ∧
        ∀ o1 ∈ (insertAll os).orders, canMatch M o1 TradeDirectionSell1 = true →
          effectiveRate o ≤ effectiveRate o1) := by
  obtain ⟨hs, hnz⟩ := foldl_InsertOrder_rateSorted os ⟨[]⟩ List.Pairwise.nil
    (by simp) hv
  have hs' : RateSorted (insertAll os).orders := hs
  have hnz' : ∀ o ∈ (insertAll os).orders, o.Token0Rate ≠ 0 := hnz
  refine ⟨?_, ?_, ?_, ?_⟩
  · intro hc
    exact (drainOrders_sell0 M consume hc (insertAll os).orders hs' hnz' n (insertAll os)
      (insertAll os).orders.length (fun _ _ => rfl) (fun k o hk hg => by
        rw [List.get?_eq_none.2 hk] at hg; cases hg)).1
  · intro hc
    exact (drainOrders_sell1 M consume hc (insertAll os).orders hs' hnz' n (insertAll os)
      0 (fun _ _ => rfl) (fun k o hk _ => by omega)).1
  · intro i o id h
    rw [NextOrder_sell0] at h
    cases hN : nextOrderSell0 M (insertAll os).orders TradeDirectionSell0
        (insertAll os).orders.length with
    | none => rw [hN] at h; simp at h
    | some v =>
      obtain ⟨i1, o1⟩ := v
      rw [hN] at h
      simp only [Result.ok.injEq, Prod.mk.injEq, Option.some.injEq] at h
      obtain ⟨⟨rfl, rfl⟩, -⟩ := h
      obtain ⟨hi, hg, hm, hafter⟩ := (nextOrderSell0_some M _ _ _ i1 o1).1 hN
      refine ⟨hm, ?_⟩
      intro o2 ho2 hm2
      obtain ⟨k, hk⟩ := List.get?_of_mem ho2
      have hklt : k < (insertAll os).orders.length := by
        by_contra hn
        rw [List.get?_eq_none.2 (by omega)] at hk
        cases hk
      rcases Nat.lt_trichotomy k i1 with h1 | h1 | h1
      · have hr := pairwise_get? rateLe _ hs' k i1 o2 o1 h1 hk hg
        exact (rateLe_iff o2 o1 (hnz' o2 ho2) (hnz' o1 (List.get?_mem hg))).1 hr
      · subst h1
        rw [hg] at hk
        injection hk with hk
        rw [hk]
      · have := hafter k o2 h1 hklt hk
        rw [hm2] at this; cases this
  · intro i o id h
    rw [NextOrder_sell1] at h
    cases hN : nextOrderSell1 M TradeDirectionSell1 (insertAll os).orders 0 with
    | none => rw [hN] at h; simp at h
    | some v =>
      obtain ⟨i1, o1⟩ := v
      rw [hN] at h
      simp only [Result.ok.injEq, Prod.mk.injEq, Option.some.injEq] at h
      obtain ⟨⟨rfl, rfl⟩, -⟩ := h
      obtain ⟨-, hg, hm, hbefore⟩ := (nextOrderSell1_some M _ _ 0 i1 o1).1 hN
      simp only [Nat.sub_zero] at hg hbefore
      refine ⟨hm, ?_⟩
      intro o2 ho2 hm2
      obtain ⟨k, hk⟩ := List.get?_of_mem ho2
      rcases Nat.lt_trichotomy k i1 with h1 | h1 | h1
      · have := hbefore k o2 h1 hk
        rw [hm2] at this; cases this
      · subst h1
        rw [hg] at hk
        injection hk with hk
        rw [hk]
      · have hr := pairwise_get? rateLe _ hs' i1 k o1 o2 h1 hg hk
        exact (rateLe_iff o1 o2 (hnz' o1 (List.get?_mem hg)) (hnz' o2 ho2)).1 hr

/-- Witness of C19 on the book built from `b, d, a, c, e` with the balance-based matching:
selling token0 the calls return `e, c, d` (rates 3, 1, 1), selling token1 they return
`a, b` (rates 1, 2). -/
theorem NextOrder_rates_witness :
    drainOrders balanceMatching emptied TradeDirectionSell0 5
        (insertAll [orderB, orderD, orderA, orderC, orderE]) = [orderE, orderC, orderD] ∧
      drainOrders balanceMatching emptied TradeDirectionSell1 5
        (insertAll [orderB, orderD, orderA, orderC, orderE]) = [orderA, orderB] ∧
      (drainOrders balanceMatching emptied TradeDirectionSell0 5
        (insertAll [orderB, orderD, orderA, orderC, orderE])).Pairwise
        (fun a b => effectiveRate b ≤ effectiveRate a) ∧
      (drainOrders balanceMatching emptied TradeDirectionSell1 5
        (insertAll [orderB, orderD, orderA, orderC, orderE])).Pairwise
        (fun a b => effectiveRate a ≤ effectiveRate b) :=
  ⟨by decide, by decide,
    (NextOrder_rates balanceMatching emptied [orderB, orderD, orderA, orderC, orderE]
      (by decide) 5).1 (by intro o; simp [canMatch, balanceMatching, emptied]),
    (NextOrder_rates balanceMatching emptied [orderB, orderD, orderA, orderC, orderE]
      (by decide) 5).2.1 (by intro o; simp [canMatch, balanceMatching, emptied])⟩

/-! ## `FindGoodTradePath` -/

/-- A search started below the root records only paths of at least two tokens. -/
theorem findPath_length (MaxPaths : Nat) (graph : Graph) (maxPathLen : Int) (dest : String) :
    ∀ (fuel : Nat) (source : String) (visited path : List String)
      (allPaths : List (List String)), path ≠ [] → (∀ p ∈ allPaths, 2 ≤ p.length) →
      ∀ p ∈ findPath MaxPaths graph maxPathLen dest fuel source visited path allPaths,
        2 ≤ p.length := by
  intro fuel
  induction fuel with
  | zero => intro source visited path allPaths _ hall; simpa [findPath] using hall
  | succ fuel ih =>
    intro source visited path allPaths hne hall
    have hlen : 2 ≤ (path ++ [source]).length := by
      cases path with
      | nil => exact absurd rfl hne
      | cons a t => simp
    simp only [findPath]
    split
    · exact hall
    split
    · intro p hp
      rcases List.mem_append.1 hp with h | h
      · exact hall p h
      · simp only [List.mem_singleton] at h
        subst h; exact hlen
    split
    · split
      · rename_i nodes _
        have key : ∀ (ns : List Node) (acc : List (List String)),
            (∀ p ∈ acc, 2 ≤ p.length) →
            ∀ p ∈ ns.foldl (fun acc node =>
              if node.TokenIDStr ∈ source :: visited then acc
              else findPath MaxPaths graph maxPathLen dest fuel node.TokenIDStr
                (source :: visited) (path ++ [source]) acc) acc, 2 ≤ p.length := by
          intro ns
          induction ns with
          | nil => intro acc hacc; simpa using hacc
          | cons n ns ihn =>
            intro acc hacc
            simp only [List.foldl_cons]
            apply ihn
            split
            · exact hacc
            · exact ih n.TokenIDStr (source :: visited) (path ++ [source]) acc
                (by simp) hacc
        exact key nodes allPaths hall
      · exact hall
    · exact hall

/-- Between two different tokens every candidate path has at least two tokens. -/
theorem findPaths_length (MaxPaths maxPathLen : Nat) (simplePools : List SimplePoolNodeData)
    (source dest : String) (hsd : source ≠ dest) :
    ∀ p ∈ findPaths MaxPaths maxPathLen simplePools source dest, 2 ≤ p.length := by
  unfold findPaths
  simp only [findPath]
  split
  · simp
  split
  · split
    · rename_i nodes _
      have key : ∀ (ns : List Node) (acc : List (List String)),
          (∀ p ∈ acc, 2 ≤ p.length) →
          ∀ p ∈ ns.foldl (fun acc node =>
            if node.TokenIDStr ∈ [source] then acc
            else findPath MaxPaths (buildGraph simplePools) (intOfUint maxPathLen) dest
              (intOfUint maxPathLen).toNat node.TokenIDStr [source] ([] ++ [source]) acc) acc,
            2 ≤ p.length := by
        intro ns
        induction ns with
        | nil => intro acc hacc; simpa using hacc
        | cons n ns ihn =>
          intro acc hacc
          simp only [List.foldl_cons]
          apply ihn
          split
          · exact hacc
          · exact findPath_length MaxPaths _ _ dest _ n.TokenIDStr [source] ([] ++ [source])
              acc (by simp) hacc
      exact key nodes [] (by simp)
    · simp
  · simp

/-- From a token to itself the only candidate path is the token alone. -/
theorem findPaths_self (MaxPaths maxPathLen : Nat) (simplePools : List SimplePoolNodeData)
    (source : String) :
    findPaths MaxPaths maxPathLen simplePools source source =
      if 0 = MaxPaths then [] else [[source]] := by
  unfold findPaths
  simp only [findPath, List.length_nil, if_true]
  by_cases h : 0 = MaxPaths <;> simp [h]

/-- The walk of a path adds one pool per hop. -/
theorem walkPath_length (M : MatchingPrimitive) (fuel : Nat) (states : PoolPairStates) :
    ∀ (path : List String) (sellAmt : Nat) (pools : List (Option Pdexv3PoolPair))
      (ids : List String) (w : List (Option Pdexv3PoolPair) × List String × Nat),
      walkPath M fuel states path sellAmt pools ids = .ok w →
        w.1.length = pools.length + (path.length - 1) := by
  intro path
  induction path with
  | nil => intro s pools ids w h; simp only [walkPath] at h; injection h with h; subst h; simp
  | cons a t ih =>
    intro s pools ids w h
    cases t with
    | nil => simp only [walkPath] at h; injection h with h; subst h; simp
    | cons b rest =>
      simp only [walkPath] at h
      cases hc : chooseBestPoolFromAPair M fuel states a b s with
      | ok r =>
        rw [hc] at h
        simp only [Result.bind] at h
        have := ih r.2.2 (pools ++ [r.1]) (ids ++ [r.2.1]) w h
        rw [this]
        simp
        omega
      | err e => rw [hc] at h; simp [Result.bind] at h
      | crash p => rw [hc] at h; simp [Result.bind] at h
      | outOfFuel => rw [hc] at h; simp [Result.bind] at h

/-- Once an iteration of the selection has failed, the selection fails. -/
theorem selectStep_fail (M : MatchingPrimitive) (fuel : Nat) (states : PoolPairStates)
    (sellAmt : Nat) :
    ∀ (ps : List (List String))
      (r : Result (List (Option Pdexv3PoolPair) × List String × Nat)),
      (∀ v, r ≠ .ok v) → ∀ v, ps.foldl (selectStep M fuel states sellAmt) r ≠ .ok v := by
  intro ps
  induction ps with
  | nil => intro r hr v; simpa using hr v
  | cons q qs ih =>
    intro r hr v
    simp only [List.foldl_cons]
    apply ih
    intro v2
    cases r with
    | ok x => exact absurd rfl (hr x)
    | err e => simp [selectStep, Result.bind]
    | crash p => simp [selectStep, Result.bind]
    | outOfFuel => simp [selectStep, Result.bind]

/-- A successful selection walked every candidate path and kept the better walk at each
step. -/
theorem selectPath_ok (M : MatchingPrimitive) (fuel : Nat) (states : PoolPairStates)
    (sellAmt : Nat) :
    ∀ (allPaths : List (List String))
      (c0 c : List (Option Pdexv3PoolPair) × List String × Nat),
      allPaths.foldl (selectStep M fuel states sellAmt) (.ok c0) = .ok c →
      ∃ ws, List.Forall₂ (fun p w => walkPath M fuel states p sellAmt [] [] = .ok w)
          allPaths ws ∧ c = ws.foldl keepBetter c0 := by
  intro allPaths
  induction allPaths with
  | nil =>
    intro c0 c h
    simp only [List.foldl_nil, Result.ok.injEq] at h
    exact ⟨[], List.Forall₂.nil, h.symm⟩
  | cons p ps ih =>
    intro c0 c h
    simp only [List.foldl_cons] at h
    cases hw : walkPath M fuel states p sellAmt [] [] with
    | ok w =>
      have e : selectStep M fuel states sellAmt (.ok c0) p = .ok (keepBetter c0 w) := by
        simp [selectStep, Result.bind, hw]
      rw [e] at h
      obtain ⟨ws, hws, hc⟩ := ih (keepBetter c0 w) c h
      exact ⟨w :: ws, List.Forall₂.cons hw hws, by simpa using hc⟩
    | err e =>
      exact absurd h (selectStep_fail M fuel states sellAmt ps _
        (by simp [selectStep, Result.bind, hw]) c)
    | crash q =>
      exact absurd h (selectStep_fail M fuel states sellAmt ps _
        (by simp [selectStep, Result.bind, hw]) c)
    | outOfFuel =>
      exact absurd h (selectStep_fail M fuel states sellAmt ps _
        (by simp [selectStep, Result.bind, hw]) c)

/-- Keeping the better of walks with at least one hop: the amount kept is the largest,
and the choice changes only to the first walk that reaches it. -/
theorem foldl_keepBetter
    (ws : List (List (Option Pdexv3PoolPair) × List String × Nat))
    (hne : ∀ w ∈ ws, w.1.length ≠ 0) :
    ∀ c : List (Option Pdexv3PoolPair) × List String × Nat,
      c.2.2 ≤ (ws.foldl keepBetter c).2.2 ∧
      (∀ w ∈ ws, w.2.2 ≤ (ws.foldl keepBetter c).2.2) ∧
      ((ws.foldl keepBetter c = c) ∨
        ∃ l1 w l2, ws = l1 ++ w :: l2 ∧ ws.foldl keepBetter c = w ∧ c.2.2 < w.2.2 ∧
          ∀ v ∈ l1, v.2.2 < w.2.2) := by
  induction ws with
  | nil => intro c; simp
  | cons w ws ih =>
    intro c
    have hw : w.1.length ≠ 0 := hne w (by simp)
    obtain ⟨i1, i2, i3⟩ := ih (fun v hv => hne v (List.mem_cons_of_mem _ hv)) (keepBetter c w)
    simp only [List.foldl_cons]
    by_cases hgt : w.2.2 > c.2.2
    · have hk : keepBetter c w = w := by simp [keepBetter, hgt]
      rw [hk] at i1 i2 i3 ⊢
      refine ⟨by omega, ?_, ?_⟩
      · intro v hv
        rcases List.mem_cons.1 hv with h | h
        · subst h; exact i1
        · exact i2 v h
      · right
        rcases i3 with h | ⟨l1, w1, l2, e1, e2, e3, e4⟩
        · exact ⟨[], w, ws, rfl, h, hgt, by simp⟩
        · refine ⟨w :: l1, w1, l2, by rw [e1]; rfl, e2, by omega, ?_⟩
          intro v hv
          rcases List.mem_cons.1 hv with h | h
          · subst h; exact e3
          · exact e4 v h
    · have hk : keepBetter c w = c := by simp [keepBetter, hgt, hw]
      rw [hk] at i1 i2 i3 ⊢
      refine ⟨i1, ?_, ?_⟩
      · intro v hv
        rcases List.mem_cons.1 hv with h | h
        · subst h; omega
        · exact i2 v h
      · rcases i3 with h | ⟨l1, w1, l2, e1, e2, e3, e4⟩
        · exact Or.inl h
        · right
          refine ⟨w :: l1, w1, l2, by rw [e1]; rfl, e2, e3, ?_⟩
          intro v hv
          rcases List.mem_cons.1 hv with h | h
          · subst h; omega
          · exact e4 v h

/-- Every entry on the right of two related lists is related to an entry on the left. -/
theorem forall₂_mem_right {α β : Type} (R : α → β → Prop) :
    ∀ (l1 : List α) (l2 : List β), List.Forall₂ R l1 l2 → ∀ b ∈ l2, ∃ a ∈ l1, R a b := by
  intro l1 l2 h
  induction h with
  | nil => intro b hb; cases hb
  | cons hab _ ih =>
    intro b hb
    rcases List.mem_cons.1 hb with h | h
    · subst h; exact ⟨_, List.mem_cons_self _ _, hab⟩
    · obtain ⟨a, ha, hr⟩ := ih b h
      exact ⟨a, List.mem_cons_of_mem _ ha, hr⟩

/-- C20 as stated fails when the largest output is `0`: for the sample snapshot and a sell
amount of 1 from `X` to `Y`, the only candidate path is `[X, Y]`, its walk yields the
pools `[nil]`, the identifiers `[""]` and the amount `0`, and `FindGoodTradePath`
returns no pools and no identifiers. -/
theorem FindGoodTradePath_zero :
    simplePoolsOf 10000 sampleStates
        = .ok [⟨"X", "Y", 1000000, 1000000⟩, ⟨"Y", "Z", 1000000, 2000000⟩] ∧
      findPaths 20 ((3 + 1) % uint64Bound)
        [⟨"X", "Y", 1000000, 1000000⟩, ⟨"Y", "Z", 1000000, 2000000⟩] "X" "Y"
        = [["X", "Y"]] ∧
      walkPath noMatching 1 sampleStates ["X", "Y"] 1 [] [] = .ok ([none], [""], 0) ∧
      FindGoodTradePath noMatching 1 20 10000 3 sampleStates "X" "Y" 1 = .ok ([], [], 0) := by
  decide

/-- C20, amended: whenever `FindGoodTradePath` returns, every candidate path of
`findPaths` has been walked hop by hop with `chooseBestPoolFromAPair`, and the amount
returned is the maximum of the end-to-end outputs of these walks (`0` when there is no
candidate).  Between two different tokens, when this maximum is positive the pools and
identifiers returned are those of the first candidate path that attains it, and when it
is `0` no pools and no identifiers are returned; from a token to itself no pools and no
identifiers are returned and the amount is the amount sold. -/
theorem FindGoodTradePath_max (M : MatchingPrimitive) (fuel MaxPaths BaseAmplifier : Nat)
    (maxPathLen : Nat) (states : PoolPairStates) (source dest : String) (sellAmt : Nat)
    (pools : List (Option Pdexv3PoolPair)) (ids : List String) (r : Nat)
    (h : FindGoodTradePath M fuel MaxPaths BaseAmplifier maxPathLen states source dest sellAmt
      = .ok (pools, ids, r)) :
    ∃ simplePools ws, simplePoolsOf BaseAmplifier states = .ok simplePools ∧
      List.Forall₂ (fun p w => walkPath M fuel states p sellAmt [] [] = .ok w)
        (findPaths MaxPaths ((maxPathLen + 1) % uint64Bound) simplePools source dest) ws ∧
      (∀ w ∈ ws, w.2.2 ≤ r) ∧
      (ws ≠ [] → ∃ w ∈ ws, w.2.2 = r) ∧
      (ws = [] → r = 0 ∧ pools = [] ∧ ids = []) ∧
      (source ≠ dest → 0 < r →
        ∃ l1 l2, ws = l1 ++ (pools, ids, r) :: l2 ∧ ∀ v ∈ l1, v.2.2 < r) ∧
      (source ≠ dest → r = 0 → pools = [] ∧ ids = []) ∧
      (source = dest → pools = [] ∧ ids = [] ∧ (ws ≠ [] → r = sellAmt)) := by
  unfold FindGoodTradePath at h
  cases hsp : simplePoolsOf BaseAmplifier states with
  | err e => rw [hsp] at h; simp [Result.bind] at h
  | crash p => rw [hsp] at h; simp [Result.bind] at h
  | outOfFuel => rw [hsp] at h; simp [Result.bind] at h
  | ok simplePools =>
    rw [hsp] at h
    simp only [Result.bind] at h
    by_cases hlen :
        (findPaths MaxPaths ((maxPathLen + 1) % uint64Bound) simplePools source dest).length = 0
    · rw [if_pos hlen] at h
      simp only [Result.ok.injEq, Prod.mk.injEq] at h
      obtain ⟨rfl, rfl, rfl⟩ := h
      have hnil := List.length_eq_zero.1 hlen
      refine ⟨simplePools, [], rfl, by rw [hnil]; exact List.Forall₂.nil, ?_⟩
      simp
    · rw [if_neg hlen] at h
      obtain ⟨ws, hws, hc⟩ := selectPath_ok M fuel states sellAmt _ _ _ h
      refine ⟨simplePools, ws, rfl, hws, ?_⟩
      have hwsne : ws ≠ [] := by
        intro hnil
        have hl := hws.length_eq
        rw [hnil] at hl
        exact hlen (by simpa using hl)
      by_cases hsd : source = dest
      · subst hsd
        rw [findPaths_self] at hws hlen
        by_cases hM : 0 = MaxPaths
        · rw [if_pos hM] at hlen; exact absurd rfl hlen
        · rw [if_neg hM] at hws
          cases hws with
          | cons hw hrest =>
            cases hrest
            simp only [walkPath, Result.ok.injEq] at hw
            subst hw
            simp only [List.foldl_cons, List.foldl_nil, keepBetter, List.length_nil,
              true_or, if_true, Prod.mk.injEq] at hc
            obtain ⟨rfl, rfl, rfl⟩ := hc
            simp
      · have hne : ∀ w ∈ ws, w.1.length ≠ 0 := by
          intro w hw
          obtain ⟨p, hp, hpw⟩ := forall₂_mem_right _ _ _ hws w hw
          have h2 := findPaths_length MaxPaths _ simplePools source dest hsd p hp
          have := walkPath_length M fuel states p sellAmt [] [] w hpw
          rw [this]
          simp only [List.length_nil]
          omega
        obtain ⟨k1, k2, k3⟩ := foldl_keepBetter ws hne ([], [], 0)
        rw [← hc] at k1 k2 k3
        simp only at k1 k2 k3
        refine ⟨k2, ?_, fun hn => absurd hn hwsne, ?_, ?_, fun he => absurd he hsd⟩
        · intro _
          rcases k3 with hk | ⟨l1, w, l2, e1, e2, -, -⟩
          · obtain ⟨w, hw⟩ := List.exists_mem_of_ne_nil ws hwsne
            have hr0 : r = 0 := by
              have := congrArg (fun c => c.2.2) hk
              simpa using this
            exact ⟨w, hw, by have := k2 w hw; omega⟩
          · exact ⟨w, by rw [e1]; simp, by rw [← e2]⟩
        · intro _ hpos
          rcases k3 with hk | ⟨l1, w, l2, e1, e2, -, e4⟩
          · have hr0 : r = 0 := by
              have := congrArg (fun c => c.2.2) hk
              simpa using this
            omega
          · subst e2
            exact ⟨l1, l2, e1, e4⟩
        · intro _ hr0
          rcases k3 with hk | ⟨l1, w, l2, e1, e2, e3, -⟩
          · simp only [Prod.mk.injEq] at hk
            exact ⟨hk.1, hk.2.1⟩
          · subst e2
            simp only at e3
            omega

/-- Witness of the amended C20 on the sample snapshot: selling 1000 of `X` for `Z` with
at most 3 hops returns the pools `p1, p2` and the amount 1996. -/
theorem FindGoodTradePath_max_witness :
    FindGoodTradePath noMatching 1 20 10000 3 sampleStates "X" "Z" 1000
        = .ok ([some poolXY, some poolYZ], ["p1", "p2"], 1996) ∧
      ∃ simplePools ws, simplePoolsOf 10000 sampleStates = .ok simplePools ∧
        List.Forall₂ (fun p w => walkPath noMatching 1 sampleStates p 1000 [] [] = .ok w)
          (findPaths 20 ((3 + 1) % uint64Bound) simplePools "X" "Z") ws ∧
        (∀ w ∈ ws, w.2.2 ≤ 1996) ∧
        (ws ≠ [] → ∃ w ∈ ws, w.2.2 = 1996) ∧
        (ws = [] → 1996 = 0 ∧ [some poolXY, some poolYZ] = [] ∧ ["p1", "p2"] = []) ∧
        ("X" ≠ "Z" → 0 < 1996 →
          ∃ l1 l2, ws = l1 ++ ([some poolXY, some poolYZ], ["p1", "p2"], 1996) :: l2 ∧
            ∀ v ∈ l1, v.2.2 < 1996) ∧
        ("X" ≠ "Z" → 1996 = 0 → [some poolXY, some poolYZ] = [] ∧ ["p1", "p2"] = []) ∧
        ("X" = "Z" → [some poolXY, some poolYZ] = [] ∧ ["p1", "p2"] = [] ∧
          (ws ≠ [] → 1996 = 1000)) :=
  ⟨by decide,
    FindGoodTradePath_max noMatching 1 20 10000 3 sampleStates "X" "Z" 1000
      [some poolXY, some poolYZ] ["p1", "p2"] 1996 (by decide)⟩

/-! ## `findPaths` -/

/-- A node of the adjacency list of `a` is joined to `a` by an edge. -/
theorem hasEdge_of_mem (graph : Graph) (a : String) (nodes : List Node) (n : Node)
    (hl : graph.lookup a = some nodes) (hn : n ∈ nodes) : hasEdge graph a n.TokenIDStr = true := by
  simp only [hasEdge, hl, List.any_eq_true, decide_eq_true_eq]
  exact ⟨n, hn, rfl⟩

/-- The search only records routes: started on a partial route whose tokens are marked
as visited, it adds to the recorded routes only routes. -/
theorem findPath_sound (MaxPaths : Nat) (graph : Graph) (maxLen : Int) (dest src0 : String) :
    ∀ (fuel : Nat) (source : String) (visited path : List String)
      (allPaths : List (List String)),
      (path ++ [source]).head? = some src0 → (path ++ [source]).Nodup →
      (path ++ [source]).Chain' (fun a b => hasEdge graph a b = true) →
      ((path ++ [source]).length : Int) ≤ max 1 maxLen →
      (∀ x ∈ path, x ∈ visited) →
      (∀ p ∈ allPaths, IsRoute graph maxLen src0 dest p) →
      ∀ p ∈ findPath MaxPaths graph maxLen dest fuel source visited path allPaths,
        IsRoute graph maxLen src0 dest p := by
  intro fuel
  induction fuel with
  | zero => intro source visited path allPaths _ _ _ _ _ hall; simpa [findPath] using hall
  | succ fuel ih =>
    intro source visited path allPaths hhead hnd hch hlen hvis hall
    simp only [findPath]
    split
    · exact hall
    split
    · rename_i hsd
      intro p hp
      rcases List.mem_append.1 hp with h | h
      · exact hall p h
      · simp only [List.mem_singleton] at h
        subst h
        exact ⟨hhead, by simp [hsd], hnd, hch, hlen⟩
    split
    · rename_i hlt
      split
      · rename_i nodes hl
        have key : ∀ (ns : List Node) (acc : List (List String)),
            (∀ n ∈ ns, n ∈ nodes) →
            (∀ p ∈ acc, IsRoute graph maxLen src0 dest p) →
            ∀ p ∈ ns.foldl (fun acc node =>
              if node.TokenIDStr ∈ source :: visited then acc
              else findPath MaxPaths graph maxLen dest fuel node.TokenIDStr
                (source :: visited) (path ++ [source]) acc) acc,
              IsRoute graph maxLen src0 dest p := by
          intro ns
          induction ns with
          | nil => intro acc _ hacc; simpa using hacc
          | cons n ns ihn =>
            intro acc hns hacc
            simp only [List.foldl_cons]
            apply ihn _ (fun m hm => hns m (List.mem_cons_of_mem _ hm))
            split
            · exact hacc
            · rename_i hnv
              have hnp : n.TokenIDStr ∉ path ++ [source] := by
                intro hmem
                apply hnv
                rcases List.mem_append.1 hmem with h | h
                · exact List.mem_cons_of_mem _ (hvis _ h)
                · simp only [List.mem_singleton] at h
                  rw [h]; exact List.mem_cons_self _ _
              apply ih n.TokenIDStr (source :: visited) (path ++ [source]) acc
              · rw [List.head?_append_of_ne_nil _ (by simp)]
                exact hhead
              · rw [List.nodup_append]
                refine ⟨hnd, List.nodup_singleton _, ?_⟩
                intro x hx hx2
                simp only [List.mem_singleton] at hx2
                subst hx2
                exact hnp hx
              · apply List.Chain'.append hch (List.chain'_singleton _)
                intro x hx y hy
                have hx1 : x = source := by simpa using hx.symm
                have hy1 : y = n.TokenIDStr := by simpa using hy.symm
                subst hx1; subst hy1
                exact hasEdge_of_mem graph _ nodes n hl (hns n (List.mem_cons_self _ _))
              · have : ((path ++ [source] ++ [n.TokenIDStr]).length : Int)
                    = ((path ++ [source]).length : Int) + 1 := by
                  simp only [List.length_append, List.length_singleton]
                  push_cast
                  ring
                rw [this]
                have := le_max_right 1 maxLen
                omega
              · intro x hx
                rcases List.mem_append.1 hx with h | h
                · exact List.mem_cons_of_mem _ (hvis _ h)
                · simp only [List.mem_singleton] at h
                  rw [h]; exact List.mem_cons_self _ _
              · exact hacc
        exact key nodes allPaths (fun _ h => h) hall
      · exact hall
    · exact hall

/-- The search never records more than `MaxPaths` paths. -/
theorem findPath_count (MaxPaths : Nat) (graph : Graph) (maxLen : Int) (dest : String) :
    ∀ (fuel : Nat) (source : String) (visited path : List String)
      (allPaths : List (List String)), allPaths.length ≤ MaxPaths →
      (findPath MaxPaths graph maxLen dest fuel source visited path allPaths).length
        ≤ MaxPaths := by
  intro fuel
  induction fuel with
  | zero => intro source visited path allPaths h; simpa [findPath] using h
  | succ fuel ih =>
    intro source visited path allPaths h
    simp only [findPath]
    split
    · exact h
    split
    · rename_i hne _
      simp only [List.length_append, List.length_singleton]
      omega
    split
    · split
      · rename_i nodes _
        have key : ∀ (ns : List Node) (acc : List (List String)), acc.length ≤ MaxPaths →
            (ns.foldl (fun acc node =>
              if node.TokenIDStr ∈ source :: visited then acc
              else findPath MaxPaths graph maxLen dest fuel node.TokenIDStr
                (source :: visited) (path ++ [source]) acc) acc).length ≤ MaxPaths := by
          intro ns
          induction ns with
          | nil => intro acc hacc; simpa using hacc
          | cons n ns ihn =>
            intro acc hacc
            simp only [List.foldl_cons]
            apply ihn
            split
            · exact hacc
            · exact ih _ _ _ _ hacc
        exact key nodes allPaths h
      · exact h
    · exact h

/-- The search keeps the paths recorded before it: its result is these paths followed by
the paths it has found. -/
theorem findPath_extends (MaxPaths : Nat) (graph : Graph) (maxLen : Int) (dest : String) :
    ∀ (fuel : Nat) (source : String) (visited path : List String)
      (allPaths : List (List String)),
      ∃ found, findPath MaxPaths graph maxLen dest fuel source visited path allPaths
        = allPaths ++ found := by
  intro fuel
  induction fuel with
  | zero => intro source visited path allPaths; exact ⟨[], by simp [findPath]⟩
  | succ fuel ih =>
    intro source visited path allPaths
    simp only [findPath]
    split
    · exact ⟨[], by simp⟩
    split
    · exact ⟨_, rfl⟩
    split
    · split
      · rename_i nodes _
        have key : ∀ (ns : List Node) (acc : List (List String)),
            ∃ found, ns.foldl (fun acc node =>
              if node.TokenIDStr ∈ source :: visited then acc
              else findPath MaxPaths graph maxLen dest fuel node.TokenIDStr
                (source :: visited) (path ++ [source]) acc) acc = acc ++ found := by
          intro ns
          induction ns with
          | nil => intro acc; exact ⟨[], by simp⟩
          | cons n ns ihn =>
            intro acc
            simp only [List.foldl_cons]
            split
            · exact ihn acc
            · obtain ⟨f1, h1⟩ := ih n.TokenIDStr (source :: visited) (path ++ [source]) acc
              rw [h1]
              obtain ⟨f2, h2⟩ := ihn (acc ++ f1)
              exact ⟨f1 ++ f2, by rw [h2, List.append_assoc]⟩
        exact key nodes allPaths
      · exact ⟨[], by simp⟩
    · exact ⟨[], by simp⟩

/-- The depth of the recursion is bounded by `maxPathLen`: two budgets that both cover
the tokens still allowed on the path give the same result. -/
theorem findPath_fuel (MaxPaths : Nat) (graph : Graph) (maxLen : Int) (dest : String) :
    ∀ (fuel1 fuel2 : Nat) (source : String) (visited path : List String)
      (allPaths : List (List String)),
      1 ≤ fuel1 → maxLen ≤ (path.length : Int) + fuel1 →
      1 ≤ fuel2 → maxLen ≤ (path.length : Int) + fuel2 →
      findPath MaxPaths graph maxLen dest fuel1 source visited path allPaths =
        findPath MaxPaths graph maxLen dest fuel2 source visited path allPaths := by
  intro fuel1
  induction fuel1 with
  | zero => intro fuel2 source visited path allPaths h; omega
  | succ fuel1 ih =>
    intro fuel2 source visited path allPaths _ h1 h2 h3
    cases fuel2 with
    | zero => omega
    | succ fuel2 =>
      simp only [findPath]
      split
      · rfl
      split
      · rfl
      split
      · rename_i hlt
        simp only [List.length_append, List.length_singleton, Nat.cast_add, Nat.cast_one] at hlt
        split
        · rename_i nodes _
          congr 1
          funext acc node
          split
          · rfl
          · apply ih
            · omega
            · simp only [List.length_append, List.length_singleton]; push_cast; omega
            · omega
            · simp only [List.length_append, List.length_singleton]; push_cast; omega
        · rfl
      · rfl

/-- Every path returned by `findPaths` has at most `maxPathLen` tokens, or one. -/
theorem findPaths_length_le (MaxPaths n : Nat) (simplePools : List SimplePoolNodeData)
    (source dest : String) :
    ∀ p ∈ findPaths MaxPaths n simplePools source dest, p.length ≤ max 1 (n % uint64Bound) := by
  intro p hp
  have h := findPath_sound MaxPaths (buildGraph simplePools) (intOfUint n) dest
    source _ source [] [] [] (by simp) (by simp) (by simp)
    (by simp) (by simp) (by simp) p hp
  obtain ⟨-, -, -, -, h5⟩ := h
  have hb : intOfUint n ≤ ((n % uint64Bound : Nat) : Int) := by
    unfold intOfUint
    split <;> omega
  have : (p.length : Int) ≤ max 1 ((n % uint64Bound : Nat) : Int) :=
    le_trans h5 (max_le_max (le_refl _) hb)
  have h6 : ((max 1 (n % uint64Bound) : Nat) : Int)
      = max 1 ((n % uint64Bound : Nat) : Int) := by
    push_cast; rfl
  rw [← h6] at this
  exact_mod_cast this

/-- C24 as stated fails for `maxLen = 0` when the source is the destination: the path
`[X]` of one token is returned, more than `maxLen` tokens. -/
theorem findPaths_exceeds_maxLen :
    findPaths 20 0 [] "X" "X" = [["X"]] ∧ ¬ ((["X"] : List String).length ≤ 0) := by
  decide

/-- C24, amended: every path returned by `findPaths` starts with the source, ends with
the destination, has no token twice, has every two consecutive tokens joined by an edge of
the built graph, and has at most `maxLen` tokens, or one token when `maxLen = 0`; the
number of returned paths is at most `MaxPaths`; and the recursion never goes deeper than
`maxLen` calls, so a larger depth budget gives the same paths. -/
theorem findPaths_sound (MaxPaths maxPathLen : Nat) (simplePools : List SimplePoolNodeData)
    (source dest : String) :
    (∀ p ∈ findPaths MaxPaths maxPathLen simplePools source dest,
      p.head? = some source ∧ p.getLast? = some dest ∧ p.Nodup ∧
        p.Chain' (fun a b => hasEdge (buildGraph simplePools) a b = true) ∧
        p.length ≤ max 1 (maxPathLen % uint64Bound)) ∧
    (findPaths MaxPaths maxPathLen simplePools source dest).length ≤ MaxPaths ∧
    (∀ extra, findPath MaxPaths (buildGraph simplePools) (intOfUint maxPathLen) dest
        ((intOfUint maxPathLen).toNat + 1 + extra) source [] [] []
      = findPaths MaxPaths maxPathLen simplePools source dest) := by
  refine ⟨?_, ?_, ?_⟩
  · intro p hp
    obtain ⟨h1, h2, h3, h4, -⟩ := findPath_sound MaxPaths (buildGraph simplePools)
      (intOfUint maxPathLen) dest source _ source [] [] [] (by simp) (by simp) (by simp)
      (by simp) (by simp) (by simp) p hp
    exact ⟨h1, h2, h3, h4, findPaths_length_le MaxPaths maxPathLen simplePools source dest p hp⟩
  · exact findPath_count _ _ _ _ _ _ _ _ _ (by simp)
  · intro extra
    unfold findPaths
    apply findPath_fuel
    · omega
    · simp only [List.length_nil]; push_cast; omega
    · omega
    · simp only [List.length_nil]; push_cast; omega

/-- Witness of the amended C24 on the two pools `X-Y` and `Y-Z`. -/
theorem findPaths_sound_witness :
    findPaths 20 3 [⟨"X", "Y", 10, 10⟩, ⟨"Y", "Z", 10, 20⟩] "X" "Z" = [["X", "Y", "Z"]] ∧
      (findPaths 20 3 [⟨"X", "Y", 10, 10⟩, ⟨"Y", "Z", 10, 20⟩] "X" "Z").length ≤ 20 :=
  ⟨by decide, (findPaths_sound 20 3 [⟨"X", "Y", 10, 10⟩, ⟨"Y", "Z", 10, 20⟩] "X" "Z").2.1⟩

/-! ## `chooseBestPoolFromAPair` -/

/-- The function `chooseBestPoolFromAPair` is the iteration of `chooseStep` over the
entries of the snapshot. -/
theorem chooseBestPoolFromAPair_eq (M : MatchingPrimitive) (fuel : Nat)
    (states : PoolPairStates) (a b : String) (s : Nat) :
    chooseBestPoolFromAPair M fuel states a b s =
      states.foldl (chooseStep M fuel states a b s) (.ok (none, "", 0)) := rfl

/-- Once an iteration of the choice has failed, the choice fails. -/
theorem chooseStep_fail (M : MatchingPrimitive) (fuel : Nat) (states : PoolPairStates)
    (a b : String) (s : Nat) :
    ∀ (l : PoolPairStates) (r : Result (Option Pdexv3PoolPair × String × Nat)),
      (∀ v, r ≠ .ok v) → ∀ v, l.foldl (chooseStep M fuel states a b s) r ≠ .ok v := by
  intro l
  induction l with
  | nil => intro r hr v; simpa using hr v
  | cons e l ih =>
    intro r hr v
    simp only [List.foldl_cons]
    apply ih
    intro v2
    cases r with
    | ok x => exact absurd rfl (hr x)
    | err e => simp [chooseStep, Result.bind]
    | crash p => simp [chooseStep, Result.bind]
    | outOfFuel => simp [chooseStep, Result.bind]

/-- One iteration of the choice on an entry that does not join the two tokens. -/
theorem chooseStep_skip (M : MatchingPrimitive) (fuel : Nat) (states : PoolPairStates)
    (a b : String) (s : Nat) (c : Option Pdexv3PoolPair × String × Nat)
    (e : String × Pdexv3PoolPairState) (h : ¬ Connects e.2.State a b) :
    chooseStep M fuel states a b s (.ok c) e = .ok c := by
  simp only [chooseStep, Result.bind]
  rw [if_neg h]

/-- One iteration of the choice on an entry that joins the two tokens and whose
simulation returns `v`. -/
theorem chooseStep_trade (M : MatchingPrimitive) (fuel : Nat) (states : PoolPairStates)
    (a b : String) (s : Nat) (c : Option Pdexv3PoolPair × String × Nat)
    (e : String × Pdexv3PoolPairState) (v : Nat) (h : Connects e.2.State a b)
    (ht : trade M fuel e.1 states b s = .ok v) :
    chooseStep M fuel states a b s (.ok c) e =
      .ok (if v > c.2.2 then (some e.2.State, e.1, v) else c) := by
  simp only [chooseStep, Result.bind]
  rw [if_pos h, ht]
  simp only
  split <;> rfl

/-- A successful choice: every entry joining the two tokens was simulated, the amount
kept is at least every simulated output, and the choice is either the initial one or an
entry that joins the two tokens and whose output is the amount kept. -/
theorem foldl_chooseStep_ok (M : MatchingPrimitive) (fuel : Nat) (states : PoolPairStates)
    (a b : String) (s : Nat) :
    ∀ (l : PoolPairStates) (c c1 : Option Pdexv3PoolPair × String × Nat),
      l.foldl (chooseStep M fuel states a b s) (.ok c) = .ok c1 →
      c.2.2 ≤ c1.2.2 ∧
      (∀ e ∈ l, Connects e.2.State a b →
        ∃ v, trade M fuel e.1 states b s = .ok v ∧ v ≤ c1.2.2) ∧
      (c1 = c ∨ ∃ e ∈ l, Connects e.2.State a b ∧ c1 = (some e.2.State, e.1, c1.2.2) ∧
        trade M fuel e.1 states b s = .ok c1.2.2 ∧ c.2.2 < c1.2.2) := by
  intro l
  induction l with
  | nil =>
    intro c c1 h
    simp only [List.foldl_nil, Result.ok.injEq] at h
    subst h
    simp
  | cons e l ih =>
    intro c c1 h
    simp only [List.foldl_cons] at h
    by_cases hc : Connects e.2.State a b
    · cases ht : trade M fuel e.1 states b s with
      | ok v =>
        rw [chooseStep_trade M fuel states a b s c e v hc ht] at h
        obtain ⟨i1, i2, i3⟩ := ih _ c1 h
        by_cases hv : v > c.2.2
        · rw [if_pos hv] at i1 i3
          simp only at i1
          refine ⟨by omega, ?_, ?_⟩
          · intro e1 he1 hc1
            rcases List.mem_cons.1 he1 with h1 | h1
            · subst h1; exact ⟨v, ht, i1⟩
            · exact i2 e1 h1 hc1
          · right
            rcases i3 with h3 | ⟨e1, he1, hc1, h3, h4, h5⟩
            · refine ⟨e, List.mem_cons_self _ _, hc, ?_, ?_, ?_⟩
              · rw [h3]
              · rw [h3]; exact ht
              · rw [h3]; exact hv
            · exact ⟨e1, List.mem_cons_of_mem _ he1, hc1, h3, h4, by simp only at h5; omega⟩
        · rw [if_neg hv] at i1 i3
          refine ⟨i1, ?_, ?_⟩
          · intro e1 he1 hc1
            rcases List.mem_cons.1 he1 with h1 | h1
            · subst h1; exact ⟨v, ht, by omega⟩
            · exact i2 e1 h1 hc1
          · rcases i3 with h3 | ⟨e1, he1, hc1, h3, h4, h5⟩
            · exact Or.inl h3
            · exact Or.inr ⟨e1, List.mem_cons_of_mem _ he1, hc1, h3, h4, h5⟩
      | err x =>
        exact absurd h (chooseStep_fail M fuel states a b s l _
          (by simp [chooseStep, Result.bind, if_pos hc, ht]) c1)
      | crash x =>
        exact absurd h (chooseStep_fail M fuel states a b s l _
          (by simp [chooseStep, Result.bind, if_pos hc, ht]) c1)
      | outOfFuel =>
        exact absurd h (chooseStep_fail M fuel states a b s l _
          (by simp [chooseStep, Result.bind, if_pos hc, ht]) c1)
    · rw [chooseStep_skip M fuel states a b s c e hc] at h
      obtain ⟨i1, i2, i3⟩ := ih _ c1 h
      refine ⟨i1, ?_, ?_⟩
      · intro e1 he1 hc1
        rcases List.mem_cons.1 he1 with h1 | h1
        · subst h1; exact absurd hc1 hc
        · exact i2 e1 h1 hc1
      · rcases i3 with h3 | ⟨e1, he1, hc1, h3, h4, h5⟩
        · exact Or.inl h3
        · exact Or.inr ⟨e1, List.mem_cons_of_mem _ he1, hc1, h3, h4, h5⟩

/-- The choice returns when the simulation of every entry joining the two tokens
returns. -/
theorem foldl_chooseStep_total (M : MatchingPrimitive) (fuel : Nat) (states : PoolPairStates)
    (a b : String) (s : Nat) :
    ∀ (l : PoolPairStates) (c : Option Pdexv3PoolPair × String × Nat),
      (∀ e ∈ l, Connects e.2.State a b → ∃ v, trade M fuel e.1 states b s = .ok v) →
      ∃ c1, l.foldl (chooseStep M fuel states a b s) (.ok c) = .ok c1 := by
  intro l
  induction l with
  | nil => intro c _; exact ⟨c, rfl⟩
  | cons e l ih =>
    intro c h
    simp only [List.foldl_cons]
    by_cases hc : Connects e.2.State a b
    · obtain ⟨v, hv⟩ := h e (List.mem_cons_self _ _) hc
      rw [chooseStep_trade M fuel states a b s c e v hc hv]
      exact ih _ (fun e1 he1 => h e1 (List.mem_cons_of_mem _ he1))
    · rw [chooseStep_skip M fuel states a b s c e hc]
      exact ih _ (fun e1 he1 => h e1 (List.mem_cons_of_mem _ he1))

/-- C21: `chooseBestPoolFromAPair` returns whenever the simulation (`trade`) of every pool
joining `A` and `B` returns; the amount it returns is the maximum of the simulated
outputs of the pools joining `A` and `B` (`0` when there is none); when that amount is
positive the pool and identifier returned are those of an entry of the snapshot that
joins `A` and `B` and whose output is that amount; when it is `0`, in particular when no
pool joins `A` and `B` or every output is `0`, no pool and the empty identifier are
returned. -/
theorem chooseBestPoolFromAPair_max (M : MatchingPrimitive) (fuel : Nat)
    (states : PoolPairStates) (a b : String) (s : Nat) :
    ((∀ e ∈ states, Connects e.2.State a b → ∃ v, trade M fuel e.1 states b s = .ok v) →
      ∃ res, chooseBestPoolFromAPair M fuel states a b s = .ok res) ∧
    (∀ pool id r, chooseBestPoolFromAPair M fuel states a b s = .ok (pool, id, r) →
      (∀ e ∈ states, Connects e.2.State a b →
        ∃ v, trade M fuel e.1 states b s = .ok v ∧ v ≤ r) ∧
      (0 < r → ∃ e ∈ states, Connects e.2.State a b ∧ pool = some e.2.State ∧ id = e.1 ∧
        trade M fuel e.1 states b s = .ok r) ∧
      (r = 0 → pool = none ∧ id = "")) ∧
    ((∀ e ∈ states, Connects e.2.State a b → trade M fuel e.1 states b s = .ok 0) →
      chooseBestPoolFromAPair M fuel states a b s = .ok (none, "", 0)) := by
  have part2 : ∀ pool id r, chooseBestPoolFromAPair M fuel states a b s = .ok (pool, id, r) →
      (∀ e ∈ states, Connects e.2.State a b →
        ∃ v, trade M fuel e.1 states b s = .ok v ∧ v ≤ r) ∧
      (0 < r → ∃ e ∈ states, Connects e.2.State a b ∧ pool = some e.2.State ∧ id = e.1 ∧
        trade M fuel e.1 states b s = .ok r) ∧
      (r = 0 → pool = none ∧ id = "") := by
    intro pool id r h
    rw [chooseBestPoolFromAPair_eq] at h
    obtain ⟨-, i2, i3⟩ := foldl_chooseStep_ok M fuel states a b s states _ _ h
    refine ⟨i2, ?_, ?_⟩
    · intro hr
      rcases i3 with h3 | ⟨e, he, hc, h3, h4, -⟩
      · simp only [Prod.mk.injEq] at h3
        omega
      · simp only [Prod.mk.injEq] at h3
        exact ⟨e, he, hc, h3.1, h3.2.1, h4⟩
    · intro hr
      rcases i3 with h3 | ⟨e, he, hc, h3, h4, h5⟩
      · simp only [Prod.mk.injEq] at h3
        exact ⟨h3.1, h3.2.1⟩
      · simp only at h5
        omega
  refine ⟨?_, part2, ?_⟩
  · intro h
    rw [chooseBestPoolFromAPair_eq]
    exact foldl_chooseStep_total M fuel states a b s states _ h
  · intro h
    rw [chooseBestPoolFromAPair_eq]
    obtain ⟨c1, hc1⟩ := foldl_chooseStep_total M fuel states a b s states (none, "", 0)
      (fun e he hc => ⟨0, h e he hc⟩)
    obtain ⟨pool, id, r⟩ := c1
    have hc2 := hc1
    rw [← chooseBestPoolFromAPair_eq] at hc2
    obtain ⟨j1, j2, j3⟩ := part2 pool id r hc2
    have hr : r = 0 := by
      by_contra hne
      obtain ⟨e, he, hc, -, -, ht⟩ := j2 (by omega)
      rw [h e he hc] at ht
      simp only [Result.ok.injEq] at ht
      omega
    obtain ⟨rfl, rfl⟩ := j3 hr
    rw [hc1, hr]

/-- Witness of C21 on two parallel pools joining `X` and `Y`: selling 100,000 of `X` buys
90,909 in the first pool and 96,774 in the deeper second one, which is returned. -/
theorem chooseBestPoolFromAPair_max_witness :
    chooseBestPoolFromAPair noMatching 1 parallelStates "X" "Y" 100000
        = .ok (some ⟨"Y", "X", 3000000, 3000000, 3000000, 3000000, 10000⟩, "p3", 96774) ∧
      trade noMatching 1 "p1" parallelStates "Y" 100000 = .ok 90909 ∧
      ∃ e ∈ parallelStates, Connects e.2.State "X" "Y" ∧
        some (⟨"Y", "X", 3000000, 3000000, 3000000, 3000000, 10000⟩ : Pdexv3PoolPair)
          = some e.2.State ∧ "p3" = e.1 ∧
        trade noMatching 1 e.1 parallelStates "Y" 100000 = .ok 96774 :=
  ⟨by decide, by decide,
    ((chooseBestPoolFromAPair_max noMatching 1 parallelStates "X" "Y" 100000).2.1
      (some ⟨"Y", "X", 3000000, 3000000, 3000000, 3000000, 10000⟩) "p3" 96774
      (by decide)).2.1 (by decide)⟩

/-! ## `trade` and the walk of a path -/

/-- In a map every key has one entry: looking up the key of an entry gives the entry. -/
theorem lookup_of_mem {β : Type} :
    ∀ (l : List (String × β)) (e : String × β), (l.map Prod.fst).Nodup → e ∈ l →
      l.lookup e.1 = some e.2 := by
  intro l
  induction l with
  | nil => intro e _ he; cases he
  | cons x l ih =>
    intro e hnd he
    obtain ⟨k, v⟩ := x
    simp only [List.map_cons, List.nodup_cons] at hnd
    rcases List.mem_cons.1 he with h | h
    · subst h; simp [List.lookup]
    · have hne : e.1 ≠ k := by
        intro heq
        apply hnd.1
        rw [← heq]
        exact List.mem_map_of_mem _ h
      simp only [List.lookup]
      have : (e.1 == k) = false := by simpa using hne
      rw [this]
      exact ih e hnd.2 h

/-- The entry found under a key is an entry of the map. -/
theorem mem_of_lookup {β : Type} :
    ∀ (l : List (String × β)) (k : String) (v : β), l.lookup k = some v → (k, v) ∈ l := by
  intro l
  induction l with
  | nil => intro k v h; simp [List.lookup] at h
  | cons x l ih =>
    intro k v h
    obtain ⟨k1, v1⟩ := x
    simp only [List.lookup] at h
    by_cases hk : k = k1
    · subst hk
      simp only [beq_self_eq_true, Option.some.injEq] at h
      subst h
      exact List.mem_cons_self _ _
    · have : (k == k1) = false := by simpa using hk
      rw [this] at h
      exact List.mem_cons_of_mem _ (ih k v h)

/-- The key of an entry of the map is found in the map. -/
theorem lookup_some_of_mem {β : Type} :
    ∀ (l : List (String × β)) (e : String × β), e ∈ l → ∃ v, l.lookup e.1 = some v := by
  intro l
  induction l with
  | nil => intro e he; cases he
  | cons x l ih =>
    intro e he
    obtain ⟨k, v⟩ := x
    simp only [List.lookup]
    cases hk : e.1 == k
    · rcases List.mem_cons.1 he with h | h
      · subst h; simp at hk
      · exact ih e h
    · exact ⟨v, rfl⟩

/-- The path of one pool read from the snapshot: the pool is sold into in the direction
of the token sold, and there is no path when the token sold is not a token of the pool. -/
theorem TradePathFromState_single (states : PoolPairStates) (t id : String)
    (st : Pdexv3PoolPairState) (hl : states.lookup id = some st) :
    TradePathFromState t [id] states =
      if t = st.State.Token0ID then
        .ok ([st.State], [⟨st.Orderbook⟩], [TradeDirectionSell0])
      else if t = st.State.Token1ID then
        .ok ([st.State], [⟨st.Orderbook⟩], [TradeDirectionSell1])
      else .error .incompatibleSellingToken := by
  simp only [TradePathFromState, TradePathFromState.go, hl]
  split
  · simp [TradePathFromState.go]
  · split
    · simp [TradePathFromState.go]
    · rfl

/-- The direction of a hop is one of the two directions. -/
theorem hopDirection_valid (pool : Pdexv3PoolPair) (a : String) :
    hopDirection pool a = TradeDirectionSell0 ∨ hopDirection pool a = TradeDirectionSell1 := by
  unfold hopDirection
  split
  · exact Or.inl rfl
  · exact Or.inr rfl

/-- The function `trade` on an entry of the snapshot joining `a` and `b`: the loop of the
hop on the pool of the entry in the direction that sells `a`, an error counting as `0`. -/
theorem trade_eq (M : MatchingPrimitive) (fuel : Nat) (states : PoolPairStates)
    (id a b : String) (st : Pdexv3PoolPairState) (s : Nat)
    (hl : states.lookup id = some st) (hc : Connects st.State a b) (hab : a ≠ b) :
    trade M fuel id states b s =
      match hopLoop M (hopDirection st.State a) fuel st.State ⟨st.Orderbook⟩ s 0 with
      | .ok v => .ok v
      | .err _ => .ok 0
      | .crash p => .crash p
      | .outOfFuel => .outOfFuel := by
  rcases hc with ⟨h0, h1⟩ | ⟨h1, h0⟩
  · have hb : b ≠ st.State.Token0ID := by rw [← h0]; exact fun h => hab h.symm
    cases hx : hopLoop M TradeDirectionSell0 fuel st.State ⟨st.Orderbook⟩ s 0 <;>
      simp [trade, hl, TradePathFromState_single states _ id st hl, hb, hopDirection, h0,
        EstimateReceivingAmount_single, hx]
  · have ha : a ≠ st.State.Token0ID := by rw [← h0]; exact hab
    have h10 : st.State.Token1ID ≠ st.State.Token0ID := by rw [← h1]; exact ha
    cases hx : hopLoop M TradeDirectionSell1 fuel st.State ⟨st.Orderbook⟩ s 0 <;>
      simp [trade, hl, TradePathFromState_single states _ id st hl, h0, h10, hopDirection, ha,
        EstimateReceivingAmount_single, hx]

/-- The function `trade` with the amount `0` returns `0`. -/
theorem trade_zero (M : MatchingPrimitive) (fuel : Nat) (states : PoolPairStates)
    (id b : String) (v : Nat) (h : trade M fuel id states b 0 = .ok v) : v = 0 := by
  simp only [trade] at h
  split at h
  · simp at h
  · rename_i st hl
    rw [TradePathFromState_single states _ id st hl] at h
    have key : ∀ d, (match hopLoop M d fuel st.State ⟨st.Orderbook⟩ 0 0 with
        | Result.ok expectedReceived => Result.ok expectedReceived
        | Result.err _ => Result.ok 0
        | Result.crash p => Result.crash p
        | Result.outOfFuel => Result.outOfFuel) = Result.ok v → v = 0 := by
      intro d hr
      cases hx : hopLoop M d fuel st.State ⟨st.Orderbook⟩ 0 0 with
      | ok x =>
        rw [hx] at hr
        simp only [Result.ok.injEq] at hr
        rw [← hr]
        exact hopLoop_zero M d fuel _ _ x hx
      | err e => rw [hx] at hr; simp only [Result.ok.injEq] at hr; exact hr.symm
      | crash p => rw [hx] at hr; simp at hr
      | outOfFuel => rw [hx] at hr; simp at hr
    by_cases h0 : (if b ≠ st.State.Token0ID then st.State.Token0ID else st.State.Token1ID)
        = st.State.Token0ID
    · rw [if_pos h0] at h
      simp only at h
      rw [EstimateReceivingAmount_single] at h
      exact key _ h
    · rw [if_neg h0] at h
      by_cases h1 : (if b ≠ st.State.Token0ID then st.State.Token0ID else st.State.Token1ID)
          = st.State.Token1ID
      · rw [if_pos h1] at h
        simp only at h
        rw [EstimateReceivingAmount_single] at h
        exact key _ h
      · rw [if_neg h1] at h
        simp only at h
        rw [EstimateReceivingAmount_nil] at h
        simp only [Result.ok.injEq] at h
        exact h.symm

/-- The simulation of a trade in a pool of the snapshot with an empty order book. -/
theorem trade_empty (M : MatchingPrimitive) (fuel : Nat) (states : PoolPairStates)
    (id a b : String) (st : Pdexv3PoolPairState) (s : Nat)
    (hl : states.lookup id = some st) (hob : st.Orderbook = [])
    (hc : Connects st.State a b) (hab : a ≠ b) :
    (∀ tp1 v t c0 c1, SwapToReachOrderRate st.State s (hopDirection st.State a) none
        = (tp1, .ok (v, t, c0, c1)) → trade M (fuel + 1) id states b s = .ok v) ∧
    (∀ e, (SwapToReachOrderRate st.State s (hopDirection st.State a) none).2 = .err e →
      trade M (fuel + 1) id states b s = .ok 0) := by
  obtain ⟨k1, k2⟩ := hopLoop_empty_swap M (hopDirection st.State a) fuel st.State s
    (hopDirection_valid _ _)
  rw [trade_eq M (fuel + 1) states id a b st s hl hc hab, hob]
  constructor
  · intro tp1 v t c0 c1 hS
    rw [k1 tp1 v t c0 c1 hS]
  · intro e hS
    rw [k2 e hS]

/-- The simulation of a trade in a pool of the snapshot with an empty order book and
non-negative virtual reserves returns. -/
theorem trade_returns (M : MatchingPrimitive) (fuel : Nat) (states : PoolPairStates)
    (id b : String) (st : Pdexv3PoolPairState) (s : Nat)
    (hl : states.lookup id = some st) (hob : st.Orderbook = [])
    (hv0 : 0 ≤ st.State.Token0VirtualAmount) (hv1 : 0 ≤ st.State.Token1VirtualAmount) :
    ∃ v, trade M (fuel + 1) id states b s = .ok v := by
  have key : ∀ d, d = TradeDirectionSell0 ∨ d = TradeDirectionSell1 →
      ∃ v, (match hopLoop M d (fuel + 1) st.State ⟨st.Orderbook⟩ s 0 with
        | Result.ok expectedReceived => Result.ok expectedReceived
        | Result.err _ => Result.ok 0
        | Result.crash p => Result.crash p
        | Result.outOfFuel => Result.outOfFuel) = Result.ok v := by
    intro d hd
    rw [hob]
    rcases hopLoop_empty_returns M d fuel st.State s hd hv0 hv1 with ⟨v, h⟩ | ⟨e, h⟩
    · rw [h]; exact ⟨v, rfl⟩
    · rw [h]; exact ⟨0, rfl⟩
  simp only [trade, hl]
  rw [TradePathFromState_single states _ id st hl]
  by_cases h0 : (if b ≠ st.State.Token0ID then st.State.Token0ID else st.State.Token1ID)
      = st.State.Token0ID
  · rw [if_pos h0]
    simp only
    rw [EstimateReceivingAmount_single]
    exact key _ (Or.inl rfl)
  · rw [if_neg h0]
    by_cases h1 : (if b ≠ st.State.Token0ID then st.State.Token0ID else st.State.Token1ID)
        = st.State.Token1ID
    · rw [if_pos h1]
      simp only
      rw [EstimateReceivingAmount_single]
      exact key _ (Or.inr rfl)
    · rw [if_neg h1]
      simp only
      rw [EstimateReceivingAmount_nil]
      exact ⟨0, rfl⟩

/-- The choice of a pool for the amount `0` returns the amount `0`. -/
theorem chooseBestPoolFromAPair_zero (M : MatchingPrimitive) (fuel : Nat)
    (states : PoolPairStates) (a b : String)
    (c : Option Pdexv3PoolPair × String × Nat)
    (h : chooseBestPoolFromAPair M fuel states a b 0 = .ok c) : c.2.2 = 0 := by
  rw [chooseBestPoolFromAPair_eq] at h
  obtain ⟨-, -, i3⟩ := foldl_chooseStep_ok M fuel states a b 0 states _ _ h
  rcases i3 with h3 | ⟨e, -, -, -, h4, -⟩
  · rw [h3]
  · exact trade_zero M fuel states e.1 b _ h4

/-- The choice among the pools of the snapshot when exactly one entry joins the two
tokens: that entry when its simulation yields a positive amount, no pool otherwise. -/
theorem chooseBestPoolFromAPair_unique (M : MatchingPrimitive) (fuel : Nat)
    (states : PoolPairStates) (a b : String) (s v : Nat) (e0 : String × Pdexv3PoolPairState)
    (he0 : e0 ∈ states) (hc0 : Connects e0.2.State a b)
    (huniq : ∀ e ∈ states, Connects e.2.State a b → e = e0)
    (ht : trade M fuel e0.1 states b s = .ok v) :
    chooseBestPoolFromAPair M fuel states a b s =
      .ok (if 0 < v then (some e0.2.State, e0.1, v) else (none, "", 0)) := by
  rw [chooseBestPoolFromAPair_eq]
  obtain ⟨c1, hc1⟩ := foldl_chooseStep_total M fuel states a b s states (none, "", 0)
    (fun e he hc => by rw [huniq e he hc]; exact ⟨v, ht⟩)
  rw [hc1]
  obtain ⟨-, i2, i3⟩ := foldl_chooseStep_ok M fuel states a b s states _ _ hc1
  obtain ⟨v1, hv1, hle⟩ := i2 e0 he0 hc0
  rw [ht] at hv1
  simp only [Result.ok.injEq] at hv1
  subst hv1
  rcases i3 with h3 | ⟨e, he, hc, h3, h4, h5⟩
  · rw [h3] at hle
    simp only at hle
    have : ¬ 0 < v := by omega
    rw [if_neg this, h3]
  · rw [huniq e he hc] at h3 h4
    rw [ht] at h4
    simp only [Result.ok.injEq] at h4
    simp only at h5
    have : 0 < v := by omega
    rw [if_pos this, h3, ← h4]

/-- The walk of a path with the amount `0` ends with the amount `0`. -/
theorem walkPath_zero (M : MatchingPrimitive) (fuel : Nat) (states : PoolPairStates) :
    ∀ (p : List String) (pools : List (Option Pdexv3PoolPair)) (ids : List String)
      (w : List (Option Pdexv3PoolPair) × List String × Nat),
      walkPath M fuel states p 0 pools ids = .ok w → w.2.2 = 0 := by
  intro p
  induction p with
  | nil => intro pools ids w h; simp only [walkPath] at h; injection h with h; subst h; rfl
  | cons a t ih =>
    intro pools ids w h
    cases t with
    | nil => simp only [walkPath] at h; injection h with h; subst h; rfl
    | cons b rest =>
      simp only [walkPath] at h
      cases hc : chooseBestPoolFromAPair M fuel states a b 0 with
      | ok r =>
        rw [hc] at h
        simp only [Result.bind] at h
        rw [chooseBestPoolFromAPair_zero M fuel states a b r hc] at h
        exact ih _ _ w h
      | err e => rw [hc] at h; simp [Result.bind] at h
      | crash p => rw [hc] at h; simp [Result.bind] at h
      | outOfFuel => rw [hc] at h; simp [Result.bind] at h

/-- The walk of a path adds one identifier per hop. -/
theorem walkPath_ids_length (M : MatchingPrimitive) (fuel : Nat) (states : PoolPairStates) :
    ∀ (path : List String) (sellAmt : Nat) (pools : List (Option Pdexv3PoolPair))
      (ids : List String) (w : List (Option Pdexv3PoolPair) × List String × Nat),
      walkPath M fuel states path sellAmt pools ids = .ok w →
        w.2.1.length = ids.length + (path.length - 1) := by
  intro path
  induction path with
  | nil => intro s pools ids w h; simp only [walkPath] at h; injection h with h; subst h; simp
  | cons a t ih =>
    intro s pools ids w h
    cases t with
    | nil => simp only [walkPath] at h; injection h with h; subst h; simp
    | cons b rest =>
      simp only [walkPath] at h
      cases hc : chooseBestPoolFromAPair M fuel states a b s with
      | ok r =>
        rw [hc] at h
        simp only [Result.bind] at h
        have := ih r.2.2 (pools ++ [r.1]) (ids ++ [r.2.1]) w h
        rw [this]
        simp
        omega
      | err e => rw [hc] at h; simp [Result.bind] at h
      | crash p => rw [hc] at h; simp [Result.bind] at h
      | outOfFuel => rw [hc] at h; simp [Result.bind] at h

/-- A walk that ends with a positive amount chose a pool of the snapshot at every hop:
the identifiers it adds are keys of the snapshot. -/
theorem walkPath_keys (M : MatchingPrimitive) (fuel : Nat) (states : PoolPairStates) :
    ∀ (p : List String) (s : Nat) (pools : List (Option Pdexv3PoolPair)) (ids : List String)
      (w : List (Option Pdexv3PoolPair) × List String × Nat),
      walkPath M fuel states p s pools ids = .ok w → 0 < w.2.2 →
      ∀ id ∈ w.2.1, id ∈ ids ∨ id ∈ states.map Prod.fst := by
  intro p
  induction p with
  | nil =>
    intro s pools ids w h _
    simp only [walkPath] at h; injection h with h; subst h
    intro id hid; exact Or.inl hid
  | cons a t ih =>
    intro s pools ids w h hpos
    cases t with
    | nil =>
      simp only [walkPath] at h; injection h with h; subst h
      intro id hid; exact Or.inl hid
    | cons b rest =>
      simp only [walkPath] at h
      cases hc : chooseBestPoolFromAPair M fuel states a b s with
      | ok r =>
        rw [hc] at h
        simp only [Result.bind] at h
        have hr : 0 < r.2.2 := by
          by_contra hn
          have h0 : r.2.2 = 0 := by omega
          rw [h0] at h
          have := walkPath_zero M fuel states _ _ _ w h
          omega
        rw [chooseBestPoolFromAPair_eq] at hc
        obtain ⟨-, -, i3⟩ := foldl_chooseStep_ok M fuel states a b s states _ _ hc
        intro id hid
        rcases ih _ _ _ w h hpos id hid with h1 | h1
        · rcases List.mem_append.1 h1 with h2 | h2
          · exact Or.inl h2
          · right
            simp only [List.mem_singleton] at h2
            rcases i3 with h3 | ⟨e, he, -, h3, -, -⟩
            · rw [h3] at hr; simp at hr
            · rw [h3] at h2
              simp only at h2
              rw [h2]
              exact List.mem_map_of_mem _ he
        · exact Or.inr h1
      | err e => rw [hc] at h; simp [Result.bind] at h
      | crash p => rw [hc] at h; simp [Result.bind] at h
      | outOfFuel => rw [hc] at h; simp [Result.bind] at h

/-- The walk of a path returns when every choice of a pool returns. -/
theorem walkPath_returns (M : MatchingPrimitive) (fuel : Nat) (states : PoolPairStates)
    (hc : ∀ a b s, ∃ c, chooseBestPoolFromAPair M fuel states a b s = .ok c) :
    ∀ (p : List String) (s : Nat) (pools : List (Option Pdexv3PoolPair)) (ids : List String),
      ∃ w, walkPath M fuel states p s pools ids = .ok w := by
  intro p
  induction p with
  | nil => intro s pools ids; exact ⟨_, rfl⟩
  | cons a t ih =>
    intro s pools ids
    cases t with
    | nil => exact ⟨_, rfl⟩
    | cons b rest =>
      obtain ⟨c, hcc⟩ := hc a b s
      simp only [walkPath, hcc, Result.bind]
      exact ih _ _ _

/-- A loop of a hop whose result `trade` returns as a positive amount returned that
amount. -/
theorem hopLoop_of_trade (M : MatchingPrimitive) (fuel : Nat) (states : PoolPairStates)
    (id a b : String) (st : Pdexv3PoolPairState) (s v : Nat)
    (hl : states.lookup id = some st) (hc : Connects st.State a b) (hab : a ≠ b)
    (ht : trade M fuel id states b s = .ok v) (hv : 0 < v) :
    hopLoop M (hopDirection st.State a) fuel st.State ⟨st.Orderbook⟩ s 0 = .ok v := by
  rw [trade_eq M fuel states id a b st s hl hc hab] at ht
  cases hx : hopLoop M (hopDirection st.State a) fuel st.State ⟨st.Orderbook⟩ s 0 with
  | ok x => rw [hx] at ht; exact ht
  | err e => rw [hx] at ht; simp only [Result.ok.injEq] at ht; omega
  | crash p => rw [hx] at ht; simp at ht
  | outOfFuel => rw [hx] at ht; simp at ht

/-- A walk that ends with a positive amount is an estimation over the pools it chose:
the hops `(pool, direction, order book)` of the chosen pools are those read back from
the snapshot by `TradePathFromState` for the identifiers chosen, and the loops of the
estimator over these hops end with the amount of the walk. -/
theorem walkPath_hops (M : MatchingPrimitive) (fuel : Nat) (states : PoolPairStates)
    (hk : (states.map Prod.fst).Nodup) :
    ∀ (p : List String) (s : Nat) (pools0 : List (Option Pdexv3PoolPair))
      (ids0 : List String) (w : List (Option Pdexv3PoolPair) × List String × Nat),
      p.Chain' (fun a b => a ≠ b) →
      walkPath M fuel states p s pools0 ids0 = .ok w → 0 < w.2.2 →
      ∃ (hops : List (Pdexv3PoolPair × Nat × OrderBook)) (ids : List String),
        ids.length = hops.length ∧
        w.1 = pools0 ++ hops.map (fun h => some h.1) ∧ w.2.1 = ids0 ++ ids ∧
        estimateHops M fuel hops s s = .ok w.2.2 ∧
        ∀ t r obs ds, p.head? = some t →
          TradePathFromState.go states ids t r obs ds =
            .ok (r ++ hops.map (fun h => h.1), obs ++ hops.map (fun h => h.2.2),
              ds ++ hops.map (fun h => h.2.1)) := by
  intro p
  induction p with
  | nil =>
    intro s pools0 ids0 w _ h _
    simp only [walkPath] at h; injection h with h; subst h
    exact ⟨[], [], rfl, by simp, by simp, by simp [estimateHops], by simp⟩
  | cons a t ih =>
    intro s pools0 ids0 w hch h hpos
    cases t with
    | nil =>
      simp only [walkPath] at h; injection h with h; subst h
      exact ⟨[], [], rfl, by simp, by simp, by simp [estimateHops],
        by simp [TradePathFromState.go]⟩
    | cons b rest =>
      simp only [walkPath] at h
      have hab : a ≠ b := (List.chain'_cons.1 hch).1
      have hch2 : (b :: rest).Chain' (fun a b => a ≠ b) := (List.chain'_cons.1 hch).2
      cases hc : chooseBestPoolFromAPair M fuel states a b s with
      | ok c =>
        rw [hc] at h
        simp only [Result.bind] at h
        have hr : 0 < c.2.2 := by
          by_contra hn
          have h0 : c.2.2 = 0 := by omega
          rw [h0] at h
          have := walkPath_zero M fuel states _ _ _ w h
          omega
        rw [chooseBestPoolFromAPair_eq] at hc
        obtain ⟨-, -, i3⟩ := foldl_chooseStep_ok M fuel states a b s states _ _ hc
        rcases i3 with h3 | ⟨e, he, hcon, h3, h4, -⟩
        · rw [h3] at hr; simp at hr
        · have hl := lookup_of_mem states e hk he
          have hloop := hopLoop_of_trade M fuel states e.1 a b e.2 s c.2.2 hl hcon hab h4 hr
          obtain ⟨hops, ids, j1, j2, j3, j4, j5⟩ := ih c.2.2 _ _ w hch2 h hpos
          have hc1 : c.1 = some e.2.State := by rw [h3]
          have hc2 : c.2.1 = e.1 := by rw [h3]
          refine ⟨(e.2.State, hopDirection e.2.State a, ⟨e.2.Orderbook⟩) :: hops, e.1 :: ids,
            by simp [j1], ?_, ?_, ?_, ?_⟩
          · rw [j2, hc1]; simp
          · rw [j3, hc2]; simp
          · simp only [estimateHops, hloop, Result.bind]
            exact j4
          · intro t r obs ds ht
            simp only [List.head?_cons, Option.some.injEq] at ht
            subst ht
            have j5b := fun r obs ds => j5 b r obs ds rfl
            simp only [TradePathFromState.go, hl]
            by_cases ha0 : a = e.2.State.Token0ID
            · have hb1 : e.2.State.Token1ID = b := by
                rcases hcon with ⟨-, h1⟩ | ⟨h1, h0⟩
                · exact h1.symm
                · exact absurd (ha0.trans h0.symm) hab
              rw [if_pos ha0, hb1, j5b]
              simp [hopDirection, ha0]
            · have h10 : a = e.2.State.Token1ID ∧ b = e.2.State.Token0ID := by
                rcases hcon with ⟨h0, -⟩ | h
                · exact absurd h0 ha0
                · exact h
              rw [if_neg ha0, if_pos h10.1, ← h10.2, j5b]
              simp [hopDirection, ha0]
      | err e => rw [hc] at h; simp [Result.bind] at h
      | crash p => rw [hc] at h; simp [Result.bind] at h
      | outOfFuel => rw [hc] at h; simp [Result.bind] at h

/-- The hops of a path are the pools, directions and order books zipped together. -/
theorem zip_hops (hops : List (Pdexv3PoolPair × Nat × OrderBook)) :
    (hops.map fun h => h.1).zip ((hops.map fun h => h.2.1).zip (hops.map fun h => h.2.2))
      = hops := by
  induction hops with
  | nil => rfl
  | cons h t ih => simp [ih]

/-! ## The edges of the built graph -/

/-- An edge of the graph, by membership in the adjacency list. -/
theorem hasEdge_iff (graph : Graph) (a b : String) :
    hasEdge graph a b = true ↔
      ∃ nodes, graph.lookup a = some nodes ∧ b ∈ nodes.map Node.TokenIDStr := by
  unfold hasEdge
  cases h : graph.lookup a with
  | none => simp
  | some nodes =>
    simp only [List.any_eq_true, decide_eq_true_eq, Option.some.injEq, List.mem_map,
      exists_eq_left']

/-- The adjacency list read after an assignment. -/
theorem lookup_graphSet (key : String) (nodes : List Node) :
    ∀ (graph : Graph) (a : String),
      (graphSet key nodes graph).lookup a = if a = key then some nodes else graph.lookup a := by
  intro graph
  induction graph with
  | nil =>
    intro a
    by_cases h : a = key
    · subst h; simp [graphSet, List.lookup]
    · have : (a == key) = false := by simpa using h
      simp [graphSet, List.lookup, this, h]
  | cons x g ih =>
    intro a
    obtain ⟨k, v⟩ := x
    simp only [graphSet]
    by_cases hk : k = key
    · subst hk
      rw [if_pos rfl]
      by_cases h : a = k
      · subst h; simp [List.lookup]
      · have : (a == k) = false := by simpa using h
        simp [List.lookup, this, h]
    · rw [if_neg hk]
      by_cases h : a = k
      · subst h
        simp [List.lookup, hk]
      · have : (a == k) = false := by simpa using h
        simp only [List.lookup, this]
        exact ih a

/-- The update of an existing destination keeps the identifiers of the list. -/
theorem updateExisted_some (dest : Node) :
    ∀ (nodes nodes1 : List Node), updateExisted dest nodes = some nodes1 →
      nodes1.map Node.TokenIDStr = nodes.map Node.TokenIDStr ∧
        dest.TokenIDStr ∈ nodes.map Node.TokenIDStr := by
  intro nodes
  induction nodes with
  | nil => intro nodes1 h; simp [updateExisted] at h
  | cons n ns ih =>
    intro nodes1 h
    simp only [updateExisted] at h
    split at h
    · rename_i heq
      simp only [Option.some.injEq] at h
      subst h
      refine ⟨?_, by simp [heq]⟩
      split <;> simp
    · cases hu : updateExisted dest ns with
      | none => rw [hu] at h; simp at h
      | some ns1 =>
        rw [hu] at h
        simp only [Option.map_some', Option.some.injEq] at h
        subst h
        obtain ⟨h1, h2⟩ := ih ns1 hu
        exact ⟨by simp [h1], by simp [h2]⟩

/-- The update finds no destination only when the identifier is not in the list. -/
theorem updateExisted_none (dest : Node) :
    ∀ (nodes : List Node), updateExisted dest nodes = none →
      dest.TokenIDStr ∉ nodes.map Node.TokenIDStr := by
  intro nodes
  induction nodes with
  | nil => intro _; simp
  | cons n ns ih =>
    intro h
    simp only [updateExisted] at h
    split at h
    · simp at h
    · rename_i hne
      cases hu : updateExisted dest ns with
      | none =>
        have := ih hu
        simp only [List.map_cons, List.mem_cons, not_or]
        exact ⟨fun h => hne h.symm, this⟩
      | some ns1 => rw [hu] at h; simp at h

/-- The edges from a token with an adjacency list. -/
theorem hasEdge_of_lookup (graph : Graph) (a b : String) (nodes : List Node)
    (hl : graph.lookup a = some nodes) :
    hasEdge graph a b = true ↔ b ∈ nodes.map Node.TokenIDStr := by
  rw [hasEdge_iff, hl]
  simp only [Option.some.injEq, exists_eq_left']

/-- The edges after an assignment of the adjacency list of `s`. -/
theorem hasEdge_graphSet (s : String) (nodes : List Node) (graph : Graph) (a b : String) :
    hasEdge (graphSet s nodes graph) a b = true ↔
      (a = s ∧ b ∈ nodes.map Node.TokenIDStr) ∨ (a ≠ s ∧ hasEdge graph a b = true) := by
  rw [hasEdge_iff, hasEdge_iff, lookup_graphSet]
  by_cases ha : a = s
  · simp [ha]
  · simp [ha]

/-- The edges after `addEdge`: those before, and the one added. -/
theorem addEdge_edge (s d : String) (liq : Int) (graph : Graph) (a b : String) :
    hasEdge (addEdge s d liq graph) a b = true ↔
      hasEdge graph a b = true ∨ (a = s ∧ b = d) := by
  cases hl : graph.lookup s with
  | none =>
    simp only [addEdge, hl, hasEdge_graphSet, List.map_cons, List.map_nil, List.mem_singleton]
    have hno : ∀ c, ¬ hasEdge graph s c = true := by
      intro c hc
      obtain ⟨nodes, h1, -⟩ := (hasEdge_iff graph s c).1 hc
      rw [hl] at h1
      cases h1
    constructor
    · rintro (⟨h1, h2⟩ | ⟨-, h2⟩)
      · exact Or.inr ⟨h1, h2⟩
      · exact Or.inl h2
    · rintro (h | ⟨h1, h2⟩)
      · by_cases ha : a = s
        · subst ha; exact absurd h (hno b)
        · exact Or.inr ⟨ha, h⟩
      · exact Or.inl ⟨h1, h2⟩
  | some nodes =>
    have hed : ∀ c, hasEdge graph s c = true ↔ c ∈ nodes.map Node.TokenIDStr :=
      fun c => hasEdge_of_lookup graph s c nodes hl
    cases hu : updateExisted ⟨d, liq⟩ nodes with
    | some nodes1 =>
      obtain ⟨h1, h2⟩ := updateExisted_some _ nodes nodes1 hu
      simp only [addEdge, hl, hu, hasEdge_graphSet, h1]
      constructor
      · rintro (⟨h3, h4⟩ | ⟨-, h4⟩)
        · subst h3; exact Or.inl ((hed b).2 h4)
        · exact Or.inl h4
      · rintro (h | ⟨h3, h4⟩)
        · by_cases ha : a = s
          · subst ha; exact Or.inl ⟨rfl, (hed b).1 h⟩
          · exact Or.inr ⟨ha, h⟩
        · subst h3; subst h4; exact Or.inl ⟨rfl, h2⟩
    | none =>
      simp only [addEdge, hl, hu, hasEdge_graphSet, List.map_append, List.map_cons,
        List.map_nil, List.mem_append, List.mem_singleton]
      constructor
      · rintro (⟨h3, h4 | h4⟩ | ⟨-, h4⟩)
        · subst h3; exact Or.inl ((hed b).2 h4)
        · exact Or.inr ⟨h3, h4⟩
        · exact Or.inl h4
      · rintro (h | ⟨h3, h4⟩)
        · by_cases ha : a = s
          · subst ha; exact Or.inl ⟨rfl, Or.inl ((hed b).1 h)⟩
          · exact Or.inr ⟨ha, h⟩
        · exact Or.inl ⟨h3, Or.inr h4⟩

/-- The edges after the loop of `buildGraph` over the pools. -/
theorem foldl_addEdge_edge (a b : String) :
    ∀ (simplePools : List SimplePoolNodeData) (graph : Graph),
      hasEdge (simplePools.foldl (fun g pool =>
        addEdge pool.Token1ID pool.Token0ID pool.Token1Liq
          (addEdge pool.Token0ID pool.Token1ID pool.Token0Liq g)) graph) a b = true ↔
        hasEdge graph a b = true ∨ PoolEdge simplePools a b := by
  intro simplePools
  induction simplePools with
  | nil => intro graph; simp
  | cons sp sps ih =>
    intro graph
    simp only [List.foldl_cons]
    rw [ih, addEdge_edge, addEdge_edge]
    constructor
    · rintro (((h | h) | h) | ⟨w, hw, hc⟩)
      · exact Or.inl h
      · exact Or.inr ⟨sp, List.mem_cons_self _ _, Or.inl h⟩
      · exact Or.inr ⟨sp, List.mem_cons_self _ _, Or.inr h⟩
      · exact Or.inr ⟨w, List.mem_cons_of_mem _ hw, hc⟩
    · rintro (h | ⟨w, hw, hc⟩)
      · exact Or.inl (Or.inl (Or.inl h))
      · rcases List.mem_cons.1 hw with h1 | h1
        · subst h1
          rcases hc with hc | hc
          · exact Or.inl (Or.inl (Or.inr hc))
          · exact Or.inl (Or.inr hc)
        · exact Or.inr ⟨w, h1, hc⟩

/-- The adjacency list read after mapping a function over the adjacency lists. -/
theorem lookup_map_nodes (f : List Node → List Node) :
    ∀ (graph : Graph) (a : String),
      (graph.map fun kv => (kv.1, f kv.2)).lookup a = (graph.lookup a).map f := by
  intro graph
  induction graph with
  | nil => intro a; simp [List.lookup]
  | cons x g ih =>
    intro a
    obtain ⟨k, v⟩ := x
    simp only [List.map_cons, List.lookup]
    cases h : a == k
    · exact ih a
    · simp

/-- The edges of the built graph are the pairs of tokens joined by a pool. -/
theorem buildGraph_edge (simplePools : List SimplePoolNodeData) (a b : String) :
    hasEdge (buildGraph simplePools) a b = true ↔ PoolEdge simplePools a b := by
  have h := foldl_addEdge_edge a b simplePools []
  have h0 : hasEdge [] a b = false := by simp [hasEdge, List.lookup]
  rw [h0] at h
  simp only [Bool.false_eq_true, false_or] at h
  rw [← h, hasEdge_iff, hasEdge_iff]
  unfold buildGraph
  simp only [lookup_map_nodes]
  constructor
  · rintro ⟨nodes, hl, hb⟩
    cases hg : List.lookup a (simplePools.foldl (fun g pool =>
        addEdge pool.Token1ID pool.Token0ID pool.Token1Liq
          (addEdge pool.Token0ID pool.Token1ID pool.Token0Liq g)) []) with
    | none => rw [hg] at hl; simp at hl
    | some ns =>
      rw [hg] at hl
      simp only [Option.map_some', Option.some.injEq] at hl
      subst hl
      refine ⟨ns, rfl, ?_⟩
      exact ((List.perm_insertionSort _ ns).map _).mem_iff.1 hb
  · rintro ⟨nodes, hl, hb⟩
    rw [hl]
    refine ⟨_, rfl, ?_⟩
    exact ((List.perm_insertionSort _ nodes).map _).mem_iff.2 hb

/-- The simple pools of a snapshot have the tokens of its pools. -/
theorem simplePoolsOf_tokens (BaseAmplifier : Nat) :
    ∀ (states : PoolPairStates) (sps : List SimplePoolNodeData),
      simplePoolsOf BaseAmplifier states = .ok sps →
      sps.map (fun sp => (sp.Token0ID, sp.Token1ID)) =
        states.map (fun e => (e.2.State.Token0ID, e.2.State.Token1ID)) := by
  intro states
  induction states with
  | nil =>
    intro sps h
    simp only [simplePoolsOf, Result.ok.injEq] at h
    subst h; rfl
  | cons e rest ih =>
    intro sps h
    simp only [simplePoolsOf] at h
    cases h1 : simplePoolOf BaseAmplifier e.2 with
    | ok sp =>
      rw [h1] at h
      simp only [Result.bind] at h
      cases h2 : simplePoolsOf BaseAmplifier rest with
      | ok sps1 =>
        rw [h2] at h
        simp only [Result.ok.injEq] at h
        subst h
        simp only [List.map_cons, ih sps1 h2, List.cons.injEq, and_true]
        simp only [simplePoolOf] at h1
        split at h1
        · simp at h1
        · simp only [Result.ok.injEq] at h1
          subst h1; rfl
      | err x => rw [h2] at h; simp at h
      | crash x => rw [h2] at h; simp at h
      | outOfFuel => rw [h2] at h; simp at h
    | err x => rw [h1] at h; simp [Result.bind] at h
    | crash x => rw [h1] at h; simp [Result.bind] at h
    | outOfFuel => rw [h1] at h; simp [Result.bind] at h

/-- The simple pools of a snapshot without a zero amplifier. -/
theorem simplePoolsOf_ok (BaseAmplifier : Nat) :
    ∀ states : PoolPairStates, (∀ e ∈ states, e.2.State.Amplifier % uint64Bound ≠ 0) →
      ∃ sps, simplePoolsOf BaseAmplifier states = .ok sps := by
  intro states
  induction states with
  | nil => intro _; exact ⟨[], rfl⟩
  | cons e rest ih =>
    intro h
    obtain ⟨sps, hs⟩ := ih (fun x hx => h x (List.mem_cons_of_mem _ hx))
    have he := h e (List.mem_cons_self _ _)
    simp only [simplePoolsOf, simplePoolOf, he, if_false, Result.bind, hs]
    exact ⟨_, rfl⟩

/-- The pairs of tokens joined by a simple pool are those joined by a pool of the
snapshot. -/
theorem poolEdge_iff (BaseAmplifier : Nat) (states : PoolPairStates)
    (sps : List SimplePoolNodeData) (h : simplePoolsOf BaseAmplifier states = .ok sps)
    (a b : String) : PoolEdge sps a b ↔ ∃ e ∈ states, Connects e.2.State a b := by
  have ht := simplePoolsOf_tokens BaseAmplifier states sps h
  constructor
  · rintro ⟨sp, hsp, hc⟩
    have : (sp.Token0ID, sp.Token1ID) ∈ sps.map (fun sp => (sp.Token0ID, sp.Token1ID)) :=
      List.mem_map_of_mem _ hsp
    rw [ht] at this
    obtain ⟨e, he, heq⟩ := List.mem_map.1 this
    simp only [Prod.mk.injEq] at heq
    refine ⟨e, he, ?_⟩
    unfold Connects
    rw [heq.1, heq.2]
    exact hc
  · rintro ⟨e, he, hc⟩
    have : (e.2.State.Token0ID, e.2.State.Token1ID) ∈
        states.map (fun e => (e.2.State.Token0ID, e.2.State.Token1ID)) :=
      List.mem_map_of_mem _ he
    rw [← ht] at this
    obtain ⟨sp, hsp, heq⟩ := List.mem_map.1 this
    simp only [Prod.mk.injEq] at heq
    refine ⟨sp, hsp, ?_⟩
    rw [heq.1, heq.2]
    exact hc

/-- The edges of the graph built from a snapshot join the tokens joined by a pool of the
snapshot. -/
theorem buildGraph_edge_states (BaseAmplifier : Nat) (states : PoolPairStates)
    (sps : List SimplePoolNodeData) (h : simplePoolsOf BaseAmplifier states = .ok sps)
    (a b : String) :
    hasEdge (buildGraph sps) a b = true ↔ ∃ e ∈ states, Connects e.2.State a b := by
  rw [buildGraph_edge, poolEdge_iff BaseAmplifier states sps h]

/-- Two pairs of tokens joined by the same pool are the same pair, in either order. -/
theorem connects_pair (pool : Pdexv3PoolPair) (x y a b : String) (h1 : Connects pool x y)
    (h2 : Connects pool a b) : (a = x ∧ b = y) ∨ (a = y ∧ b = x) := by
  rcases h1 with ⟨hx, hy⟩ | ⟨hx, hy⟩ <;> rcases h2 with ⟨ha, hb⟩ | ⟨ha, hb⟩
  · exact Or.inl ⟨ha.trans hx.symm, hb.trans hy.symm⟩
  · exact Or.inr ⟨ha.trans hy.symm, hb.trans hx.symm⟩
  · exact Or.inr ⟨ha.trans hy.symm, hb.trans hx.symm⟩
  · exact Or.inl ⟨ha.trans hx.symm, hb.trans hy.symm⟩

/-! ## Snapshots with a single route -/

/-- The search finds a path when a route leads from the current token to the
destination over tokens that are not visited, within the length allowed and with the
cap on the number of paths at least one. -/
theorem findPath_finds (MaxPaths : Nat) (graph : Graph) (maxLen : Int) (dest : String)
    (hM : 1 ≤ MaxPaths) :
    ∀ (rest : List String) (fuel : Nat) (source : String) (visited path : List String)
      (acc : List (List String)),
      (source :: rest).getLast? = some dest →
      (source :: rest).Chain' (fun a b => hasEdge graph a b = true) →
      (source :: rest).Nodup → (∀ x ∈ source :: rest, x ∉ visited) →
      (path.length : Int) + (rest.length + 1) ≤ maxLen → rest.length + 1 ≤ fuel →
      findPath MaxPaths graph maxLen dest fuel source visited path acc ≠ [] := by
  intro rest
  induction rest with
  | nil =>
    intro fuel source visited path acc hlast _ _ _ _ hfuel
    obtain ⟨f, rfl⟩ : ∃ f, fuel = f + 1 := ⟨fuel - 1, by simp at hfuel; omega⟩
    have hsd : source = dest := by simpa using hlast
    simp only [findPath]
    split
    · rename_i hcap
      intro hnil
      rw [hnil] at hcap
      simp at hcap
      omega
    · simp
  | cons n rest ih =>
    intro fuel source visited path acc hlast hch hnd hvis hlen hfuel
    obtain ⟨f, rfl⟩ : ∃ f, fuel = f + 1 := ⟨fuel - 1, by simp at hfuel; omega⟩
    simp only [List.length_cons] at hfuel
    have hedge : hasEdge graph source n = true := (List.chain'_cons.1 hch).1
    have hch2 := (List.chain'_cons.1 hch).2
    have hnd2 := (List.nodup_cons.1 hnd).2
    have hsn : source ∉ n :: rest := (List.nodup_cons.1 hnd).1
    have hlast2 : (n :: rest).getLast? = some dest := by
      rw [← hlast]; simp [List.getLast?_cons_cons]
    obtain ⟨nodes, hl, hn⟩ := (hasEdge_iff graph source n).1 hedge
    simp only [findPath]
    split
    · rename_i hcap
      intro hnil
      rw [hnil] at hcap
      simp at hcap
      omega
    split
    · simp
    split
    · rw [hl]
      simp only
      have key : ∀ (ns : List Node) (acc : List (List String)),
          (acc ≠ [] ∨ n ∈ ns.map Node.TokenIDStr) →
          ns.foldl (fun acc node =>
            if node.TokenIDStr ∈ source :: visited then acc
            else findPath MaxPaths graph maxLen dest f node.TokenIDStr
              (source :: visited) (path ++ [source]) acc) acc ≠ [] := by
        intro ns
        induction ns with
        | nil =>
          intro acc h
          rcases h with h | h
          · simpa using h
          · simp at h
        | cons m ns ihn =>
          intro acc h
          simp only [List.foldl_cons]
          apply ihn
          by_cases hacc : acc = []
          · rcases h with h | h
            · exact absurd hacc h
            · simp only [List.map_cons, List.mem_cons] at h
              rcases h with h | h
              · left
                have hmv : m.TokenIDStr ∉ source :: visited := by
                  rw [← h]
                  intro hmem
                  rcases List.mem_cons.1 hmem with h1 | h1
                  · exact hsn (by rw [h1]; exact List.mem_cons_self _ _)
                  · exact hvis n (by simp) h1
                rw [if_neg hmv, ← h]
                apply ih f n (source :: visited) (path ++ [source]) acc hlast2 hch2 hnd2
                · intro x hx hmem
                  rcases List.mem_cons.1 hmem with h1 | h1
                  · exact hsn (by rw [← h1]; exact hx)
                  · exact hvis x (List.mem_cons_of_mem _ hx) h1
                · simp only [List.length_append, List.length_singleton, List.length_cons,
                    List.length_nil] at hlen ⊢
                  push_cast at hlen ⊢
                  omega
                · omega
              · exact Or.inr h
          · left
            split
            · exact hacc
            · intro hnil
              obtain ⟨found, hp⟩ := findPath_extends MaxPaths graph maxLen dest f m.TokenIDStr
                (source :: visited) (path ++ [source]) acc
              rw [hnil] at hp
              exact hacc (List.append_eq_nil.1 hp.symm).1
      exact key nodes acc (Or.inr hn)
    · rename_i hlt
      exfalso
      apply hlt
      simp only [List.length_append, List.length_singleton, List.length_cons,
                    List.length_nil] at hlen ⊢
      push_cast at hlen ⊢
      omega

/-- The conversion `int(x)` of a `uint` below `2^63` is the number itself. -/
theorem intOfUint_small (n : Nat) (h : n < 2 ^ 63) : intOfUint n = n := by
  unfold intOfUint uint64Bound
  have : n % 2 ^ 64 = n := Nat.mod_eq_of_lt (by omega)
  rw [this, if_pos h]

/-- When the graph has a route from the source to the destination and every route is
that one, `findPaths` returns that route, at least once, and nothing else. -/
theorem findPaths_unique_route (MaxPaths n : Nat) (simplePools : List SimplePoolNodeData)
    (source dest : String) (q : List String) (hM : 1 ≤ MaxPaths) (hn : n < 2 ^ 63)
    (hq : IsRoute (buildGraph simplePools) n source dest q) (hq2 : q.length ≤ n)
    (huniq : ∀ p, IsRoute (buildGraph simplePools) n source dest p → p = q) :
    findPaths MaxPaths n simplePools source dest ≠ [] ∧
      ∀ p ∈ findPaths MaxPaths n simplePools source dest, p = q := by
  have hint := intOfUint_small n hn
  constructor
  · obtain ⟨h1, h2, h3, h4, -⟩ := hq
    cases q with
    | nil => simp at h1
    | cons a rest =>
      simp only [List.head?_cons, Option.some.injEq] at h1
      subst h1
      unfold findPaths
      rw [hint]
      apply findPath_finds MaxPaths _ _ dest hM rest _ a [] [] [] h2 h4 h3 (by simp)
      · simp only [List.length_cons] at hq2
        simp only [List.length_nil]
        push_cast
        omega
      · simp only [List.length_cons] at hq2
        omega
  · intro p hp
    apply huniq
    have := findPath_sound MaxPaths (buildGraph simplePools) (intOfUint n) dest
      source _ source [] [] [] (by simp) (by simp) (by simp) (by simp) (by simp) (by simp) p hp
    rw [hint] at this
    exact this

/-- The selection over copies of one path whose walk has at least one hop: the walk is
kept when it yields a positive amount. -/
theorem selectPath_copies (M : MatchingPrimitive) (fuel : Nat) (states : PoolPairStates)
    (sellAmt : Nat) (q : List String) (w : List (Option Pdexv3PoolPair) × List String × Nat)
    (hw : walkPath M fuel states q sellAmt [] [] = .ok w) (hlen : w.1.length ≠ 0) :
    ∀ l : List (List String), l ≠ [] → (∀ p ∈ l, p = q) →
      selectPath M fuel states sellAmt l = .ok (if 0 < w.2.2 then w else ([], [], 0)) := by
  have hstep : ∀ c, selectStep M fuel states sellAmt (.ok c) q = .ok (keepBetter c w) := by
    intro c
    simp [selectStep, Result.bind, hw]
  have hk0 : keepBetter ([], [], 0) w = if 0 < w.2.2 then w else ([], [], 0) := by
    simp only [keepBetter, hlen, false_or, gt_iff_lt]
  have hk1 : keepBetter (if 0 < w.2.2 then w else ([], [], 0)) w
      = if 0 < w.2.2 then w else ([], [], 0) := by
    by_cases h : 0 < w.2.2
    · simp [keepBetter, h]
    · simp [keepBetter, h, hlen]
  have key : ∀ l : List (List String), (∀ p ∈ l, p = q) →
      l.foldl (selectStep M fuel states sellAmt) (.ok (if 0 < w.2.2 then w else ([], [], 0)))
        = .ok (if 0 < w.2.2 then w else ([], [], 0)) := by
    intro l
    induction l with
    | nil => intro _; rfl
    | cons p l ih =>
      intro h
      simp only [List.foldl_cons]
      rw [h p (List.mem_cons_self _ _), hstep, hk1]
      exact ih (fun x hx => h x (List.mem_cons_of_mem _ hx))
  intro l hne hall
  cases l with
  | nil => exact absurd rfl hne
  | cons p l =>
    unfold selectPath
    simp only [List.foldl_cons]
    rw [hall p (List.mem_cons_self _ _), hstep, hk0]
    exact key l (fun x hx => hall x (List.mem_cons_of_mem _ hx))

/-- When the graph of the snapshot has one route between two different tokens,
`FindGoodTradePath` returns the walk of that route when it yields a positive amount, and
no pools and no identifiers otherwise. -/
theorem FindGoodTradePath_unique_route (M : MatchingPrimitive)
    (fuel MaxPaths BaseAmplifier maxPathLen : Nat) (states : PoolPairStates)
    (source dest : String) (sellAmt : Nat) (sps : List SimplePoolNodeData) (q : List String)
    (w : List (Option Pdexv3PoolPair) × List String × Nat)
    (hsp : simplePoolsOf BaseAmplifier states = .ok sps) (hM : 1 ≤ MaxPaths)
    (hn : (maxPathLen + 1) % uint64Bound < 2 ^ 63) (hsd : source ≠ dest)
    (hq : IsRoute (buildGraph sps) ((maxPathLen + 1) % uint64Bound : Nat) source dest q)
    (hq2 : q.length ≤ (maxPathLen + 1) % uint64Bound)
    (huniq : ∀ p, IsRoute (buildGraph sps) ((maxPathLen + 1) % uint64Bound : Nat) source dest p
      → p = q)
    (hw : walkPath M fuel states q sellAmt [] [] = .ok w) :
    FindGoodTradePath M fuel MaxPaths BaseAmplifier maxPathLen states source dest sellAmt =
      .ok (if 0 < w.2.2 then w else ([], [], 0)) := by
  obtain ⟨hne, hall⟩ := findPaths_unique_route MaxPaths _ sps source dest q hM hn hq hq2 huniq
  obtain ⟨p, hp⟩ := List.exists_mem_of_ne_nil _ hne
  have hqlen := findPaths_length MaxPaths _ sps source dest hsd p hp
  rw [hall p hp] at hqlen
  have hwlen := walkPath_length M fuel states q sellAmt [] [] w hw
  unfold FindGoodTradePath
  rw [hsp]
  simp only [Result.bind]
  rw [if_neg (by rw [List.length_eq_zero]; exact hne)]
  apply selectPath_copies M fuel states sellAmt q w hw _ _ hne hall
  rw [hwlen]
  simp only [List.length_nil]
  omega

/-- C22 as stated fails for sell amounts that the pool does not turn into a positive
output: for the single pool of 1,000,000 / 1,000,000 and a sell amount of 1, `BuyAmount`
is `0` and no path is returned; for the single amplified pool with real reserves 10 / 10
and a sell amount of 500, `BuyAmount` is 333, more than the pool holds, and no path is
returned, with the amount `0`. -/
theorem FindGoodTradePath_direct_fails :
    BuyAmount poolXY 1 TradeDirectionSell0 = .ok 0 ∧
      FindGoodTradePath noMatching 1 20 10000 3 singleState "X" "Y" 1 = .ok ([], [], 0) ∧
      BuyAmount ⟨"X", "Y", 10, 10, 1000, 1000, 100⟩ 500 TradeDirectionSell0 = .ok 333 ∧
      FindGoodTradePath noMatching 1 20 10000 3 amplifiedState "X" "Y" 500
        = .ok ([], [], 0) := by
  decide

/-- C22, amended: in a snapshot (a map without a zero amplifier) in which exactly one
pool `P`, with an empty order book, joins source and destination and `[source, dest]` is
the only route between them, for every `maxPathLen` with `1 ≤ maxPathLen` and
`maxPathLen + 1 < 2^63` and a cap on the number of paths of at least one:
when `BuyAmount(sellAmount, direction)` on `P` is a positive amount that the real reserve
of the bought token covers (and the real reserve of the sold token plus the sell amount
fits in 64 bits), `FindGoodTradePath` returns exactly the path `[id of P]`, the pool `P`
and that amount; when the swap in `P` is rejected, it returns no path and the
amount `0`. -/
theorem FindGoodTradePath_direct (M : MatchingPrimitive)
    (fuel MaxPaths BaseAmplifier maxPathLen : Nat) (states : PoolPairStates)
    (source dest : String) (sellAmt : Nat) (id : String) (st : Pdexv3PoolPairState)
    (hk : (states.map Prod.fst).Nodup)
    (hamp : ∀ e ∈ states, e.2.State.Amplifier % uint64Bound ≠ 0)
    (hM : 1 ≤ MaxPaths) (hl1 : 1 ≤ maxPathLen) (hl2 : maxPathLen + 1 < 2 ^ 63)
    (hP : (id, st) ∈ states) (hob : st.Orderbook = [])
    (hcon : Connects st.State source dest)
    (huniq : ∀ e ∈ states, Connects e.2.State source dest → e = (id, st))
    (hR : ∀ p : List String, p.head? = some source → p.getLast? = some dest → p.Nodup →
      p.Chain' (fun a b => ∃ e ∈ states, Connects e.2.State a b) → p = [source, dest]) :
    (∀ b, BuyAmount st.State sellAmt (hopDirection st.State source) = .ok b → 0 < b →
      b ≤ (if hopDirection st.State source = TradeDirectionSell0
        then st.State.Token1RealAmount else st.State.Token0RealAmount) →
      (if hopDirection st.State source = TradeDirectionSell0
        then st.State.Token0RealAmount else st.State.Token1RealAmount) + sellAmt
          < uint64Bound →
      (if hopDirection st.State source = TradeDirectionSell0
        then st.State.Token1RealAmount else st.State.Token0RealAmount) < uint64Bound →
      FindGoodTradePath M (fuel + 1) MaxPaths BaseAmplifier maxPathLen states source dest
        sellAmt = .ok ([some st.State], [id], b)) ∧
    (∀ e, (SwapToReachOrderRate st.State sellAmt (hopDirection st.State source) none).2
        = .err e →
      FindGoodTradePath M (fuel + 1) MaxPaths BaseAmplifier maxPathLen states source dest
        sellAmt = .ok ([], [], 0)) := by
  have hsd : source ≠ dest := by
    intro heq
    have := hR [source] rfl (by simp [heq]) (List.nodup_singleton _) (List.chain'_singleton _)
    simp at this
  obtain ⟨sps, hsp⟩ := simplePoolsOf_ok BaseAmplifier states hamp
  have hmod : (maxPathLen + 1) % uint64Bound = maxPathLen + 1 :=
    Nat.mod_eq_of_lt (by unfold uint64Bound; omega)
  have hedge := buildGraph_edge_states BaseAmplifier states sps hsp
  have hq : IsRoute (buildGraph sps) ((maxPathLen + 1) % uint64Bound : Nat) source dest
      [source, dest] := by
    refine ⟨rfl, rfl, by simp [hsd], ?_, ?_⟩
    · simp only [List.chain'_cons, List.chain'_singleton, and_true]
      exact (hedge source dest).2 ⟨(id, st), hP, hcon⟩
    · rw [hmod]
      simp only [List.length_cons, List.length_nil]
      push_cast
      have : (2 : Int) ≤ (maxPathLen : Int) + 1 := by omega
      exact le_trans this (le_max_right _ _)
  have hun : ∀ p, IsRoute (buildGraph sps) ((maxPathLen + 1) % uint64Bound : Nat) source dest p
      → p = [source, dest] := by
    rintro p ⟨h1, h2, h3, h4, -⟩
    exact hR p h1 h2 h3 (h4.imp fun {a b} h => (hedge a b).1 h)
  have hl := lookup_of_mem states (id, st) hk hP
  obtain ⟨t1, t2⟩ := trade_empty M fuel states id source dest st sellAmt hl hob hcon hsd
  have hfin : ∀ v, trade M (fuel + 1) id states dest sellAmt = .ok v →
      FindGoodTradePath M (fuel + 1) MaxPaths BaseAmplifier maxPathLen states source dest
        sellAmt = .ok (if 0 < v then ([some st.State], [id], v) else ([], [], 0)) := by
    intro v hv
    have hch := chooseBestPoolFromAPair_unique M (fuel + 1) states source dest sellAmt v
      (id, st) hP hcon huniq hv
    have hw : walkPath M (fuel + 1) states [source, dest] sellAmt [] [] =
        .ok (if 0 < v then ([some st.State], [id], v) else ([none], [""], 0)) := by
      simp only [walkPath, hch, Result.bind]
      split <;> rfl
    rw [FindGoodTradePath_unique_route M (fuel + 1) MaxPaths BaseAmplifier maxPathLen states
      source dest sellAmt sps [source, dest] _ hsp hM (by rw [hmod]; exact hl2) hsd hq
      (by rw [hmod]; simp only [List.length_cons, List.length_nil]; omega) hun hw]
    by_cases h0 : 0 < v
    · simp [h0]
    · simp [h0]
  constructor
  · intro b hb hpos hout hin hrange
    have hsell := (BuyAmount_ok_pos st.State sellAmt _ b hb).1
    have hnl : HasInsufficientLiquidity st.State = false := by
      have h2 := (BuyAmount_ok_pos st.State sellAmt _ b hb).2
      simp only [HasInsufficientLiquidity, Bool.or_eq_false_iff, decide_eq_false_iff_not]
      omega
    obtain ⟨tp1, c0, c1, hA⟩ := applySwap_succeeds st.State (hopDirection st.State source)
      sellAmt 0 b hsell hpos hout hin hrange
    have hS : SwapToReachOrderRate st.State sellAmt (hopDirection st.State source) none
        = (tp1, .ok (b, 0, c0, c1)) := by
      rw [SwapToReachOrderRate_none, hnl, hb]
      simpa using hA
    rw [hfin b (t1 tp1 b 0 c0 c1 hS), if_pos hpos]
  · intro e he
    rw [hfin 0 (t2 e he)]
    simp

/-- Witness of the amended C22: selling 1000 of `X` in the single pool `X-Y` of
1,000,000 / 1,000,000 returns the path `[p1]` and the amount 999 of `BuyAmount`. -/
theorem FindGoodTradePath_direct_witness :
    BuyAmount poolXY 1000 TradeDirectionSell0 = .ok 999 ∧
      FindGoodTradePath noMatching (0 + 1) 20 10000 3 singleState "X" "Y" 1000
        = .ok ([some poolXY], ["p1"], 999) :=
  ⟨by decide,
    (FindGoodTradePath_direct noMatching 0 20 10000 3 singleState "X" "Y" 1000 "p1"
      ⟨poolXY, []⟩ (by decide) (by decide) (by decide) (by decide) (by decide) (by decide)
      rfl (by decide) (by decide)
      (by
        intro p h1 h2 h3 h4
        match p, h1, h2, h3, h4 with
        | [a], h1, h2, _, _ =>
          simp only [List.head?_cons, Option.some.injEq] at h1
          simp only [List.getLast?_singleton, Option.some.injEq] at h2
          rw [h1] at h2
          exact absurd h2 (by decide)
        | a :: b :: rest, h1, h2, h3, h4 =>
          simp only [List.head?_cons, Option.some.injEq] at h1
          subst h1
          have hab := (List.chain'_cons.1 h4).1
          have hb : b = "Y" := by
            obtain ⟨e, he, hc⟩ := hab
            simp only [singleState, List.mem_singleton] at he
            subst he
            rcases hc with ⟨-, h⟩ | ⟨h, -⟩
            · exact h
            · exact absurd h (by decide)
          subst hb
          cases rest with
          | nil => rfl
          | cons c rest =>
            exfalso
            have hbc := (List.chain'_cons.1 (List.chain'_cons.1 h4).2).1
            obtain ⟨e, he, hc⟩ := hbc
            simp only [singleState, List.mem_singleton] at he
            subst he
            rcases hc with ⟨h, -⟩ | ⟨-, h⟩
            · exact absurd h (by decide)
            · subst h
              simp only [List.nodup_cons, List.mem_cons, not_or] at h3
              exact h3.1.2.1 rfl)).1 999 (by decide) (by decide) (by decide) (by decide) (by decide)⟩

/-- C23 as stated fails for sell amounts that the two hops do not turn into a positive
output: for the sample snapshot (pools `X-Y` and `Y-Z`, no pool `X-Z`) and a sell amount
of 1, the walk of `[X, Y, Z]` yields `0` and `FindGoodTradePath` returns no path. -/
theorem FindGoodTradePath_two_hops_fails :
    walkPath noMatching 1 sampleStates ["X", "Y", "Z"] 1 [] []
        = .ok ([none, none], ["", ""], 0) ∧
      FindGoodTradePath noMatching 1 20 10000 3 sampleStates "X" "Z" 1 = .ok ([], [], 0) := by
  decide

/-- C23, amended: for a snapshot (without a zero amplifier) that consists of a pool
joining `X` and `Y` and a pool joining `Y` and `Z`, on three distinct tokens, with a cap
on the number of paths of at least one, when the simulation of the first hop returns `r1`
and the simulation of the second hop, selling `r1`, returns `r2`, then
`FindGoodTradePath(maxPathLen = 3, X, Z, amount)` returns the two pools, the path
`[id of the X-Y pool, id of the Y-Z pool]` and the amount `r2` when `r2` is positive, and
no pools, no path and the amount `0` when `r2 = 0`. -/
theorem FindGoodTradePath_two_hops (M : MatchingPrimitive) (fuel MaxPaths BaseAmplifier : Nat)
    (states : PoolPairStates) (X Y Z : String) (sellAmt : Nat)
    (e1 e2 : String × Pdexv3PoolPairState) (r1 r2 : Nat)
    (hamp : ∀ e ∈ states, e.2.State.Amplifier % uint64Bound ≠ 0) (hM : 1 ≤ MaxPaths)
    (hmem : ∀ e, e ∈ states ↔ e = e1 ∨ e = e2)
    (hXY : X ≠ Y) (hYZ : Y ≠ Z) (hXZ : X ≠ Z)
    (hc1 : Connects e1.2.State X Y) (hc2 : Connects e2.2.State Y Z)
    (ht1 : trade M fuel e1.1 states Y sellAmt = .ok r1)
    (ht2 : trade M fuel e2.1 states Z r1 = .ok r2) :
    FindGoodTradePath M fuel MaxPaths BaseAmplifier 3 states X Z sellAmt =
      .ok (if 0 < r2 then ([some e1.2.State, some e2.2.State], [e1.1, e2.1], r2)
        else ([], [], 0)) := by
  obtain ⟨sps, hsp⟩ := simplePoolsOf_ok BaseAmplifier states hamp
  have hmod : (3 + 1) % uint64Bound = 4 := by decide
  have hedge := buildGraph_edge_states BaseAmplifier states sps hsp
  have he1 : e1 ∈ states := (hmem e1).2 (Or.inl rfl)
  have he2 : e2 ∈ states := (hmem e2).2 (Or.inr rfl)
  have hedges : ∀ a b, hasEdge (buildGraph sps) a b = true →
      (a = X ∧ b = Y) ∨ (a = Y ∧ b = X) ∨ (a = Y ∧ b = Z) ∨ (a = Z ∧ b = Y) := by
    intro a b h
    obtain ⟨e, he, hc⟩ := (hedge a b).1 h
    rcases (hmem e).1 he with h1 | h1
    · subst h1
      rcases connects_pair _ X Y a b hc1 hc with h | h
      · exact Or.inl h
      · exact Or.inr (Or.inl h)
    · subst h1
      rcases connects_pair _ Y Z a b hc2 hc with h | h
      · exact Or.inr (Or.inr (Or.inl h))
      · exact Or.inr (Or.inr (Or.inr h))
  have hq : IsRoute (buildGraph sps) ((3 + 1) % uint64Bound : Nat) X Z [X, Y, Z] := by
    refine ⟨rfl, rfl, by simp [hXY, hYZ, hXZ], ?_, ?_⟩
    · simp only [List.chain'_cons, List.chain'_singleton, and_true]
      exact ⟨(hedge X Y).2 ⟨e1, he1, hc1⟩, (hedge Y Z).2 ⟨e2, he2, hc2⟩⟩
    · rw [hmod]
      simp
  have hun : ∀ p, IsRoute (buildGraph sps) ((3 + 1) % uint64Bound : Nat) X Z p
      → p = [X, Y, Z] := by
    rintro p ⟨h1, h2, h3, h4, -⟩
    match p, h1, h2, h3, h4 with
    | [a], h1, h2, _, _ =>
      simp only [List.head?_cons, Option.some.injEq] at h1
      simp only [List.getLast?_singleton, Option.some.injEq] at h2
      exact absurd (h1.symm.trans h2) hXZ
    | [a, b], h1, h2, _, h4 =>
      simp only [List.head?_cons, Option.some.injEq] at h1
      simp only [List.getLast?_cons_cons, List.getLast?_singleton, Option.some.injEq] at h2
      subst h1; subst h2
      have := hedges _ _ (List.chain'_cons.1 h4).1
      rcases this with ⟨-, h⟩ | ⟨h, -⟩ | ⟨h, -⟩ | ⟨h, -⟩
      · exact absurd h.symm hYZ
      · exact absurd h hXY
      · exact absurd h hXY
      · exact absurd h hXZ
    | a :: b :: c :: rest, h1, h2, h3, h4 =>
      simp only [List.head?_cons, Option.some.injEq] at h1
      subst h1
      have hab := hedges _ _ (List.chain'_cons.1 h4).1
      have hb : b = Y := by
        rcases hab with ⟨-, h⟩ | ⟨h, -⟩ | ⟨h, -⟩ | ⟨h, -⟩
        · exact h
        · exact absurd h hXY
        · exact absurd h hXY
        · exact absurd h hXZ
      subst hb
      have h4b := (List.chain'_cons.1 h4).2
      have hbc := hedges _ _ (List.chain'_cons.1 h4b).1
      simp only [List.nodup_cons, List.mem_cons, not_or] at h3
      have hc : c = Z := by
        rcases hbc with ⟨h, -⟩ | ⟨-, h⟩ | ⟨-, h⟩ | ⟨h, -⟩
        · exact absurd h.symm hXY
        · exact absurd h.symm h3.1.2.1
        · exact h
        · exact absurd h hYZ
      subst hc
      cases rest with
      | nil => rfl
      | cons d rest =>
        exfalso
        have hcd := hedges _ _ (List.chain'_cons.1 (List.chain'_cons.1 h4b).2).1
        simp only [List.mem_cons, not_or] at h3
        rcases hcd with ⟨h, -⟩ | ⟨h, -⟩ | ⟨h, -⟩ | ⟨-, h⟩
        · exact hXZ h.symm
        · exact hYZ h.symm
        · exact hYZ h.symm
        · exact h3.2.1.2.1 h.symm
  have hu1 : ∀ e ∈ states, Connects e.2.State X Y → e = e1 := by
    intro e he hc
    rcases (hmem e).1 he with h | h
    · exact h
    · subst h
      rcases connects_pair _ Y Z X Y hc2 hc with ⟨h, -⟩ | ⟨h, -⟩
      · exact absurd h hXY
      · exact absurd h hXZ
  have hu2 : ∀ e ∈ states, Connects e.2.State Y Z → e = e2 := by
    intro e he hc
    rcases (hmem e).1 he with h | h
    · subst h
      rcases connects_pair _ X Y Y Z hc1 hc with ⟨-, h⟩ | ⟨-, h⟩
      · exact absurd h.symm hYZ
      · exact absurd h.symm hXZ
    · exact h
  have hch1 := chooseBestPoolFromAPair_unique M fuel states X Y sellAmt r1 e1 he1 hc1 hu1 ht1
  have hr1 : (if 0 < r1 then (some e1.2.State, e1.1, r1)
      else ((none : Option Pdexv3PoolPair), "", 0)).2.2 = r1 := by
    split
    · rfl
    · simp only; omega
  have hch2 := chooseBestPoolFromAPair_unique M fuel states Y Z r1 r2 e2 he2 hc2 hu2 ht2
  have hw : walkPath M fuel states [X, Y, Z] sellAmt [] [] =
      .ok ([(if 0 < r1 then (some e1.2.State, e1.1, r1)
              else ((none : Option Pdexv3PoolPair), "", 0)).1,
            (if 0 < r2 then (some e2.2.State, e2.1, r2)
              else ((none : Option Pdexv3PoolPair), "", 0)).1],
          [(if 0 < r1 then (some e1.2.State, e1.1, r1)
              else ((none : Option Pdexv3PoolPair), "", 0)).2.1,
            (if 0 < r2 then (some e2.2.State, e2.1, r2)
              else ((none : Option Pdexv3PoolPair), "", 0)).2.1],
          (if 0 < r2 then (some e2.2.State, e2.1, r2)
              else ((none : Option Pdexv3PoolPair), "", 0)).2.2) := by
    simp only [walkPath, hch1, Result.bind, hr1, hch2, List.nil_append, List.cons_append]
  rw [FindGoodTradePath_unique_route M fuel MaxPaths BaseAmplifier 3 states X Z sellAmt sps
    [X, Y, Z] _ hsp hM (by rw [hmod]; decide) hXZ hq (by rw [hmod]; simp) hun hw]
  by_cases h2 : 0 < r2
  · have h1 : 0 < r1 := by
      by_contra hn
      have h0 : r1 = 0 := by omega
      rw [h0] at ht2
      have := trade_zero M fuel states e2.1 Z r2 ht2
      omega
    simp [h1, h2]
  · simp [h2]

/-- Witness of the amended C23 on the sample snapshot: selling 1000 of `X` for `Z`
returns the path `p1, p2` and the amount 1996. -/
theorem FindGoodTradePath_two_hops_witness :
    FindGoodTradePath noMatching 1 20 10000 3 sampleStates "X" "Z" 1000 =
      .ok (if 0 < 1996 then ([some poolXY, some poolYZ], ["p1", "p2"], 1996)
        else ([], [], 0)) :=
  FindGoodTradePath_two_hops noMatching 1 20 10000 sampleStates "X" "Y" "Z" 1000
    ("p1", ⟨poolXY, []⟩) ("p2", ⟨poolYZ, []⟩) 999 1996 (by decide) (by decide)
    (by intro e; simp [sampleStates]) (by decide) (by decide) (by decide) (by decide)
    (by decide) (by decide) (by decide)

/-! ## The order of enumeration of the snapshot -/

/-- C25 does not hold of the code: the output of `chooseBestPoolFromAPair` and of
`FindGoodTradePath` depends on the order in which the entries of the snapshot are
enumerated.  For the two twin pools joining `X` and `Y`, whose simulated outputs tie, the
pool enumerated first is returned: `p1` in one order of enumeration, `p3` in the other. -/
theorem FindGoodTradePath_order_dependent :
    twinStatesSwapped = twinStates.reverse ∧
      chooseBestPoolFromAPair noMatching 1 twinStates "X" "Y" 1000
        = .ok (some poolXY, "p1", 999) ∧
      chooseBestPoolFromAPair noMatching 1 twinStatesSwapped "X" "Y" 1000
        = .ok (some poolXY, "p3", 999) ∧
      FindGoodTradePath noMatching 1 20 10000 3 twinStates "X" "Y" 1000
        = .ok ([some poolXY], ["p1"], 999) ∧
      FindGoodTradePath noMatching 1 20 10000 3 twinStatesSwapped "X" "Y" 1000
        = .ok ([some poolXY], ["p3"], 999) := by
  decide

/-! ## The path returned -/

/-- The selection returns when every walk returns. -/
theorem selectPath_returns (M : MatchingPrimitive) (fuel : Nat) (states : PoolPairStates)
    (sellAmt : Nat)
    (hw : ∀ p, ∃ w, walkPath M fuel states p sellAmt [] [] = .ok w) :
    ∀ (l : List (List String)) (c : List (Option Pdexv3PoolPair) × List String × Nat),
      ∃ c1, l.foldl (selectStep M fuel states sellAmt) (.ok c) = .ok c1 := by
  intro l
  induction l with
  | nil => intro c; exact ⟨c, rfl⟩
  | cons p l ih =>
    intro c
    obtain ⟨w, hww⟩ := hw p
    simp only [List.foldl_cons]
    have : selectStep M fuel states sellAmt (.ok c) p = .ok (keepBetter c w) := by
      simp [selectStep, Result.bind, hww]
    rw [this]
    exact ih _

/-- For a snapshot without a zero amplifier whose pools have empty order books and
non-negative virtual reserves, `FindGoodTradePath` returns, with one iteration allowed
for the loop of each hop. -/
theorem FindGoodTradePath_returns (M : MatchingPrimitive)
    (fuel MaxPaths BaseAmplifier maxPathLen : Nat) (states : PoolPairStates)
    (source dest : String) (sellAmt : Nat)
    (h : ∀ e ∈ states, e.2.State.Amplifier % uint64Bound ≠ 0 ∧ e.2.Orderbook = [] ∧
      0 ≤ e.2.State.Token0VirtualAmount ∧ 0 ≤ e.2.State.Token1VirtualAmount) :
    ∃ res, FindGoodTradePath M (fuel + 1) MaxPaths BaseAmplifier maxPathLen states source dest
      sellAmt = .ok res := by
  obtain ⟨sps, hsp⟩ := simplePoolsOf_ok BaseAmplifier states (fun e he => (h e he).1)
  have hc : ∀ a b s, ∃ c, chooseBestPoolFromAPair M (fuel + 1) states a b s = .ok c := by
    intro a b s
    rw [chooseBestPoolFromAPair_eq]
    apply foldl_chooseStep_total
    intro e he _
    obtain ⟨st, hl⟩ := lookup_some_of_mem states e he
    obtain ⟨-, h2, h3, h4⟩ := h (e.1, st) (mem_of_lookup states e.1 st hl)
    exact trade_returns M fuel states e.1 b st s hl h2 h3 h4
  have hw := fun p => walkPath_returns M (fuel + 1) states hc p sellAmt [] []
  unfold FindGoodTradePath
  rw [hsp]
  simp only [Result.bind]
  split
  · exact ⟨_, rfl⟩
  · exact selectPath_returns M (fuel + 1) states sellAmt hw _ _

/-- What `FindGoodTradePath` returns: either no pools and no identifiers (with the amount
`0`, or with the amount sold from a token to itself), or, between two different tokens,
the walk of a candidate path that ends with a positive amount. -/
theorem FindGoodTradePath_cases (M : MatchingPrimitive) (fuel MaxPaths BaseAmplifier : Nat)
    (maxPathLen : Nat) (states : PoolPairStates) (source dest : String) (sellAmt : Nat)
    (pools : List (Option Pdexv3PoolPair)) (ids : List String) (r : Nat)
    (h : FindGoodTradePath M fuel MaxPaths BaseAmplifier maxPathLen states source dest sellAmt
      = .ok (pools, ids, r)) :
    (pools = [] ∧ ids = [] ∧ (r = 0 ∨ source = dest)) ∨
    (source ≠ dest ∧ 0 < r ∧ ∃ simplePools, simplePoolsOf BaseAmplifier states = .ok simplePools ∧
      ∃ p ∈ findPaths MaxPaths ((maxPathLen + 1) % uint64Bound) simplePools source dest,
        walkPath M fuel states p sellAmt [] [] = .ok (pools, ids, r)) := by
  unfold FindGoodTradePath at h
  cases hsp : simplePoolsOf BaseAmplifier states with
  | err e => rw [hsp] at h; simp [Result.bind] at h
  | crash p => rw [hsp] at h; simp [Result.bind] at h
  | outOfFuel => rw [hsp] at h; simp [Result.bind] at h
  | ok simplePools =>
    rw [hsp] at h
    simp only [Result.bind] at h
    by_cases hlen :
        (findPaths MaxPaths ((maxPathLen + 1) % uint64Bound) simplePools source dest).length = 0
    · rw [if_pos hlen] at h
      simp only [Result.ok.injEq, Prod.mk.injEq] at h
      obtain ⟨rfl, rfl, rfl⟩ := h
      exact Or.inl ⟨rfl, rfl, Or.inl rfl⟩
    · rw [if_neg hlen] at h
      obtain ⟨ws, hws, hc⟩ := selectPath_ok M fuel states sellAmt _ _ _ h
      by_cases hsd : source = dest
      · subst hsd
        rw [findPaths_self] at hws hlen
        by_cases hM : 0 = MaxPaths
        · rw [if_pos hM] at hlen; exact absurd rfl hlen
        · rw [if_neg hM] at hws
          cases hws with
          | cons hw hrest =>
            cases hrest
            simp only [walkPath, Result.ok.injEq] at hw
            subst hw
            simp only [List.foldl_cons, List.foldl_nil, keepBetter, List.length_nil,
              true_or, if_true, Prod.mk.injEq] at hc
            obtain ⟨rfl, rfl, rfl⟩ := hc
            exact Or.inl ⟨rfl, rfl, Or.inr rfl⟩
      · have hne : ∀ w ∈ ws, w.1.length ≠ 0 := by
          intro w hw
          obtain ⟨p, hp, hpw⟩ := forall₂_mem_right _ _ _ hws w hw
          have h2 := findPaths_length MaxPaths _ simplePools source dest hsd p hp
          have := walkPath_length M fuel states p sellAmt [] [] w hpw
          rw [this]
          simp only [List.length_nil]
          omega
        obtain ⟨-, -, k3⟩ := foldl_keepBetter ws hne ([], [], 0)
        rw [← hc] at k3
        rcases k3 with hk | ⟨l1, w, l2, e1, e2, e3, -⟩
        · simp only [Prod.mk.injEq] at hk
          exact Or.inl ⟨hk.1, hk.2.1, Or.inl hk.2.2⟩
        · right
          have hw : w ∈ ws := by rw [e1]; simp
          obtain ⟨p, hp, hpw⟩ := forall₂_mem_right _ _ _ hws w hw
          subst e2
          exact ⟨hsd, e3, simplePools, rfl, p, hp, hpw⟩

/-- C26: whenever `FindGoodTradePath` returns a non-empty path of pool identifiers with
the amount `r`, `TradePathFromState` reads the path back from the snapshot (the pools
returned, their order books and the directions), and `EstimateReceivingAmount` over the
whole path, with fee `0` and minimum `0`, returns `r`. -/
theorem FindGoodTradePath_quote (M : MatchingPrimitive) (fuel MaxPaths BaseAmplifier : Nat)
    (maxPathLen : Nat) (states : PoolPairStates) (source dest : String) (sellAmt : Nat)
    (pools : List (Option Pdexv3PoolPair)) (ids : List String) (r : Nat)
    (hk : (states.map Prod.fst).Nodup)
    (h : FindGoodTradePath M fuel MaxPaths BaseAmplifier maxPathLen states source dest sellAmt
      = .ok (pools, ids, r))
    (hne : ids ≠ []) :
    ∃ reserves orderBooks tradeDirections,
      TradePathFromState source ids states = .ok (reserves, orderBooks, tradeDirections) ∧
      EstimateReceivingAmount M fuel sellAmt 0 reserves tradeDirections 0 orderBooks = .ok r ∧
      pools = reserves.map some := by
  rcases FindGoodTradePath_cases M fuel MaxPaths BaseAmplifier maxPathLen states source dest
    sellAmt pools ids r h with ⟨-, h2, -⟩ | ⟨-, hr, sp, -, p, hp, hw⟩
  · exact absurd h2 hne
  · have hroute := findPath_sound MaxPaths (buildGraph sp)
      (intOfUint ((maxPathLen + 1) % uint64Bound)) dest source _ source [] [] []
      (by simp) (by simp) (by simp) (by simp) (by simp) (by simp) p hp
    obtain ⟨hhead, -, hnd, -, -⟩ := hroute
    obtain ⟨hops, ids1, j1, j2, j3, j4, j5⟩ := walkPath_hops M fuel states hk p sellAmt [] []
      _ (List.Pairwise.chain' hnd) hw hr
    simp only [List.nil_append] at j2 j3
    subst j3
    have hgo := j5 source [] [] [] hhead
    simp only [List.nil_append] at hgo
    refine ⟨_, _, _, hgo, ?_, ?_⟩
    · have hops_ne : hops ≠ [] := by
        intro hnil
        apply hne
        rw [hnil] at j1
        exact List.length_eq_zero.1 j1
      simp only [EstimateReceivingAmount, List.length_map, ne_eq, not_true_eq_false, or_self,
        if_false, Nat.not_lt_zero, Nat.sub_zero, zip_hops]
      have e : estimateHops M fuel hops sellAmt 0 = estimateHops M fuel hops sellAmt sellAmt := by
        cases hops with
        | nil => exact absurd rfl hops_ne
        | cons x t => rfl
      rw [e, j4]
    · rw [j2]; simp [List.map_map]

/-- Witness of C26 on the sample snapshot: the path `p1, p2` returned for selling 1000 of
`X` for `Z` is estimated at the amount returned, 1996. -/
theorem FindGoodTradePath_quote_witness :
    FindGoodTradePath noMatching 1 20 10000 3 sampleStates "X" "Z" 1000
        = .ok ([some poolXY, some poolYZ], ["p1", "p2"], 1996) ∧
      ∃ reserves orderBooks tradeDirections,
        TradePathFromState "X" ["p1", "p2"] sampleStates
          = .ok (reserves, orderBooks, tradeDirections) ∧
        EstimateReceivingAmount noMatching 1 1000 0 reserves tradeDirections 0 orderBooks
          = .ok 1996 ∧
        [some poolXY, some poolYZ] = reserves.map some :=
  ⟨by decide,
    FindGoodTradePath_quote noMatching 1 20 10000 3 sampleStates "X" "Z" 1000
      [some poolXY, some poolYZ] ["p1", "p2"] 1996 (by decide) (by decide) (by decide)⟩

/-- C30: for a snapshot without a zero amplifier whose pools have empty order books and
non-negative virtual reserves `FindGoodTradePath` returns; and whenever it returns, the
path of pool identifiers has at most `maxPathLen` entries, the list of pools has the
length of the path, and when the path is not empty the amount is positive and every
identifier of the path is a key of the snapshot. -/
theorem FindGoodTradePath_shape (M : MatchingPrimitive)
    (fuel MaxPaths BaseAmplifier maxPathLen : Nat) (states : PoolPairStates)
    (source dest : String) (sellAmt : Nat) :
    ((∀ e ∈ states, e.2.State.Amplifier % uint64Bound ≠ 0 ∧ e.2.Orderbook = [] ∧
        0 ≤ e.2.State.Token0VirtualAmount ∧ 0 ≤ e.2.State.Token1VirtualAmount) →
      ∃ res, FindGoodTradePath M (fuel + 1) MaxPaths BaseAmplifier maxPathLen states source
        dest sellAmt = .ok res) ∧
    (∀ pools ids r,
      FindGoodTradePath M fuel MaxPaths BaseAmplifier maxPathLen states source dest sellAmt
        = .ok (pools, ids, r) →
      ids.length ≤ maxPathLen ∧ pools.length = ids.length ∧
        (ids ≠ [] → 0 < r ∧ ∀ id ∈ ids, id ∈ states.map Prod.fst)) := by
  refine ⟨FindGoodTradePath_returns M fuel MaxPaths BaseAmplifier maxPathLen states source
    dest sellAmt, ?_⟩
  intro pools ids r h
  rcases FindGoodTradePath_cases M fuel MaxPaths BaseAmplifier maxPathLen states source dest
    sellAmt pools ids r h with ⟨h1, h2, -⟩ | ⟨-, hr, sp, -, p, hp, hw⟩
  · subst h1; subst h2
    simp
  · have hlen := findPaths_length_le MaxPaths _ sp source dest p hp
    have hids := walkPath_ids_length M fuel states p sellAmt [] [] _ hw
    have hpools := walkPath_length M fuel states p sellAmt [] [] _ hw
    simp only [List.length_nil, Nat.zero_add] at hids hpools
    have hkeys := walkPath_keys M fuel states p sellAmt [] [] _ hw hr
    simp only at hkeys
    refine ⟨?_, by rw [hids, hpools], fun _ => ⟨hr, ?_⟩⟩
    · rw [hids]
      have h1 : (maxPathLen + 1) % uint64Bound % uint64Bound ≤ maxPathLen + 1 := by
        rw [Nat.mod_mod]
        exact Nat.mod_le _ _
      have h2 : max 1 ((maxPathLen + 1) % uint64Bound % uint64Bound) ≤ maxPathLen + 1 :=
        max_le (by omega) h1
      omega
    · intro id hid
      rcases hkeys id hid with h1 | h1
      · simp at h1
      · exact h1

/-- Witness of C30 on the sample snapshot: the path `p1, p2` returned for selling 1000 of
`X` for `Z` with `maxPathLen = 3`. -/
theorem FindGoodTradePath_shape_witness :
    FindGoodTradePath noMatching 1 20 10000 3 sampleStates "X" "Z" 1000
        = .ok ([some poolXY, some poolYZ], ["p1", "p2"], 1996) ∧
      (["p1", "p2"].length ≤ 3 ∧
        [some poolXY, some poolYZ].length = ["p1", "p2"].length ∧
        (["p1", "p2"] ≠ [] →
          0 < 1996 ∧ ∀ id ∈ ["p1", "p2"], id ∈ sampleStates.map Prod.fst)) :=
  ⟨by decide,
    (FindGoodTradePath_shape noMatching 1 20 10000 3 sampleStates "X" "Z" 1000).2
      [some poolXY, some poolYZ] ["p1", "p2"] 1996 (by decide)⟩

end Pdex_v3
